import Mathlib

/-!
# chili-tradutor-go: protection of sensitive substrings and the translation cache

A shallow embedding of the translation core of `chili-tradutor-go`
(`src/chili-tradutor-go-v2.1.19.go` and `src/chili-tradutor-go-v1.5.7.go`).

Go strings are modelled as lists of runes (`Str`).  Go maps are modelled as
association lists with unique keys, in insertion order.  A `range` over a map
visits the entries in an order Go leaves unspecified; functions that range over
a map receive the entries in the order of the visit, and statements about them
quantify over every permutation of the entries.
-/

namespace ChiliTradutor

/-- Go strings, as lists of runes. -/
abbrev Str := List Char

/-! ## Library functions: `strings`, `fmt`, `unicode` -/

/-- One decimal digit as a rune. -/
def digitChar (d : Nat) : Char :=
  match d with
  | 0 => '0' | 1 => '1' | 2 => '2' | 3 => '3' | 4 => '4'
  | 5 => '5' | 6 => '6' | 7 => '7' | 8 => '8' | _ => '9'

/-- Decimal digits of `n`, most significant first; `fuel` bounds the number of digits. -/
def itoaAux : Nat → Nat → Str
  | 0, _ => []
  | fuel + 1, n =>
    if n < 10 then [digitChar n] else itoaAux fuel (n / 10) ++ [digitChar (n % 10)]

/-- The verb `%d` of `fmt.Sprintf` on a non-negative integer. -/
def itoa (n : Nat) : Str := itoaAux (n + 1) n

/-- `strings.HasPrefix s p`, with the prefix first. -/
def hasPrefix : Str → Str → Bool
  | [], _ => true
  | _ :: _, [] => false
  | a :: p, b :: s => a == b && hasPrefix p s

/-- `strings.Replace(s, old, new, 1)`: the first occurrence of `old` in `s`, scanning from the
left, is replaced by `new`; an empty `old` matches at the start of `s`. -/
def replaceFirst (s old new : Str) : Str :=
  match s with
  | [] => if old = [] then new else []
  | c :: cs =>
    if hasPrefix old (c :: cs) then new ++ (c :: cs).drop old.length
    else c :: replaceFirst cs old new

/-- Scan of `strings.Replace(s, old, new, -1)` for a non-empty `old`: `skip` runes of an
occurrence that has just been replaced are still to be passed over. -/
def replaceAllAux (old new : Str) : Nat → Str → Str
  | _, [] => []
  | skip + 1, _ :: cs => replaceAllAux old new skip cs
  | 0, c :: cs =>
    if hasPrefix old (c :: cs) then new ++ replaceAllAux old new (old.length - 1) cs
    else c :: replaceAllAux old new 0 cs

/-- The replacement `strings.Replace(s, "", new, -1)`: `new` is inserted before every rune
and at the end. -/
def insertEverywhere (new : Str) : Str → Str
  | [] => new
  | c :: cs => new ++ c :: insertEverywhere new cs

/-- `strings.Replace(s, old, new, -1)` (and `strings.ReplaceAll`): the non-overlapping
occurrences of `old`, found from left to right, are replaced by `new`. -/
def replaceAll (s old new : Str) : Str :=
  if old = [] then insertEverywhere new s else replaceAllAux old new 0 s

/-- `unicode.IsSpace`. -/
def isSpace (c : Char) : Bool :=
  let n := c.toNat
  n = 0x09 || n = 0x0A || n = 0x0B || n = 0x0C || n = 0x0D || n = 0x20 || n = 0x85 || n = 0xA0 ||
  n = 0x1680 || (0x2000 ≤ n && n ≤ 0x200A) || n = 0x2028 || n = 0x2029 || n = 0x202F ||
  n = 0x205F || n = 0x3000

/-- Removal of the trailing runes that satisfy `p`. -/
def dropWhileEnd (p : Char → Bool) (s : Str) : Str :=
  (s.reverse.dropWhile p).reverse

/-- `strings.TrimSpace`. -/
def trimSpace (s : Str) : Str :=
  dropWhileEnd isSpace (s.dropWhile isSpace)

/-- `strings.Trim(s, cutset)` for a cutset of one rune. -/
def trimRune (q : Char) (s : Str) : Str :=
  dropWhileEnd (fun c => c == q) (s.dropWhile (fun c => c == q))

/-- `unicode.ToLower` on one rune.  On ASCII it maps `A`..`Z` to `a`..`z` and nothing else;
the case table of the other runes belongs to the Go library and is the parameter `u`. -/
def lowerRune (u : Char → Char) (c : Char) : Char :=
  if c.toNat < 128 then c.toLower else u c

/-- `strings.ToLower`. -/
def toLower (u : Char → Char) (s : Str) : Str :=
  s.map (lowerRune u)

/-! ## Go maps -/

/-- A Go map with string keys: its entries, keys unique, in insertion order. -/
abbrev GoMap (α : Type) := List (Str × α)

/-- The read `m[k]` with the comma-ok form. -/
def mapGet {α : Type} : GoMap α → Str → Option α
  | [], _ => none
  | (k', v) :: rest, k => if k' = k then some v else mapGet rest k

/-- The assignment `m[k] = v`. -/
def mapSet {α : Type} : GoMap α → Str → α → GoMap α
  | [], k, v => [(k, v)]
  | (k', v') :: rest, k, v =>
    if k' = k then (k, v) :: rest else (k', v') :: mapSet rest k v

/-- The built-in `delete(m, k)`. -/
def mapDelete {α : Type} : GoMap α → Str → GoMap α
  | [], _ => []
  | (k', v) :: rest, k => if k' = k then mapDelete rest k else (k', v) :: mapDelete rest k

/-- The keys of a map. -/
def mapKeys {α : Type} (m : GoMap α) : List Str :=
  m.map Prod.fst

/-! ## The protected-pattern regular expression of v2.1.19

`(\$\{[A-Za-z0-9_.]+\}|\$[A-Za-z0-9_.]+|%[a-z]|!\[.*?\]\(.*?\)|\[.*?\]\(.*?\)|https?://[^\s]+)`

Go's `regexp` gives leftmost-first matches: at a position the alternatives are tried in
order, a greedy repetition takes the longest run that lets the rest match, a lazy one the
shortest.  Each function below takes the text from the current position on and returns
the match together with the text left after it.
-/

/-- The class `[A-Za-z0-9_.]`. -/
def isVarChar (c : Char) : Bool :=
  c.isAlphanum || c == '_' || c == '.'

/-- The class `\s` of the regular expression (ASCII white space). -/
def isReSpace (c : Char) : Bool :=
  c == '\t' || c == '\n' || c == '\x0c' || c == '\r' || c == ' '

/-- The class `[^\s]`. -/
def isUrlChar (c : Char) : Bool :=
  !isReSpace c

/-- Alternative `\$\{[A-Za-z0-9_.]+\}`. -/
def altBraced : Str → Option (Str × Str)
  | '$' :: '{' :: t =>
    match t.span isVarChar with
    | ([], _) => none
    | (w, '}' :: r) => some ('$' :: '{' :: w ++ ['}'], r)
    | _ => none
  | _ => none

/-- Alternative `\$[A-Za-z0-9_.]+`. -/
def altDollar : Str → Option (Str × Str)
  | '$' :: t =>
    match t.span isVarChar with
    | ([], _) => none
    | (w, r) => some ('$' :: w, r)
  | _ => none

/-- Alternative `%[a-z]`. -/
def altPercent : Str → Option (Str × Str)
  | '%' :: c :: r => if c.isLower then some (['%', c], r) else none
  | _ => none

/-- The tail `.*?\)`: the shortest run without a newline that is followed by `)`. -/
def lazyParen : Str → Option (Str × Str)
  | [] => none
  | c :: cs =>
    if c = ')' then some ([')'], cs)
    else if c = '\n' then none
    else
      match lazyParen cs with
      | some (y, r) => some (c :: y, r)
      | none => none

/-- The tail `.*?\]\(.*?\)`: the shortest run without a newline after which `](`, a lazy run
and `)` follow. -/
def lazyBracket : Str → Option (Str × Str)
  | [] => none
  | c :: cs =>
    let here : Option (Str × Str) :=
      match c, cs with
      | ']', '(' :: r =>
        match lazyParen r with
        | some (y, r') => some (']' :: '(' :: y, r')
        | none => none
      | _, _ => none
    match here with
    | some res => some res
    | none =>
      if c = '\n' then none
      else
        match lazyBracket cs with
        | some (x, r) => some (c :: x, r)
        | none => none

/-- Alternative `!\[.*?\]\(.*?\)`. -/
def altImage : Str → Option (Str × Str)
  | '!' :: '[' :: t =>
    match lazyBracket t with
    | some (x, r) => some ('!' :: '[' :: x, r)
    | none => none
  | _ => none

/-- Alternative `\[.*?\]\(.*?\)`. -/
def altLink : Str → Option (Str × Str)
  | '[' :: t =>
    match lazyBracket t with
    | some (x, r) => some ('[' :: x, r)
    | none => none
  | _ => none

/-- The tail `://[^\s]+` of the URL alternative, after the scheme `pre`. -/
def urlTail (pre : Str) : Str → Option (Str × Str)
  | ':' :: '/' :: '/' :: t =>
    match t.span isUrlChar with
    | ([], _) => none
    | (w, r) => some (pre ++ ':' :: '/' :: '/' :: w, r)
  | _ => none

/-- Alternative `https?://[^\s]+`. -/
def altUrl : Str → Option (Str × Str)
  | 'h' :: 't' :: 't' :: 'p' :: t =>
    match t with
    | 's' :: t' =>
      match urlTail ['h', 't', 't', 'p', 's'] t' with
      | some res => some res
      | none => urlTail ['h', 't', 't', 'p'] t
    | _ => urlTail ['h', 't', 't', 'p'] t
  | _ => none

/-- The match of the regular expression that starts at the head of the text, if any: the
first alternative, in the order written, that matches there. -/
def matchAt (s : Str) : Option (Str × Str) :=
  (altBraced s).orElse fun _ =>
  (altDollar s).orElse fun _ =>
  (altPercent s).orElse fun _ =>
  (altImage s).orElse fun _ =>
  (altLink s).orElse fun _ =>
  altUrl s

/-- Scan of `re.FindAllString(text, -1)`: at each position the match starting there is taken
and the scan goes on after it, or the scan moves one rune on.  Every step consumes a rune,
so a `fuel` of the length of the text is enough. -/
def findAllFrom : Nat → Str → List Str
  | 0, _ => []
  | _ + 1, [] => []
  | fuel + 1, c :: cs =>
    match matchAt (c :: cs) with
    | some (m, r) => m :: findAllFrom fuel r
    | none => findAllFrom fuel cs

/-- `re.FindAllString(text, -1)`: the successive non-overlapping matches, left to right. -/
def findAllString (text : Str) : List Str :=
  findAllFrom text.length text

/-! ## v2.1.19: `protectVariables` and `restoreVariables` -/

/-- The placeholder `fmt.Sprintf("CHILI_REF_%d_CHILI", i)`. -/
def token (i : Nat) : Str :=
  ['C', 'H', 'I', 'L', 'I', '_', 'R', 'E', 'F', '_'] ++ itoa i ++ ['_', 'C', 'H', 'I', 'L', 'I']

/-- The loop of `protectVariables` over the matches, from index `i` on: the state is the
partially protected text and the placeholder map. -/
def protectLoop : Nat → List Str → Str × GoMap Str → Str × GoMap Str
  | _, [], acc => acc
  | i, m :: ms, (prot, placeholders) =>
    protectLoop (i + 1) ms (replaceFirst prot m (token i), mapSet placeholders (token i) m)

/-- `protectVariables`: the protected text and the placeholder map. -/
def protectVariables (text : Str) : Str × GoMap Str :=
  protectLoop 0 (findAllString text) (text, [])

/-- `restoreVariables`; `p` lists the entries of the placeholder map in the order in which
the `range` statement visits them. -/
def restoreVariables (text : Str) (p : List (Str × Str)) : Str :=
  p.foldl (fun t kv => replaceAll t kv.1 kv.2) text

/-! ## v2.1.19: the translation cache and `callUniversalTranslator`

The global variables of the program are split into the settings that `main` and `parseFlags`
fix before any translation (`Config`) and the data that the translation changes (`State`).
A call is modelled as one atomic step; what it does to the outside is recorded in a trace.
The counters `cacheHits`, `netCalls` (`int`) and `failedCalls` (`int32`) start at zero when
the process starts and grow by one per call at most, so they are natural numbers here.
Instants are counted in nanoseconds. -/

/-- One day, in the nanoseconds in which instants are counted. -/
def day : Int := 86400 * 1000000000

/-- `CacheEntry`; `LastUsed` is an instant on the time line. -/
structure CacheEntry where
  Value : Str
  LastUsed : Int
  deriving DecidableEq

/-- The type of `cacheData`: language code, then normalised text.  An inner map can be the
nil map (`none`): it reads and ranges as an empty map, and an assignment into it panics. -/
abbrev Cache := GoMap (Option (GoMap CacheEntry))

/-- The settings: `forceFlag`, `isOnline`, `engine`, `sourceLang`. -/
structure Config where
  forceFlag : Bool
  isOnline : Bool
  engine : Str
  sourceLang : Str

/-- The data a translation changes: `cacheData` (`none` is the nil map), `cacheHits`,
`netCalls`, `failedCalls`. -/
structure State where
  cacheData : Option Cache
  cacheHits : Nat
  netCalls : Nat
  failedCalls : Nat
  deriving DecidableEq

/-- What a call does to the outside: `mu.Lock()`, `mu.Unlock()`, one run of the command
`trans` with its arguments and standard input, `time.Sleep` of a number of seconds, and a
run-time panic, which ends the process. -/
inductive Event where
  | lock
  | unlock
  | exec (engine sourceLang transLang stdin : Str)
  | sleep (seconds : Nat)
  | panic
  deriving DecidableEq

/-- What the outside gives to one call: the reading of `time.Now()`, the outcome of the
`i`-th run of `trans` (its output, or `none` when `cmd.Output()` returns an error), and the
order in which `range` visits a placeholder map. -/
structure Env where
  now : Int
  run : Nat → Option Str
  order : GoMap Str → List (Str × Str)

/-- The outcome of a call: the returned string, the new state, the trace.  A call that panics
returns nothing: its string is empty, its state is the one in which the panic happens, and
its trace ends with `panic`. -/
structure Result where
  ret : Str
  st : State
  trace : List Event

/-- The entry of the cache under a language and a key, if any. -/
def cacheLookup (c : Option Cache) (lang key : Str) : Option CacheEntry :=
  match c with
  | none => none
  | some m =>
    match mapGet m lang with
    | some (some l) => mapGet l key
    | _ => none

/-- The retry loop of `callUniversalTranslator`, with `n` attempts left and the loop variable
at `i`: the restored output of the first run that succeeds, or `none` when every run fails;
each failed run is followed by a sleep of `i+1` seconds. -/
def retryLoop (run : Nat → Option Str) (cmd : Event) (restore : Str → Str) :
    Nat → Nat → Option Str × List Event
  | 0, _ => (none, [])
  | n + 1, i =>
    match run i with
    | some out => (some (restore (trimSpace out)), [cmd])
    | none =>
      let rest := retryLoop run cmd restore n (i + 1)
      (rest.1, cmd :: Event.sleep (i + 1) :: rest.2)

/-- The two statements at the head of the critical section, `if cacheData == nil` and
`if _, ok := cacheData[lang]; !ok`, which make the missing maps: the cache afterwards.  A
key that is present with the nil map passes the second test and stays as it is. -/
def ensureLang (cacheData : Option Cache) (lang : Str) : Cache :=
  let cache0 : Cache := match cacheData with
    | none => []
    | some c => c
  match mapGet cache0 lang with
  | some _ => cache0
  | none => mapSet cache0 lang (some [])

/-- The entries of the inner map `cacheData[lang]` as a read finds them: none when the map
is nil or the key is missing. -/
def langEntries (c : Cache) (lang : Str) : GoMap CacheEntry :=
  match mapGet c lang with
  | some (some l) => l
  | _ => []

/-- The assignment `cacheData[lang][key] = e`: the cache afterwards, or `none` when the
assignment panics, the inner map `cacheData[lang]` being nil (a missing key reads as the
nil map too). -/
def cacheStore (c : Cache) (lang key : Str) (e : CacheEntry) : Option Cache :=
  match mapGet c lang with
  | some (some l) => some (mapSet c lang (some (mapSet l key e)))
  | _ => none

/-- `callUniversalTranslator`. -/
def callUniversalTranslator (u : Char → Char) (cfg : Config) (env : Env) (st : State)
    (text lang : Str) : Result :=
  let text := trimSpace text
  if text = [] then ⟨[], st, []⟩
  else
    let normID := toLower u text
    let cache := ensureLang st.cacheData lang
    match mapGet (langEntries cache lang) normID, cfg.forceFlag with
    | some entry, false =>
      match cacheStore cache lang normID { entry with LastUsed := env.now } with
      | some cache' =>
        ⟨entry.Value, { st with cacheData := some cache', cacheHits := st.cacheHits + 1 },
          [Event.lock, Event.unlock]⟩
      | none => ⟨[], { st with cacheData := some cache }, [Event.lock, Event.panic]⟩
    | _, _ =>
      if !cfg.isOnline then
        ⟨text, { st with cacheData := some cache }, [Event.lock, Event.unlock]⟩
      else
        let transLang := replaceAll lang ['_'] ['-']
        let pv := protectVariables text
        let cmd := Event.exec cfg.engine cfg.sourceLang transLang pv.1
        match retryLoop env.run cmd (fun out => restoreVariables out (env.order pv.2)) 3 0 with
        | (none, tr) =>
          ⟨text, { st with cacheData := some cache, failedCalls := st.failedCalls + 1 },
            [Event.lock, Event.unlock] ++ tr⟩
        | (some res, tr) =>
          match cacheStore cache lang normID ⟨res, env.now⟩ with
          | some cache' =>
            ⟨res, { st with cacheData := some cache', netCalls := st.netCalls + 1 },
              [Event.lock, Event.unlock] ++ tr ++ [Event.lock, Event.unlock]⟩
          | none =>
            ⟨[], { st with cacheData := some cache, netCalls := st.netCalls + 1 },
              [Event.lock, Event.unlock] ++ tr ++ [Event.lock, Event.panic]⟩

/-- The trace contains a run of the external translator. -/
def hasExec (tr : List Event) : Bool :=
  tr.any fun e => match e with
    | Event.exec _ _ _ _ => true
    | _ => false

/-! ## v2.1.19: `doCleanCache` -/

/-- The inner loop of `doCleanCache`, `for id, e := range cacheData[l]`, over the keys still to
be visited: the inner map afterwards and the number of entries deleted. -/
def cleanEntries (limit : Int) : List Str → GoMap CacheEntry → GoMap CacheEntry × Nat
  | [], m => (m, 0)
  | id :: ids, m =>
    match mapGet m id with
    | some e =>
      if e.LastUsed < limit then
        ((cleanEntries limit ids (mapDelete m id)).1,
          (cleanEntries limit ids (mapDelete m id)).2 + 1)
      else cleanEntries limit ids m
    | none => cleanEntries limit ids m

/-- The outer loop of `doCleanCache`, `for l := range cacheData`, over the language codes
still to be visited; `visit` gives the order in which `range` visits the keys of a map.  The
range over a nil inner map visits nothing. -/
def cleanLangs (limit : Int) (visit : List Str → List Str) : List Str → Cache → Cache × Nat
  | [], c => (c, 0)
  | l :: ls, c =>
    match mapGet c l with
    | some (some inner) =>
      ((cleanLangs limit visit ls
          (mapSet c l (some (cleanEntries limit (visit (mapKeys inner)) inner).1))).1,
        (cleanLangs limit visit ls
          (mapSet c l (some (cleanEntries limit (visit (mapKeys inner)) inner).1))).2 +
          (cleanEntries limit (visit (mapKeys inner)) inner).2)
    | _ => cleanLangs limit visit ls c

/-- `t.AddDate(0, 0, days)`: the instant at which the clock on the wall reads what it reads at
`t`, `days` days later.  `zoneShift` is the offset of the time zone at `t` minus its offset
at that instant: zero when the zone has the same offset at both, as UTC always has, one hour
more or less across a change to or from summer time. -/
def addDate (zoneShift : Int) (t : Int) (days : Int) : Int :=
  t + days * day + zoneShift

/-- `doCleanCache`: the state afterwards and the count that is printed.  `now` is the reading
of `time.Now()`, `zoneShift` that of `addDate` for the local time zone; `e.LastUsed.Before
(limit)` is `e.LastUsed < limit`. -/
def doCleanCache (now zoneShift : Int) (visit : List Str → List Str) (st : State) :
    State × Nat :=
  let limit := addDate zoneShift now (-30)
  match st.cacheData with
  | none => (st, 0)
  | some c =>
    ({ st with cacheData := some (cleanLangs limit visit (visit (mapKeys c)) c).1 },
      (cleanLangs limit visit (visit (mapKeys c)) c).2)

/-! ## v2.1.19: `runTranslationLoop`

The goroutines of `runTranslationLoop` are modelled as an interleaving of atomic steps.  There
is one worker per target language; the buffered channel `sem` is its number of elements. -/

/-- Where a worker of `runTranslationLoop` stands: before the send `sem <- struct{}{}`; in
the translation of its language, inside or outside a run of the external translator; after
`atomic.AddInt32(&langsDone, 1)` and before the receive `<-sem`; after the receive. -/
inductive Phase where
  | waiting
  | translating (inCall : Bool)
  | counted
  | done
  deriving DecidableEq

/-- The state of `runTranslationLoop`: the phase of the worker of each target language, the
number of elements in the channel `sem`, and `langsDone`. -/
structure Sched where
  phases : List Phase
  sem : Nat
  langsDone : Nat
  deriving DecidableEq

/-- The atomic steps, each by the worker of the language of index `i`: the send on `sem` into
the buffer; the start and the end of a run of the external translator; the increment of
`langsDone` when the translation of the language is over; the receive from `sem`; and, for a
channel without buffer, the send of the worker `i` meeting the receive of the worker `j`. -/
inductive Action where
  | acquire (i : Nat)
  | startCall (i : Nat)
  | endCall (i : Nat)
  | finish (i : Nat)
  | release (i : Nat)
  | handOver (i j : Nat)
  deriving DecidableEq

/-- The phase of the worker of index `i`. -/
def getPhase : List Phase → Nat → Option Phase
  | [], _ => none
  | p :: _, 0 => some p
  | _ :: ps, i + 1 => getPhase ps i

/-- The phases with the worker of index `i` moved to the phase `q`. -/
def setPhase : List Phase → Nat → Phase → List Phase
  | [], _, _ => []
  | _ :: ps, 0, q => q :: ps
  | p :: ps, i + 1, q => p :: setPhase ps i q

/-- The state when the loop starts: every worker before its send, the channel empty,
`langsDone` reset by `processSingleFile`. -/
def initSched (targetLangs : List Str) : Sched :=
  ⟨targetLangs.map (fun _ => Phase.waiting), 0, 0⟩

/-- One step of `runTranslationLoop` with the channel capacity `jobs`; `none` when the step
is not possible in the state (the worker is elsewhere, or it blocks). -/
def schedStep (jobs : Nat) (s : Sched) : Action → Option Sched
  | Action.acquire i =>
    if getPhase s.phases i = some Phase.waiting ∧ s.sem < jobs then
      some { s with phases := setPhase s.phases i (Phase.translating false), sem := s.sem + 1 }
    else none
  | Action.startCall i =>
    if getPhase s.phases i = some (Phase.translating false) then
      some { s with phases := setPhase s.phases i (Phase.translating true) }
    else none
  | Action.endCall i =>
    if getPhase s.phases i = some (Phase.translating true) then
      some { s with phases := setPhase s.phases i (Phase.translating false) }
    else none
  | Action.finish i =>
    if getPhase s.phases i = some (Phase.translating false) then
      some { s with phases := setPhase s.phases i Phase.counted, langsDone := s.langsDone + 1 }
    else none
  | Action.release i =>
    if getPhase s.phases i = some Phase.counted ∧ 0 < s.sem then
      some { s with phases := setPhase s.phases i Phase.done, sem := s.sem - 1 }
    else none
  | Action.handOver i j =>
    if jobs = 0 ∧ getPhase s.phases i = some Phase.waiting ∧
        getPhase s.phases j = some Phase.counted then
      some { s with
        phases := setPhase (setPhase s.phases i (Phase.translating false)) j Phase.done }
    else none

/-- A run of `runTranslationLoop`: the state after a sequence of steps, `none` when one of
them is not possible. -/
def schedRun (jobs : Nat) : Sched → List Action → Option Sched
  | s, [] => some s
  | s, a :: rest =>
    match schedStep jobs s a with
    | some s' => schedRun jobs s' rest
    | none => none

/-! ## v2.1.19: `translateMarkdown`

The loops over the lines of a file make their calls of `callUniversalTranslator` one after the
other, each from the state that the call before left. -/

/-- `strings.Split(s, "\n")`: the runs between the line feeds; a text without line feed is
one run. -/
def splitLines : Str → List Str
  | [] => [[]]
  | c :: cs =>
    if c = '\n' then [] :: splitLines cs
    else
      match splitLines cs with
      | l :: ls => (c :: l) :: ls
      | [] => [[c]]

/-- `strings.Join(lines, "\n")`. -/
def joinLines : List Str → Str
  | [] => []
  | [l] => l
  | l :: ls => l ++ '\n' :: joinLines ls

/-- The match of `^(\s*#+\s*|\s*[\*\-\+]\s*|\s*\d+\.\s*)` at the start of a line, as
`rePrefix.FindStringIndex` finds it: the matched text and the text after it.  Every
repetition is greedy and what follows it cannot start with a rune of the repeated class, so
each one takes its longest run. -/
def mdPrefix (line : Str) : Option (Str × Str) :=
  let ws := line.takeWhile isReSpace
  match line.dropWhile isReSpace with
  | [] => none
  | c :: r =>
    if c = '#' then
      let r2 := r.dropWhile (fun x => x == '#')
      some (ws ++ c :: r.takeWhile (fun x => x == '#') ++ r2.takeWhile isReSpace,
        r2.dropWhile isReSpace)
    else if c = '*' ∨ c = '-' ∨ c = '+' then
      some (ws ++ c :: r.takeWhile isReSpace, r.dropWhile isReSpace)
    else if c.isDigit then
      match r.dropWhile Char.isDigit with
      | '.' :: r2 =>
        some (ws ++ c :: r.takeWhile Char.isDigit ++ '.' :: r2.takeWhile isReSpace,
          r2.dropWhile isReSpace)
      | _ => none
    else none

/-- The loop of `translateMarkdown` over the lines from the index `i` on, with the flag
`inCodeBlock`: the lines appended to `translatedLines` and the state afterwards, or `none`
and the state at the panic when a call of `callUniversalTranslator` panics.  `envAt i` is
what the outside gives to the call for the line of index `i`. -/
def markdownLoop (u : Char → Char) (cfg : Config) (envAt : Nat → Env) (lang : Str) :
    Nat → Bool → State → List Str → Option (List Str) × State
  | _, _, st, [] => (some [], st)
  | i, inCodeBlock, st, line :: rest =>
    if hasPrefix "```".toList (trimSpace line) then
      ((markdownLoop u cfg envAt lang (i + 1) (!inCodeBlock) st rest).1.map
          (fun ls => line :: ls),
        (markdownLoop u cfg envAt lang (i + 1) (!inCodeBlock) st rest).2)
    else if inCodeBlock || trimSpace line == [] then
      ((markdownLoop u cfg envAt lang (i + 1) inCodeBlock st rest).1.map
          (fun ls => line :: ls),
        (markdownLoop u cfg envAt lang (i + 1) inCodeBlock st rest).2)
    else
      let split : Str × Str := match mdPrefix line with
        | some loc => loc
        | none => ([], line)
      let res := callUniversalTranslator u cfg (envAt i) st split.2 lang
      if res.trace.contains Event.panic then (none, res.st)
      else
        ((markdownLoop u cfg envAt lang (i + 1) inCodeBlock res.st rest).1.map
            (fun ls => (split.1 ++ res.ret) :: ls),
          (markdownLoop u cfg envAt lang (i + 1) inCodeBlock res.st rest).2)

/-- `translateMarkdown` on the content of the input file (empty when the file cannot be
read): the content written to the output file and the state afterwards; no file is written
(`none`) when a call panics. -/
def translateMarkdown (u : Char → Char) (cfg : Config) (envAt : Nat → Env) (st : State)
    (content lang : Str) : Option Str × State :=
  ((markdownLoop u cfg envAt lang 0 false st (splitLines content)).1.map joinLines,
    (markdownLoop u cfg envAt lang 0 false st (splitLines content)).2)

/-! ## v2.1.19: `translateFile` -/

/-- `strings.Join(elems, sep)`. -/
def joinSep (sep : Str) : List Str → Str
  | [] => []
  | [l] => l
  | l :: ls => l ++ sep ++ joinSep sep ls

/-- The loop of `translateFile` over the lines from the index `i` on, with the variables
`isMsgid` and `msgidLines`: what is written to the final catalog and the state afterwards.
`envAt i` is what the outside gives to the call made at the line of index `i`.  When a call
panics nothing more is written. -/
def poLoop (u : Char → Char) (cfg : Config) (envAt : Nat → Env) (lang : Str) :
    Nat → Bool → List Str → State → List Str → Str × State
  | _, _, _, st, [] => ([], st)
  | i, isMsgid, msgidLines, st, line :: rest =>
    if hasPrefix "msgid ".toList line && line != "msgid \"\"".toList then
      poLoop u cfg envAt lang (i + 1) true [line.drop 6] st rest
    else if hasPrefix "msgstr ".toList line && isMsgid then
      let text := trimRune '"' (joinSep " ".toList msgidLines)
      let res := callUniversalTranslator u cfg (envAt i) st text lang
      if res.trace.contains Event.panic then ([], res.st)
      else
        let translated := if res.ret = [] then text else res.ret
        ("msgid ".toList ++ joinSep "\n".toList msgidLines ++ "\nmsgstr \"".toList ++
            translated ++ "\"\n".toList ++
            (poLoop u cfg envAt lang (i + 1) false msgidLines res.st rest).1,
          (poLoop u cfg envAt lang (i + 1) false msgidLines res.st rest).2)
    else if isMsgid then
      poLoop u cfg envAt lang (i + 1) true (msgidLines ++ [line]) st rest
    else
      (line ++ '\n' :: (poLoop u cfg envAt lang (i + 1) false msgidLines st rest).1,
        (poLoop u cfg envAt lang (i + 1) false msgidLines st rest).2)

/-- `translateFile` on the lines that the scanner reads from the temporary catalog: the
content written to the final catalog and the state afterwards. -/
def translateFile (u : Char → Char) (cfg : Config) (envAt : Nat → Env) (st : State)
    (lines : List Str) (lang : Str) : Str × State :=
  poLoop u cfg envAt lang 0 false [] st lines

/-! ## v2.1.19: `translateMap` -/

mutual
/-- A JSON value.  In a decoded tree, as `json.Unmarshal` stores it in an `interface{}`, `null`
is `nil`, `num` a `float64` (kept as its text), `str` a `string`, `arr` a `[]interface{}`
and `obj` a `map[string]interface{}`. -/
inductive JVal where
  | null
  | bool (b : Bool)
  | num (text : Str)
  | str (s : Str)
  | arr (items : JList)
  | obj (members : JMembers)
/-- The elements of a JSON array. -/
inductive JList where
  | nil
  | cons (v : JVal) (rest : JList)
/-- The members of a JSON object, keys unique.  For a map that a `range` statement visits,
the members are listed in the order of the visit, which Go leaves unspecified. -/
inductive JMembers where
  | nil
  | cons (k : Str) (v : JVal) (rest : JMembers)
end

mutual
/-- The body of the loop of `translateMap` for one value `v`: a string is replaced by the
result of `callUniversalTranslator`, a map is translated in place, anything else is left.
`n` counts the calls made so far; `envAt n` is what the outside gives to the call of
index `n`.  The value is `none` when a call panics; the state is then the one at the
panic. -/
def translateValue (u : Char → Char) (cfg : Config) (envAt : Nat → Env) (lang : Str) :
    JVal → Nat × State → Option JVal × (Nat × State)
  | JVal.str val, (n, st) =>
    (if (callUniversalTranslator u cfg (envAt n) st val lang).trace.contains Event.panic
      then none
      else some (JVal.str (callUniversalTranslator u cfg (envAt n) st val lang).ret),
      (n + 1, (callUniversalTranslator u cfg (envAt n) st val lang).st))
  | JVal.obj valMap, ns =>
    ((translateMap u cfg envAt lang valMap ns).1.map JVal.obj,
      (translateMap u cfg envAt lang valMap ns).2)
  | v, ns => (some v, ns)
/-- `translateMap`: the map afterwards, the number of calls made and the state.  The map is
`none` when a call panics: the loop ends there. -/
def translateMap (u : Char → Char) (cfg : Config) (envAt : Nat → Env) (lang : Str) :
    JMembers → Nat × State → Option JMembers × (Nat × State)
  | JMembers.nil, ns => (some JMembers.nil, ns)
  | JMembers.cons k v rest, ns =>
    match (translateValue u cfg envAt lang v ns).1 with
    | none => (none, (translateValue u cfg envAt lang v ns).2)
    | some v' =>
      ((translateMap u cfg envAt lang rest (translateValue u cfg envAt lang v ns).2).1.map
          (JMembers.cons k v'),
        (translateMap u cfg envAt lang rest (translateValue u cfg envAt lang v ns).2).2)
end

/-! ## v2.1.19: `loadCache`, `saveCache` and `main`

The package `encoding/json` is modelled on JSON values, by the rules of its documentation:
`json.Unmarshal` checks the whole text first and stores nothing when it is not the text of a
JSON value; a value of the wrong type is reported, skipped, and the decoding goes on; the
error of an `UnmarshalJSON` method ends the decoding; `null` sets a map to nil and leaves a
struct as it is. -/

/-- What the package `encoding/json` needs of the package `time`, and the zero value of
`time.Time`: `parseTime` is the reading of the text of a JSON string by
`Time.UnmarshalJSON` (`none` when it returns an error), `formatTime` the text that
`Time.MarshalJSON` writes (`none` when it returns an error), `zeroTime` the instant of the
zero `time.Time`. -/
structure JsonLib where
  parseTime : Str → Option Int
  formatTime : Int → Option Str
  zeroTime : Int

/-- What `os.ReadFile(cacheFile)` finds: no readable file; bytes that are not the text of one
JSON value (the empty file among them); or the text of the JSON value `v`, its members in the
order in which they are written.  The escape sequences of JSON strings are not modelled: a
string is the text between its quotes. -/
inductive CacheFile where
  | unreadable
  | invalid
  | json (v : JVal)

/-- Decoding of the members of a JSON object into a `CacheEntry`, field after field: the key
`v` (or `V`) names `Value`, the key `t` (or `T`) names `LastUsed`, other keys are skipped.  A
value of the wrong type for `Value` is skipped (the error is recorded and the decoding goes
on), and so is `null`.  `LastUsed` decodes itself with `Time.UnmarshalJSON`, whose error
ends the decoding at once: `none`. -/
def decodeEntryMembers (lib : JsonLib) : JMembers → CacheEntry → Option CacheEntry
  | JMembers.nil, e => some e
  | JMembers.cons k v rest, e =>
    if k = "v".toList ∨ k = "V".toList then
      match v with
      | JVal.str s => decodeEntryMembers lib rest { e with Value := s }
      | _ => decodeEntryMembers lib rest e
    else if k = "t".toList ∨ k = "T".toList then
      match v with
      | JVal.null => decodeEntryMembers lib rest e
      | JVal.str s =>
        match lib.parseTime s with
        | some t => decodeEntryMembers lib rest { e with LastUsed := t }
        | none => none
      | _ => none
    else decodeEntryMembers lib rest e

/-- Decoding of a JSON value into a fresh `CacheEntry`: an object fills the fields; `null`
and a value of another type leave the zero value (for the latter the error is recorded and
the decoding goes on). -/
def decodeEntry (lib : JsonLib) : JVal → Option CacheEntry
  | JVal.obj m => decodeEntryMembers lib m ⟨[], lib.zeroTime⟩
  | _ => some ⟨[], lib.zeroTime⟩

/-- Decoding of the members of a JSON object into a `map[string]CacheEntry`, member after
member; the flag is false when the decoding was ended by an error of `Time.UnmarshalJSON`,
the member at which it happened not being stored. -/
def decodeEntries (lib : JsonLib) : JMembers → GoMap CacheEntry → GoMap CacheEntry × Bool
  | JMembers.nil, m => (m, true)
  | JMembers.cons k v rest, m =>
    match decodeEntry lib v with
    | some e => decodeEntries lib rest (mapSet m k e)
    | none => (m, false)

/-- Decoding of the members of a JSON object into the `map[string]map[string]CacheEntry`,
member after member.  An object gives a new inner map; `null` and a value of another type
give the nil inner map (for the latter the error is recorded and the decoding goes on).  An
error of `Time.UnmarshalJSON` ends the decoding, the member at which it happened not being
stored. -/
def decodeLangs (lib : JsonLib) : JMembers → Cache → Cache
  | JMembers.nil, c => c
  | JMembers.cons l v rest, c =>
    match v with
    | JVal.obj m =>
      if (decodeEntries lib m []).2 then
        decodeLangs lib rest (mapSet c l (some (decodeEntries lib m []).1))
      else c
    | _ => decodeLangs lib rest (mapSet c l none)

/-- What `json.Unmarshal(file, &cacheData)` leaves in `cacheData` when the bytes are the text
of the JSON value `v`: `null` sets the map to nil; an object is decoded into the map (made
first when it is nil); for any other value the error is returned and the map is as it
was. -/
def unmarshalCache (lib : JsonLib) (v : JVal) (cacheData : Option Cache) : Option Cache :=
  match v with
  | JVal.null => none
  | JVal.obj m =>
    some (decodeLangs lib m (match cacheData with
      | some c => c
      | none => []))
  | _ => cacheData

/-- `loadCache`.  For bytes that are not the text of a JSON value `json.Unmarshal` returns a
syntax error before it stores anything; whatever error it returns is dropped. -/
def loadCache (lib : JsonLib) (file : CacheFile) (st : State) : State :=
  match file with
  | CacheFile.unreadable => { st with cacheData := some [] }
  | CacheFile.invalid => { st with cacheData := some [] }
  | CacheFile.json v => { st with cacheData := unmarshalCache lib v (some []) }

/-- The order of strings by their bytes. -/
def strLt : Str → Str → Bool
  | [], [] => false
  | [], _ :: _ => true
  | _ :: _, [] => false
  | a :: s, b :: t => a.toNat < b.toNat || (a == b && strLt s t)

/-- Insertion of an entry into a list of entries sorted by key. -/
def insertByKey {α : Type} (k : Str) (v : α) : GoMap α → GoMap α
  | [] => [(k, v)]
  | (k', v') :: rest =>
    if strLt k k' then (k, v) :: (k', v') :: rest else (k', v') :: insertByKey k v rest

/-- The entries of a map in the order of their keys, in which `json.Marshal` writes them. -/
def sortByKey {α : Type} (m : GoMap α) : GoMap α :=
  m.foldr (fun kv acc => insertByKey kv.1 kv.2 acc) []

/-- The JSON object that `json.Marshal` writes for a `CacheEntry`; `none` when
`Time.MarshalJSON` returns an error. -/
def marshalEntry (lib : JsonLib) (e : CacheEntry) : Option JVal :=
  match lib.formatTime e.LastUsed with
  | some t =>
    some (JVal.obj (JMembers.cons "v".toList (JVal.str e.Value)
      (JMembers.cons "t".toList (JVal.str t) JMembers.nil)))
  | none => none

/-- The members that `json.Marshal` writes for the entries of an inner map, given in the
order of their keys. -/
def marshalEntries (lib : JsonLib) : GoMap CacheEntry → Option JMembers
  | [] => some JMembers.nil
  | (k, e) :: rest =>
    match marshalEntry lib e, marshalEntries lib rest with
    | some v, some ms => some (JMembers.cons k v ms)
    | _, _ => none

/-- The members that `json.Marshal` writes for the inner maps of the cache, given in the
order of their keys; a nil inner map is written as `null`. -/
def marshalLangs (lib : JsonLib) : Cache → Option JMembers
  | [] => some JMembers.nil
  | (l, none) :: rest =>
    match marshalLangs lib rest with
    | some ls => some (JMembers.cons l JVal.null ls)
    | none => none
  | (l, some inner) :: rest =>
    match marshalEntries lib (sortByKey inner), marshalLangs lib rest with
    | some ms, some ls => some (JMembers.cons l (JVal.obj ms) ls)
    | _, _ => none

/-- The JSON value of `json.MarshalIndent(cacheData, "", "  ")`: `null` for the nil map;
`none` when it returns an error. -/
def marshalCache (lib : JsonLib) : Option Cache → Option JVal
  | none => some JVal.null
  | some c =>
    match marshalLangs lib (sortByKey c) with
    | some ls => some (JVal.obj ls)
    | none => none

/-- `saveCache`: the cache file afterwards, the write being taken to succeed.  When
`json.MarshalIndent` returns an error its data is nil, and the empty file is written. -/
def saveCache (lib : JsonLib) (st : State) : CacheFile :=
  match marshalCache lib st.cacheData with
  | some v => CacheFile.json v
  | none => CacheFile.invalid

/-- What the outside and the command line give to a run of `main`: whether
`checkDependencies` returns (it ends the process with status 1 otherwise), the flags
`versionFlag`, `selfTestFlag` and `cleanCacheFlag`, and the files to process. -/
structure Run where
  depsFound : Bool
  versionFlag : Bool
  selfTestFlag : Bool
  cleanCacheFlag : Bool
  allFiles : List Str

/-- How a function body ends: it returns, and then the deferred calls run; or it calls
`os.Exit`, which ends the process at once, the deferred calls not being run. -/
inductive Ending where
  | returned
  | exited (status : Nat)
  deriving DecidableEq

/-- The statements of `main` after `defer saveCache()`, from the state that `loadCache`
left: the state at the end and how the body ends.  `now`, `zoneShift` and `visit` are those
of `doCleanCache`; `selfTest` and `processFiles` are what `runFullSelfTest` and the loop over
the files do to the state. -/
def mainBody (run : Run) (now zoneShift : Int) (visit : List Str → List Str)
    (selfTest : State → State) (processFiles : List Str → State → State) (st : State) :
    State × Ending :=
  if run.selfTestFlag then (selfTest st, Ending.exited 0)
  else if run.cleanCacheFlag then
    ((doCleanCache now zoneShift visit st).1, Ending.exited 0)
  else if run.allFiles = [] then (st, Ending.exited 1)
  else (processFiles run.allFiles st, Ending.returned)

/-- The outcome of a run of the program: the cache file, the state of the process when it
ends, and the exit status. -/
structure Outcome where
  file : CacheFile
  st : State
  status : Nat

/-- `main`, on the cache file it finds, from the start of the process (all globals zero).
The deferred `saveCache` runs only when the body returns. -/
def main (lib : JsonLib) (run : Run) (now zoneShift : Int) (visit : List Str → List Str)
    (selfTest : State → State) (processFiles : List Str → State → State)
    (file : CacheFile) : Outcome :=
  if !run.depsFound then ⟨file, ⟨none, 0, 0, 0⟩, 1⟩
  else if run.versionFlag then ⟨file, ⟨none, 0, 0, 0⟩, 0⟩
  else
    match mainBody run now zoneShift visit selfTest processFiles
        (loadCache lib file ⟨none, 0, 0, 0⟩) with
    | (st, Ending.returned) => ⟨saveCache lib st, st, 0⟩
    | (st, Ending.exited status) => ⟨file, st, status⟩

/-! ## v1.5.7: `normalizeText`, `getFromCache`, `addToCache` -/

namespace V1_5_7

/-- `normalizeText`. -/
def normalizeText (u : Char → Char) (t : Str) : Str :=
  toLower u (trimSpace (trimRune '"' t))

/-- The type of the global `cacheData`, a `map[string]map[string]string`: `none` is the nil
map, which `json.Unmarshal` leaves for the cache file `null`, and an inner map can be nil
too.  A nil map reads as an empty one, and an assignment into it panics. -/
abbrev CacheData := Option (GoMap (Option (GoMap Str)))

/-- `getFromCache`, on the globals `forceFlag` and `cacheData`. -/
def getFromCache (u : Char → Char) (forceFlag : Bool) (cacheData : CacheData)
    (lang text : Str) : Str × Bool :=
  if forceFlag then ([], false)
  else
    let norm := normalizeText u text
    match cacheData with
    | some c =>
      match mapGet c lang with
      | some (some l) =>
        match mapGet l norm with
        | some t => (t, true)
        | none => ([], false)
      | _ => ([], false)
    | none => ([], false)

/-- `addToCache`: the new value of the global `cacheData`, or `none` when the function
panics: at `cacheData[lang] = make(...)` when `cacheData` is nil, at `cacheData[lang][norm] =
translation` when the inner map under `lang` is present and nil. -/
def addToCache (u : Char → Char) (cacheData : CacheData) (lang text translation : Str) :
    Option CacheData :=
  match cacheData with
  | none => none
  | some c =>
    let cache1 := match mapGet c lang with
      | some _ => c
      | none => mapSet c lang (some [])
    match mapGet cache1 lang with
    | some (some l) =>
      some (some (mapSet cache1 lang (some (mapSet l (normalizeText u text) translation))))
    | _ => none

/-- The assignment of `addToCache` for `lang` does not panic on this cache: the cache is not
nil and does not hold the nil map under `lang`. -/
def storable (cacheData : CacheData) (lang : Str) : Bool :=
  match cacheData with
  | none => false
  | some c =>
    match mapGet c lang with
    | some none => false
    | _ => true

/-- Removal of a single layer of enclosing double quotes, in the words of the specification:
a text that starts and ends with a double-quote character, on two different runes, loses
these two runes; any other text is left as it is. -/
def stripQuoteLayer (s : Str) : Str :=
  match s with
  | '"' :: rest =>
    if rest.getLast? = some '"' then rest.dropLast else s
  | _ => s

/-- The reference normalisation of the specification: trim the surrounding white space, then
remove a single layer of enclosing double quotes, then lower-case. -/
def referenceNormalize (u : Char → Char) (t : Str) : Str :=
  toLower u (stripQuoteLayer (trimSpace t))

end V1_5_7

/-! ## Notions used in the statements and in the proofs -/

/-- The runes with which a match of the protected-pattern expression can start. -/
def starters : List Char := ['$', '%', '!', '[', 'h']

/-- What the proofs need of one alternative: a match is a prefix of the text, starts with a
starter, and still matches (possibly longer) whatever follows it. -/
def AltOK (alt : Str → Option (Str × Str)) : Prop :=
  ∀ s m r, alt s = some (m, r) →
    s = m ++ r ∧ (∃ c t, m = c :: t ∧ c ∈ starters) ∧ ∀ r', (alt (m ++ r')).isSome = true

/-- The decimal digits. -/
def digits : List Char := ['0', '1', '2', '3', '4', '5', '6', '7', '8', '9']

/-- Value of a string of decimal digits. -/
def digitsVal (s : Str) : Nat :=
  s.foldl (fun a c => 10 * a + (c.toNat - 48)) 0

/-- A piece of a text that has been cut at the matches of the protected-pattern expression:
a rune outside every match, or the match of index `i` with its literal text. -/
inductive Seg where
  | lit (c : Char)
  | tok (i : Nat) (m : Str)
  deriving DecidableEq

/-- The text cut into pieces by the scan of `findAllFrom`; the matches are numbered from `i`. -/
def segments : Nat → Nat → Str → List Seg
  | 0, _, _ => []
  | _ + 1, _, [] => []
  | fuel + 1, i, c :: cs =>
    match matchAt (c :: cs) with
    | some (m, r) => Seg.tok i m :: segments fuel (i + 1) r
    | none => Seg.lit c :: segments fuel i cs

/-- The pieces written out: the match of index `i` appears as its placeholder when `keep i`
holds and as its literal text otherwise. -/
def flat (keep : Nat → Bool) : List Seg → Str
  | [] => []
  | Seg.lit c :: rest => c :: flat keep rest
  | Seg.tok i m :: rest => (if keep i then token i else m) ++ flat keep rest

/-- The placeholder entries for the matches `ms`, numbered from `i`. -/
def tokEntries : Nat → List Str → List (Str × Str)
  | _, [] => []
  | i, m :: ms => (token i, m) :: tokEntries (i + 1) ms

/-- The fragment `_REF_` of a placeholder. -/
def refMark : Str := ['_', 'R', 'E', 'F', '_']

/-- A string that the protected-pattern expression can match: it starts with a starter and
the expression matches at the head of every text that begins with it. -/
def MatchLike (m : Str) : Prop :=
  (∃ c t, m = c :: t ∧ c ∈ starters) ∧ ∀ x, m <+: x → (matchAt x).isSome = true

/-- No match-like string without `C` starts inside `pre` when `pre` is followed by `s`. -/
def NoEarlier (pre s : Str) : Prop :=
  ∀ a b, pre = a ++ b → b ≠ [] → ∀ m, MatchLike m → 'C' ∉ m → ¬ m <+: b ++ s

/-- The runs of runes between the matches. -/
def gaps : List Seg → List Str
  | [] => [[]]
  | Seg.lit c :: rest =>
    match gaps rest with
    | g :: gs => (c :: g) :: gs
    | [] => [[c]]
  | Seg.tok _ _ :: rest => [] :: gaps rest

/-- The parts of a text that the protected-pattern expression does not match: the runs
before, between and after the matches of `findAllString`. -/
def unmatchedParts (text : Str) : List Str :=
  gaps (segments text.length 0 text)

/-- The number of attempts that fail before the first one that succeeds, among the `n` runs
of `trans` from the run `i` on (`n` when all of them fail). -/
def leadingFailures (run : Nat → Option Str) : Nat → Nat → Nat
  | 0, _ => 0
  | n + 1, i =>
    match run i with
    | some _ => 0
    | none => leadingFailures run n (i + 1) + 1

/-- The trace of `k` failed attempts in a row, the loop variable starting at `i`: each run of
the command is followed by the sleep of that iteration. -/
def failedAttempts (cmd : Event) : Nat → Nat → List Event
  | _, 0 => []
  | i, k + 1 => cmd :: Event.sleep (i + 1) :: failedAttempts cmd (i + 1) k

/-- The seconds of the sleeps of a trace, in order. -/
def sleepsOf : List Event → List Nat
  | [] => []
  | Event.sleep n :: rest => n :: sleepsOf rest
  | _ :: rest => sleepsOf rest

/-- The number of runs of the external translator in a trace. -/
def execCount : List Event → Nat
  | [] => 0
  | Event.exec _ _ _ _ :: rest => execCount rest + 1
  | _ :: rest => execCount rest

/-- The discipline of the mutex `mu` along a trace, `held` telling whether `mu` is held at
the start: `mu` is locked only when free and unlocked only when held, the external command
runs and the sleeps happen only while `mu` is free, and `mu` is free at the end of a call that
returns.  A panic ends the process and with it the trace. -/
def mutexFree : Bool → List Event → Bool
  | held, [] => !held
  | _, Event.panic :: _ => true
  | false, Event.lock :: rest => mutexFree true rest
  | true, Event.unlock :: rest => mutexFree false rest
  | false, Event.exec _ _ _ _ :: rest => mutexFree false rest
  | false, Event.sleep _ :: rest => mutexFree false rest
  | _, _ => false

/-- The cache after the assignment `cacheData[lang][key] = e` when it does not panic. -/
def withEntry (c : Cache) (lang key : Str) (e : CacheEntry) : Cache :=
  mapSet c lang (some (mapSet (langEntries c lang) key e))

/-- The cache holds the nil map under `lang`: the key is present and its inner map is nil. -/
def nilUnder (c : Option Cache) (lang : Str) : Bool :=
  match c with
  | none => false
  | some m =>
    match mapGet m lang with
    | some none => true
    | _ => false

/-- A sequence of calls of `callUniversalTranslator`, one after the other, each from the
state that the call before left: the state at the end, or `none` when one of them panics. -/
def runCalls (u : Char → Char) (cfg : Config) : State → List (Env × Str × Str) → Option State
  | st, [] => some st
  | st, (env, text, lang) :: rest =>
    if (callUniversalTranslator u cfg env st text lang).trace.contains Event.panic then none
    else runCalls u cfg (callUniversalTranslator u cfg env st text lang).st rest

/-- What the pruning leaves of an entry: the entry itself unless it was last used before the
limit. -/
def keepFresh (limit : Int) (e : Option CacheEntry) : Option CacheEntry :=
  match e with
  | some e => if e.LastUsed < limit then none else some e
  | none => none

/-- A worker between its send on `sem` and its receive from it. -/
def holdsSlot : Phase → Bool
  | Phase.translating _ => true
  | Phase.counted => true
  | _ => false

/-- The number of workers between acquiring and releasing the semaphore. -/
def holders (ps : List Phase) : Nat :=
  ps.countP holdsSlot

/-- The number of workers inside a run of the external translator. -/
def inFlight (ps : List Phase) : Nat :=
  ps.countP (fun p => p == Phase.translating true)

/-- The loop `runTranslationLoop` has completed: every worker is past its receive from `sem`,
so that `wg.Wait()` returns. -/
def completed (s : Sched) : Bool :=
  s.phases.all (fun p => p == Phase.done)

/-- The replacement of every match at its own position, as `translateHTML` does it with
`ReplaceAllStringFunc` and a counter, here with the expression and the placeholders of
`protectVariables`: the scan of `findAllFrom`, in which the text outside the matches is
copied and the match of index `i` is written as `CHILI_REF_i_CHILI`. -/
def positionalFrom : Nat → Nat → Str → Str
  | 0, _, _ => []
  | _ + 1, _, [] => []
  | fuel + 1, i, c :: cs =>
    match matchAt (c :: cs) with
    | some (_, r) => token i ++ positionalFrom fuel (i + 1) r
    | none => c :: positionalFrom fuel i cs

/-- The text in which the `i`-th match, counted from the left, is replaced at its own
position by `CHILI_REF_i_CHILI`. -/
def protectPositional (text : Str) : Str :=
  positionalFrom text.length 0 text

/-- A code-fence line: its trimmed text starts with three backticks. -/
def isFenceLine (line : Str) : Bool :=
  hasPrefix "```".toList (trimSpace line)

/-- The line of index `i` lies inside a fenced code block: the number of code-fence lines
before it is odd. -/
def inFencedBlock (lines : List Str) (i : Nat) : Bool :=
  (lines.take i).countP isFenceLine % 2 == 1

mutual
/-- The number of strings that are direct members of objects in a value that is the value of
a member: the strings inside arrays do not count. -/
def valueStrings : JVal → Nat
  | JVal.str _ => 1
  | JVal.obj m => memberStrings m
  | _ => 0
/-- The number of strings that are direct members of an object or of the objects nested in
it. -/
def memberStrings : JMembers → Nat
  | JMembers.nil => 0
  | JMembers.cons _ v rest => valueStrings v + memberStrings rest
end

/-- The keys of a JSON object. -/
def memberKeys : JMembers → List Str
  | JMembers.nil => []
  | JMembers.cons k _ rest => k :: memberKeys rest

mutual
/-- The strings that are direct members of objects in a value that is the value of a member,
in the order in which the loops of `translateMap` come to them; the strings inside arrays
are not among them. -/
def valueTexts : JVal → List Str
  | JVal.str s => [s]
  | JVal.obj m => memberTexts m
  | _ => []
/-- The strings that are direct members of an object or of the objects nested in it, in the
order in which the loops of `translateMap` come to them. -/
def memberTexts : JMembers → List Str
  | JMembers.nil => []
  | JMembers.cons _ v rest => valueTexts v ++ memberTexts rest
end

mutual
/-- The value of a member with the strings of `valueTexts` replaced, in their order, by the
strings of a list, and the strings of the list that are left: a string takes the next
string of the list, an object is filled member by member, and a number, a boolean, `null`
and an array, with all that the array holds, stay as they are. -/
def valueFill : JVal → List Str → JVal × List Str
  | JVal.str _, r :: rs => (JVal.str r, rs)
  | JVal.str s, [] => (JVal.str s, [])
  | JVal.obj m, rs => (JVal.obj (memberFill m rs).1, (memberFill m rs).2)
  | v, rs => (v, rs)
/-- The object with the same keys in the same places and every value filled from the
list. -/
def memberFill : JMembers → List Str → JMembers × List Str
  | JMembers.nil, rs => (JMembers.nil, rs)
  | JMembers.cons k v rest, rs =>
    (JMembers.cons k (valueFill v rs).1 (memberFill rest (valueFill v rs).2).1,
      (memberFill rest (valueFill v rs).2).2)
end

/-- The calls of `callUniversalTranslator` for the texts of a list and the language `lang`,
one after the other: the call of index `n` is given `envAt n` by the outside and starts from
the state that the call before left.  The strings returned, in order, and the state after
the last call. -/
def callSeq (u : Char → Char) (cfg : Config) (envAt : Nat → Env) (lang : Str) :
    Nat → State → List Str → List Str × State
  | _, st, [] => ([], st)
  | n, st, t :: ts =>
    ((callUniversalTranslator u cfg (envAt n) st t lang).ret ::
        (callSeq u cfg envAt lang (n + 1)
          (callUniversalTranslator u cfg (envAt n) st t lang).st ts).1,
      (callSeq u cfg envAt lang (n + 1)
        (callUniversalTranslator u cfg (envAt n) st t lang).st ts).2)

/-- The cache file holds a JSON object or `null`, the two kinds of JSON value that
`json.Unmarshal` stores into a map. -/
def isObjectOrNull : CacheFile → Bool
  | CacheFile.json (JVal.obj _) => true
  | CacheFile.json JVal.null => true
  | _ => false

/-- The unmatched parts of a text and the placeholders from the index `i` on, written in
turn: a part, a placeholder, a part, and so on, ending with a part. -/
def weave : Nat → List Str → Str
  | _, [] => []
  | _, [g] => g
  | i, g :: g' :: gs => g ++ token i ++ weave (i + 1) (g' :: gs)

/-! ## Inputs of the examples -/

/-- An empty cache with all counters at zero. -/
def emptyState : State := ⟨none, 0, 0, 0⟩

/-- Settings of a run that is online and does not bypass the cache. -/
def onlineConfig : Config := ⟨false, true, "google".toList, "auto".toList⟩

/-- Settings of a run that is online and bypasses the cache (`--force`). -/
def forceConfig : Config := ⟨true, true, "google".toList, "auto".toList⟩

/-- An outside in which every run of `trans` fails. -/
def failingEnv : Env := ⟨0, fun _ => none, id⟩

/-- An outside in which every run of `trans` prints `hola`, at the instant `now`. -/
def holaEnv (now : Int) : Env := ⟨now, fun _ => some "hola\n".toList, id⟩

/-- A cache whose only entry is `x`, under the language `es` and the empty key. -/
def blankKeyState : State := ⟨some [("es".toList, some [([], ⟨"x".toList, 0⟩)])], 0, 0, 0⟩

/-- Settings of a run that is offline and does not bypass the cache. -/
def offlineConfig : Config := ⟨false, false, "google".toList, "auto".toList⟩

/-- An outside in which the first two runs of `trans` fail and the later ones print `hola`. -/
def flakyEnv : Env := ⟨7, fun i => if i < 2 then none else some "hola\n".toList, id⟩

/-- An outside in which every run of `trans` exits successfully and prints only white
space. -/
def blankOutputEnv : Env := ⟨7, fun _ => some " \n".toList, id⟩

/-- A cache with two entries under `es`: `old`, last used 31 days before the instant of 40
days, and `new`, last used one day before it. -/
def twoEntryState : State :=
  ⟨some [("es".toList, some [("old".toList, ⟨"a".toList, 40 * day - 31 * day⟩),
    ("new".toList, ⟨"b".toList, 40 * day - 1 * day⟩)])], 0, 0, 0⟩

/-- A cache with the entry `x ↦ y` under `fr`, all counters at zero. -/
def frenchState : State :=
  ⟨some [("fr".toList, some [("x".toList, ⟨"y".toList, 3⟩)])], 0, 0, 0⟩

/-- A cache that holds the nil map under `es`, as `loadCache` leaves it for the cache file
`{"es": null}`. -/
def nilMapState : State := ⟨some [("es".toList, none)], 0, 0, 0⟩

/-- A cache file with the text `{"es": null}`. -/
def nilMapFile : CacheFile :=
  CacheFile.json (JVal.obj (JMembers.cons "es".toList JVal.null JMembers.nil))

/-- An outside in which every run of `trans` prints `Traducir`. -/
def traducirEnv : Env := ⟨7, fun _ => some "Traducir\n".toList, id⟩

/-- An outside in which every run of `trans` prints the two lines `a` and `b`. -/
def twoLineEnv : Env := ⟨7, fun _ => some "a\nb\n".toList, id⟩

/-- A catalog with a comment, an entry with a plural form, as `xgettext` writes it for a call
of `ngettext`, and an entry without one. -/
def pluralCatalog : List Str :=
  ["#: a.sh:1".toList,
   "msgid \"one file\"".toList,
   "msgid_plural \"%d files\"".toList,
   "msgstr[0] \"\"".toList,
   "msgstr[1] \"\"".toList,
   [],
   "#: a.sh:2".toList,
   "msgid \"next\"".toList,
   "msgstr \"\"".toList]

/-- The decoded tree of
`{"title": "Hello", "n": 3, "tags": ["Hello", {"x": "Hello"}], "sub": {"t": "Hello"}}`. -/
def sampleTree : JMembers :=
  JMembers.cons "title".toList (JVal.str "Hello".toList)
  (JMembers.cons "n".toList (JVal.num "3".toList)
  (JMembers.cons "tags".toList
    (JVal.arr (JList.cons (JVal.str "Hello".toList)
      (JList.cons (JVal.obj (JMembers.cons "x".toList (JVal.str "Hello".toList) JMembers.nil))
        JList.nil)))
  (JMembers.cons "sub".toList
    (JVal.obj (JMembers.cons "t".toList (JVal.str "Hello".toList) JMembers.nil))
  JMembers.nil)))

/-- The library on the texts and the instants of the examples, the instants being counted in
nanoseconds from 1970-01-01T00:00:00Z: the texts `1970-01-10T00:00:00Z` and
`1970-02-09T00:00:00Z` are the instants of 9 and of 39 days, and the zero `time.Time` is
0001-01-01T00:00:00Z.  The examples use it on no other argument. -/
def unixLib : JsonLib :=
  ⟨fun s => if s = "1970-01-10T00:00:00Z".toList then some (9 * day)
      else if s = "1970-02-09T00:00:00Z".toList then some (39 * day) else none,
    fun t => if t = 9 * day then some "1970-01-10T00:00:00Z".toList
      else if t = 39 * day then some "1970-02-09T00:00:00Z".toList else none,
    -62135596800 * 1000000000⟩

/-- A cache file with the text
`{"es": {"old": {"v": "a", "t": "1970-01-10T00:00:00Z"},
         "new": {"v": "b", "t": "1970-02-09T00:00:00Z"}}}`. -/
def twoEntryFile : CacheFile :=
  CacheFile.json (JVal.obj (JMembers.cons "es".toList
    (JVal.obj
      (JMembers.cons "old".toList
        (JVal.obj (JMembers.cons "v".toList (JVal.str "a".toList)
          (JMembers.cons "t".toList (JVal.str "1970-01-10T00:00:00Z".toList) JMembers.nil)))
      (JMembers.cons "new".toList
        (JVal.obj (JMembers.cons "v".toList (JVal.str "b".toList)
          (JMembers.cons "t".toList (JVal.str "1970-02-09T00:00:00Z".toList) JMembers.nil)))
      JMembers.nil)))
    JMembers.nil))

/-- A cache file with the text `{"es": {"hello": {"v": "hola"}}, "fr": 5}`, which is not a
serialization of a cache: the value under `fr` is a number. -/
def partialFile : CacheFile :=
  CacheFile.json (JVal.obj (JMembers.cons "es".toList
    (JVal.obj (JMembers.cons "hello".toList
      (JVal.obj (JMembers.cons "v".toList (JVal.str "hola".toList) JMembers.nil))
      JMembers.nil))
    (JMembers.cons "fr".toList (JVal.num "5".toList) JMembers.nil)))

/-- A cache file with the text `{"es": {"hello": "hola"}}`, as the versions up to 2.0.8 wrote
it, when the values of the cache were strings. -/
def legacyFile : CacheFile :=
  CacheFile.json (JVal.obj (JMembers.cons "es".toList
    (JVal.obj (JMembers.cons "hello".toList (JVal.str "hola".toList) JMembers.nil))
    JMembers.nil))

/-- A cache file with the text `[1]`. -/
def arrayFile : CacheFile :=
  CacheFile.json (JVal.arr (JList.cons (JVal.num "1".toList) JList.nil))

/-- A run with `--clean-cache` and no other flag, all dependencies being found. -/
def cleanRun : Run := ⟨true, false, false, true, []⟩
/-! ## Lemmas on the string functions -/

theorem hasPrefix_iff (p s : Str) : hasPrefix p s = true ↔ p <+: s := by
  induction p generalizing s with
  | nil => simp [hasPrefix]
  | cons a p ih =>
    cases s with
    | nil => simp [hasPrefix]
    | cons b s =>
      simp [hasPrefix, ih, List.cons_prefix_cons]

theorem replaceFirst_cons_skip (c : Char) (cs old new : Str) (h : ¬ old <+: c :: cs) :
    replaceFirst (c :: cs) old new = c :: replaceFirst cs old new := by
  have : hasPrefix old (c :: cs) = false := by
    rw [← Bool.not_eq_true, hasPrefix_iff]; exact h
  simp [replaceFirst, this]

theorem replaceFirst_append_self (old post new : Str) (h : old ≠ []) :
    replaceFirst (old ++ post) old new = new ++ post := by
  cases old with
  | nil => exact absurd rfl h
  | cons a t =>
    have : hasPrefix (a :: t) (a :: (t ++ post)) = true := by
      rw [hasPrefix_iff]; exact List.prefix_append (a :: t) post
    simp [replaceFirst, this]

/-- If no occurrence of `m` starts inside `pre`, the first occurrence in `pre ++ m ++ post` is
the one after `pre`. -/
theorem replaceFirst_at (pre m post new : Str) (hm : m ≠ [])
    (h : ∀ a b, pre = a ++ b → b ≠ [] → ¬ m <+: b ++ (m ++ post)) :
    replaceFirst (pre ++ (m ++ post)) m new = pre ++ (new ++ post) := by
  induction pre with
  | nil => simpa using replaceFirst_append_self m post new hm
  | cons c pre ih =>
    have h1 : ¬ m <+: c :: (pre ++ (m ++ post)) := h [] (c :: pre) rfl (by simp)
    have h2 := ih (fun a b hab hb => h (c :: a) b (by simp [hab]) hb)
    show replaceFirst (c :: (pre ++ (m ++ post))) m new = c :: (pre ++ (new ++ post))
    rw [replaceFirst_cons_skip _ _ _ _ h1, h2]

theorem replaceAllAux_skip (old new : Str) (x rest : Str) :
    replaceAllAux old new x.length (x ++ rest) = replaceAllAux old new 0 rest := by
  induction x with
  | nil => simp
  | cons c x ih => simpa [replaceAllAux] using ih

theorem replaceAll_nil (old new : Str) (h : old ≠ []) : replaceAll [] old new = [] := by
  simp [replaceAll, h, replaceAllAux]

theorem replaceAll_cons_skip (c : Char) (cs old new : Str) (h : ¬ old <+: c :: cs) :
    replaceAll (c :: cs) old new = c :: replaceAll cs old new := by
  have hne : old ≠ [] := by
    rintro rfl; exact h (List.nil_prefix)
  have : hasPrefix old (c :: cs) = false := by
    rw [← Bool.not_eq_true, hasPrefix_iff]; exact h
  simp [replaceAll, hne, replaceAllAux, this]

theorem replaceAll_append_self (old rest new : Str) (h : old ≠ []) :
    replaceAll (old ++ rest) old new = new ++ replaceAll rest old new := by
  cases old with
  | nil => exact absurd rfl h
  | cons a t =>
    have : hasPrefix (a :: t) (a :: (t ++ rest)) = true := by
      rw [hasPrefix_iff]; exact List.prefix_append (a :: t) rest
    show (if (a :: t) = [] then _ else replaceAllAux (a :: t) new 0 (a :: (t ++ rest))) = _
    rw [if_neg h]
    show (if hasPrefix (a :: t) (a :: (t ++ rest)) = true then
        new ++ replaceAllAux (a :: t) new ((a :: t).length - 1) (t ++ rest)
      else a :: replaceAllAux (a :: t) new 0 (t ++ rest)) = _
    rw [if_pos this]
    simp [replaceAllAux_skip, replaceAll]

/-- A run of runes different from the first rune of `old` is passed over unchanged. -/
theorem replaceAll_append_of_head_not_mem (h : Char) (t x rest new : Str) (hx : h ∉ x) :
    replaceAll (x ++ rest) (h :: t) new = x ++ replaceAll rest (h :: t) new := by
  induction x with
  | nil => rfl
  | cons c x ih =>
    have hc : c ≠ h := fun e => hx (by simp [e])
    have : ¬ (h :: t) <+: c :: (x ++ rest) := by
      intro hp
      rw [List.cons_prefix_cons] at hp
      exact hc hp.1.symm
    show replaceAll (c :: (x ++ rest)) (h :: t) new = c :: (x ++ replaceAll rest (h :: t) new)
    rw [replaceAll_cons_skip _ _ _ _ this, ih (fun hm => hx (by simp [hm]))]

/-! ## Lemmas on the regular expression -/

theorem span_eq (p : Char → Bool) (t : Str) : t.span p = (t.takeWhile p, t.dropWhile p) :=
  List.span_eq_take_drop p t

theorem takeWhile_ne_nil_append (p : Char → Bool) (w r : Str) (h : w.takeWhile p ≠ []) :
    (w ++ r).takeWhile p ≠ [] := by
  cases w with
  | nil => simp at h
  | cons c w =>
    by_cases hc : p c
    · simp [List.takeWhile_cons, hc]
    · simp [List.takeWhile_cons, hc] at h

theorem altDollar_ok : AltOK altDollar := by
  intro s m r h
  unfold altDollar at h
  split at h
  · rename_i t
    rw [span_eq] at h
    split at h
    · exact absurd h (by simp)
    · rename_i w r0 hne heq
      simp only [Option.some.injEq, Prod.mk.injEq] at h heq
      obtain ⟨rfl, rfl⟩ := h
      obtain ⟨hw, hr⟩ := heq
      refine ⟨?_, ⟨'$', w, rfl, by simp [starters]⟩, ?_⟩
      · rw [← hw, ← hr]; simp
      · intro r'
        have hall : ∀ c ∈ w, isVarChar c = true := by
          rw [← hw]; intro c hc; exact List.mem_takeWhile_imp hc
        have hwne : w ≠ [] := hne
        simp only [altDollar, List.cons_append, span_eq, List.takeWhile_append_of_pos hall,
          List.dropWhile_append_of_pos hall]
        split
        · rename_i h1
          simp only [Prod.mk.injEq, List.append_eq_nil] at h1
          exact absurd h1.1.1 hwne
        · rfl
  · exact absurd h (by simp)

theorem altBraced_ok : AltOK altBraced := by
  intro s m r h
  unfold altBraced at h
  split at h
  · rename_i t
    rw [span_eq] at h
    split at h
    · exact absurd h (by simp)
    · rename_i w r0 hne heq
      simp only [Option.some.injEq, Prod.mk.injEq] at h heq
      obtain ⟨rfl, rfl⟩ := h
      obtain ⟨hw, hr⟩ := heq
      refine ⟨?_, ⟨'$', _, rfl, by simp [starters]⟩, ?_⟩
      · have := List.takeWhile_append_dropWhile isVarChar t
        rw [hw, hr] at this
        rw [← this]; simp
      · intro r'
        have hall : ∀ c ∈ w, isVarChar c = true := by
          rw [← hw]; intro c hc; exact List.mem_takeWhile_imp hc
        have hwne : w ≠ [] := hne
        have hb : isVarChar '}' = false := by decide
        simp only [altBraced, List.cons_append, List.append_assoc, span_eq,
          List.takeWhile_append_of_pos hall, List.dropWhile_append_of_pos hall]
        simp [List.takeWhile_cons, List.dropWhile_cons, hb]
    · exact absurd h (by simp)
  · exact absurd h (by simp)

theorem altPercent_ok : AltOK altPercent := by
  intro s m r h
  unfold altPercent at h
  split at h
  · rename_i c r0
    split at h
    · rename_i hc
      simp only [Option.some.injEq, Prod.mk.injEq] at h
      obtain ⟨rfl, rfl⟩ := h
      refine ⟨rfl, ⟨'%', _, rfl, by simp [starters]⟩, ?_⟩
      intro r'
      simp [altPercent, hc]
    · exact absurd h (by simp)
  · exact absurd h (by simp)

theorem lazyParen_ok (s m r : Str) (h : lazyParen s = some (m, r)) :
    s = m ++ r ∧ ∀ r', lazyParen (m ++ r') = some (m, r') := by
  induction s generalizing m with
  | nil => simp [lazyParen] at h
  | cons c cs ih =>
    unfold lazyParen at h
    split at h
    · rename_i hc
      simp only [Option.some.injEq, Prod.mk.injEq] at h
      obtain ⟨rfl, rfl⟩ := h
      subst hc
      exact ⟨rfl, fun r' => by simp [lazyParen]⟩
    · rename_i hc
      split at h
      · exact absurd h (by simp)
      · rename_i hn
        split at h
        · rename_i y r0 heq
          simp only [Option.some.injEq, Prod.mk.injEq] at h
          obtain ⟨rfl, rfl⟩ := h
          obtain ⟨h1, h2⟩ := ih y heq
          refine ⟨by rw [h1]; rfl, fun r' => ?_⟩
          show lazyParen (c :: (y ++ r')) = _
          unfold lazyParen
          simp [hc, hn, h2 r']
        · exact absurd h (by simp)

theorem lazyBracket_ok (s m r : Str) (h : lazyBracket s = some (m, r)) :
    s = m ++ r ∧ m ≠ [] ∧ ∀ r', (lazyBracket (m ++ r')).isSome = true := by
  induction s generalizing m with
  | nil => simp [lazyBracket] at h
  | cons c cs ih =>
    unfold lazyBracket at h
    simp only at h
    split at h
    · rename_i res heq
      split at heq
      · rename_i r0
        split at heq
        · rename_i y r1 hp
          simp only [Option.some.injEq] at heq h
          subst heq
          simp only [Prod.mk.injEq] at h
          obtain ⟨rfl, rfl⟩ := h
          obtain ⟨h1, h2⟩ := lazyParen_ok _ _ _ hp
          refine ⟨by rw [h1]; rfl, by simp, fun r' => ?_⟩
          show (lazyBracket (']' :: '(' :: (y ++ r'))).isSome = true
          unfold lazyBracket
          simp [h2 r']
        · exact absurd heq (by simp)
      · exact absurd heq (by simp)
    · rename_i heq
      split at h
      · exact absurd h (by simp)
      · rename_i hn
        split at h
        · rename_i x r0 hx
          simp only [Option.some.injEq, Prod.mk.injEq] at h
          obtain ⟨rfl, rfl⟩ := h
          obtain ⟨h1, _, h3⟩ := ih x hx
          refine ⟨by rw [h1]; rfl, by simp, fun r' => ?_⟩
          show (lazyBracket (c :: (x ++ r'))).isSome = true
          have h4 := h3 r'
          rw [Option.isSome_iff_exists] at h4
          obtain ⟨⟨x', r''⟩, h4⟩ := h4
          unfold lazyBracket
          simp only
          split
          · rfl
          · simp [hn, h4]
        · exact absurd h (by simp)

theorem altImage_ok : AltOK altImage := by
  intro s m r h
  unfold altImage at h
  split at h
  · rename_i t
    split at h
    · rename_i x r0 hx
      simp only [Option.some.injEq, Prod.mk.injEq] at h
      obtain ⟨rfl, rfl⟩ := h
      obtain ⟨h1, _, h3⟩ := lazyBracket_ok _ _ _ hx
      refine ⟨by rw [h1]; rfl, ⟨'!', _, rfl, by simp [starters]⟩, fun r' => ?_⟩
      have h4 := h3 r'
      rw [Option.isSome_iff_exists] at h4
      obtain ⟨⟨x', r''⟩, h4⟩ := h4
      simp [altImage, h4]
    · exact absurd h (by simp)
  · exact absurd h (by simp)

theorem altLink_ok : AltOK altLink := by
  intro s m r h
  unfold altLink at h
  split at h
  · rename_i t
    split at h
    · rename_i x r0 hx
      simp only [Option.some.injEq, Prod.mk.injEq] at h
      obtain ⟨rfl, rfl⟩ := h
      obtain ⟨h1, _, h3⟩ := lazyBracket_ok _ _ _ hx
      refine ⟨by rw [h1]; rfl, ⟨'[', _, rfl, by simp [starters]⟩, fun r' => ?_⟩
      have h4 := h3 r'
      rw [Option.isSome_iff_exists] at h4
      obtain ⟨⟨x', r''⟩, h4⟩ := h4
      simp [altLink, h4]
    · exact absurd h (by simp)
  · exact absurd h (by simp)

theorem urlTail_ok (pre s m r : Str) (h : urlTail pre s = some (m, r)) :
    pre ++ s = m ++ r ∧ ∃ w, m = pre ++ ':' :: '/' :: '/' :: w ∧
      ∀ r', (urlTail pre (':' :: '/' :: '/' :: (w ++ r'))).isSome = true := by
  unfold urlTail at h
  split at h
  · rename_i t
    rw [span_eq] at h
    split at h
    · exact absurd h (by simp)
    · rename_i w r0 hne heq
      simp only [Option.some.injEq, Prod.mk.injEq] at h heq
      obtain ⟨rfl, rfl⟩ := h
      obtain ⟨hw, hr⟩ := heq
      refine ⟨?_, w, rfl, fun r' => ?_⟩
      · have := List.takeWhile_append_dropWhile isUrlChar t
        rw [hw, hr] at this
        rw [← this]; simp
      · have hall : ∀ c ∈ w, isUrlChar c = true := by
          rw [← hw]; intro c hc; exact List.mem_takeWhile_imp hc
        have hwne : w ≠ [] := hne
        simp only [urlTail, span_eq, List.takeWhile_append_of_pos hall,
          List.dropWhile_append_of_pos hall]
        split
        · rename_i h1
          simp only [Prod.mk.injEq, List.append_eq_nil] at h1
          exact absurd h1.1.1 hwne
        · rfl
  · exact absurd h (by simp)

theorem urlTail_s (pre t : Str) : urlTail pre ('s' :: t) = none := by
  simp [urlTail]

theorem altUrl_ok : AltOK altUrl := by
  intro s m r h
  unfold altUrl at h
  split at h
  · rename_i t
    split at h
    · rename_i t'
      split at h
      · rename_i res hres
        simp only [Option.some.injEq] at h
        subst h
        obtain ⟨h1, w, h2, h3⟩ := urlTail_ok _ _ _ _ hres
        subst h2
        refine ⟨by simpa using h1, ⟨'h', _, rfl, by simp [starters]⟩, fun r' => ?_⟩
        have h4 := h3 r'
        rw [Option.isSome_iff_exists] at h4
        obtain ⟨res', h4⟩ := h4
        simp [altUrl, h4]
      · rw [urlTail_s] at h
        exact absurd h (by simp)
    · rename_i hns
      obtain ⟨h1, w, h2, h3⟩ := urlTail_ok _ _ _ _ h
      subst h2
      refine ⟨by simpa using h1, ⟨'h', _, rfl, by simp [starters]⟩, fun r' => ?_⟩
      have h4 := h3 r'
      simp only [altUrl, List.cons_append, List.nil_append]
      exact h4
  · exact absurd h (by simp)

theorem AltOK.orElse {a b : Str → Option (Str × Str)} (ha : AltOK a) (hb : AltOK b) :
    AltOK (fun s => (a s).orElse fun _ => b s) := by
  intro s m r h
  simp only at h
  cases hs : a s with
  | some res =>
    rw [hs] at h
    simp only [Option.orElse] at h
    obtain ⟨h1, h2, h3⟩ := ha s m r (by rw [hs, h])
    refine ⟨h1, h2, fun r' => ?_⟩
    have h4 := h3 r'
    rw [Option.isSome_iff_exists] at h4
    obtain ⟨res', h4⟩ := h4
    simp [h4, Option.orElse]
  | none =>
    rw [hs] at h
    simp only [Option.orElse] at h
    obtain ⟨h1, h2, h3⟩ := hb s m r h
    refine ⟨h1, h2, fun r' => ?_⟩
    simp only
    cases a (m ++ r') with
    | some res' => rfl
    | none => exact h3 r'

theorem matchAt_ok : AltOK matchAt :=
  altBraced_ok.orElse (altDollar_ok.orElse (altPercent_ok.orElse
    (altImage_ok.orElse (altLink_ok.orElse altUrl_ok))))

/-! ## Lemmas on decimal numbers and placeholders -/

theorem digitChar_mem (d : Nat) : digitChar d ∈ digits := by
  unfold digitChar
  split <;> decide

theorem digitChar_val (d : Nat) (h : d < 10) : (digitChar d).toNat - 48 = d := by
  interval_cases d <;> rfl

theorem itoaAux_mem (fuel n : Nat) : ∀ c ∈ itoaAux fuel n, c ∈ digits := by
  induction fuel generalizing n with
  | zero => simp [itoaAux]
  | succ f ih =>
    intro c hc
    unfold itoaAux at hc
    split at hc
    · simp only [List.mem_singleton] at hc
      subst hc; exact digitChar_mem n
    · simp only [List.mem_append, List.mem_singleton] at hc
      rcases hc with hc | hc
      · exact ih _ c hc
      · subst hc; exact digitChar_mem _

theorem digitsVal_itoaAux (fuel n : Nat) (h : n < fuel) : digitsVal (itoaAux fuel n) = n := by
  induction fuel generalizing n with
  | zero => omega
  | succ f ih =>
    unfold itoaAux
    split
    · rename_i hn
      simp [digitsVal, digitChar_val n hn]
    · rename_i hn
      have h1 : n / 10 < f := by omega
      have h2 := ih (n / 10) h1
      unfold digitsVal at h2 ⊢
      rw [List.foldl_append, h2]
      simp only [List.foldl_cons, List.foldl_nil]
      rw [digitChar_val _ (Nat.mod_lt _ (by norm_num))]
      omega

theorem itoa_injective {i j : Nat} (h : itoa i = itoa j) : i = j := by
  have h1 := digitsVal_itoaAux (i + 1) i (by omega)
  have h2 := digitsVal_itoaAux (j + 1) j (by omega)
  unfold itoa at h
  rw [h] at h1
  omega

theorem itoa_mem (n : Nat) : ∀ c ∈ itoa n, c ∈ digits := itoaAux_mem _ _

/-- Two runs of digits that are each followed by an underscore, one text a prefix of the
other, are the same run. -/
theorem digits_underscore_agree (a b p q : Str) (ha : ∀ c ∈ a, c ∈ digits)
    (hb : ∀ c ∈ b, c ∈ digits) (h : a ++ '_' :: p <+: b ++ '_' :: q) : a = b := by
  induction a generalizing b with
  | nil =>
    cases b with
    | nil => rfl
    | cons y b =>
      simp only [List.nil_append, List.cons_append, List.cons_prefix_cons] at h
      have := hb y (by simp)
      rw [← h.1] at this
      exact absurd this (by decide)
  | cons x a ih =>
    cases b with
    | nil =>
      simp only [List.nil_append, List.cons_append, List.cons_prefix_cons] at h
      have := ha x (by simp)
      rw [h.1] at this
      exact absurd this (by decide)
    | cons y b =>
      simp only [List.cons_append, List.cons_prefix_cons] at h
      rw [h.1, ih b (fun c hc => ha c (by simp [hc])) (fun c hc => hb c (by simp [hc])) h.2]

theorem token_injective {i j : Nat} (h : token i = token j) : i = j := by
  unfold token at h
  simp only [List.cons_append, List.nil_append, List.cons.injEq, true_and] at h
  have := digits_underscore_agree (itoa i) (itoa j) _ _ (itoa_mem i) (itoa_mem j)
    (by rw [h])
  exact itoa_injective this

/-! ## The scan of the text and its pieces -/

theorem matchAt_split {s m r : Str} (h : matchAt s = some (m, r)) : s = m ++ r :=
  (matchAt_ok s m r h).1

theorem matchAt_ne_nil {s m r : Str} (h : matchAt s = some (m, r)) : m ≠ [] := by
  obtain ⟨_, ⟨c, t, rfl, _⟩, _⟩ := matchAt_ok s m r h
  simp

theorem matchAt_matchLike {s m r : Str} (h : matchAt s = some (m, r)) : MatchLike m := by
  obtain ⟨_, h2, h3⟩ := matchAt_ok s m r h
  refine ⟨h2, fun x hx => ?_⟩
  obtain ⟨r', rfl⟩ := hx
  exact h3 r'

theorem matchAt_rest_length {s m r : Str} (h : matchAt s = some (m, r)) :
    r.length < s.length := by
  have h1 := matchAt_split h
  have h2 := matchAt_ne_nil h
  rw [h1, List.length_append]
  have : 0 < m.length := List.length_pos.mpr h2
  omega

/-- Enough fuel: a larger `fuel` than the length of the text does not change the scan. -/
theorem findAllFrom_fuel (fuel : Nat) (s : Str) (h : s.length ≤ fuel) :
    findAllFrom fuel s = findAllFrom s.length s := by
  induction fuel using Nat.strong_induction_on generalizing s with
  | _ fuel ih =>
    cases s with
    | nil => cases fuel <;> rfl
    | cons c cs =>
      cases fuel with
      | zero => simp at h
      | succ f =>
        simp only [List.length_cons] at h ⊢
        unfold findAllFrom
        cases hm : matchAt (c :: cs) with
        | none =>
          simp only
          rw [ih f (by omega) cs (by omega)]
        | some res =>
          obtain ⟨m, r⟩ := res
          simp only
          have hl := matchAt_rest_length hm
          simp only [List.length_cons] at hl
          rw [ih f (by omega) r (by omega), ih cs.length (by omega) r (by omega)]

theorem findAllFrom_segments (fuel i : Nat) (s : Str) :
    findAllFrom fuel s =
      (segments fuel i s).filterMap (fun g => match g with
        | Seg.tok _ m => some m
        | Seg.lit _ => none) := by
  induction fuel generalizing i s with
  | zero => rfl
  | succ f ih =>
    cases s with
    | nil => rfl
    | cons c cs =>
      unfold findAllFrom segments
      cases hm : matchAt (c :: cs) with
      | none => simp only [List.filterMap_cons]; exact ih i cs
      | some res =>
        obtain ⟨m, r⟩ := res
        simp only [List.filterMap_cons]
        rw [ih (i + 1) r]

theorem flat_false_segments (fuel i : Nat) (s : Str) (h : s.length ≤ fuel) :
    flat (fun _ => false) (segments fuel i s) = s := by
  induction fuel generalizing i s with
  | zero =>
    cases s with
    | nil => rfl
    | cons c cs => simp at h
  | succ f ih =>
    cases s with
    | nil => rfl
    | cons c cs =>
      unfold segments
      cases hm : matchAt (c :: cs) with
      | none =>
        simp only [flat]
        rw [ih i cs (by simpa using h)]
      | some res =>
        obtain ⟨m, r⟩ := res
        simp only [flat]
        have hl := matchAt_rest_length hm
        simp only [List.length_cons] at hl h
        rw [ih (i + 1) r (by omega)]
        exact (matchAt_split hm).symm

/-! ## The loop of `protectVariables` -/

theorem prefix_of_append_cons_not_mem {c : Char} {m b y : Str}
    (h : m <+: b ++ c :: y) (hc : c ∉ m) : m <+: b := by
  induction b generalizing m with
  | nil =>
    cases m with
    | nil => exact List.nil_prefix
    | cons x m =>
      simp only [List.nil_append, List.cons_prefix_cons] at h
      exact absurd (by simp [h.1]) hc
  | cons d b ih =>
    cases m with
    | nil => exact List.nil_prefix
    | cons x m =>
      simp only [List.cons_append, List.cons_prefix_cons] at h ⊢
      exact ⟨h.1, ih h.2 (fun hm => hc (by simp [hm]))⟩

theorem token_eq_cons (i : Nat) :
    token i = 'C' :: (['H', 'I', 'L', 'I', '_', 'R', 'E', 'F', '_'] ++ itoa i ++ ['_']) ++
      ('C' :: ['H', 'I', 'L', 'I']) := by
  simp [token]

theorem token_ne_nil (i : Nat) : token i ≠ [] := by simp [token]

theorem mem_digits_not_starter {c : Char} (h : c ∈ digits) : c ∉ starters := by
  intro hs
  simp only [digits, List.mem_cons, List.mem_singleton, List.not_mem_nil, or_false] at h
  rcases h with rfl | rfl | rfl | rfl | rfl | rfl | rfl | rfl | rfl | rfl <;>
    exact absurd hs (by decide)

theorem mem_token_not_starter (i : Nat) {c : Char} (h : c ∈ token i) : c ∉ starters := by
  simp only [token, List.mem_append, List.mem_cons, List.mem_singleton, List.not_mem_nil,
    or_false] at h
  rcases h with (h | h) | h
  · rcases h with rfl | rfl | rfl | rfl | rfl | rfl | rfl | rfl | rfl | rfl <;> decide
  · exact mem_digits_not_starter (itoa_mem i c h)
  · rcases h with rfl | rfl | rfl | rfl | rfl | rfl <;> decide

theorem C_not_mem_digits : 'C' ∉ digits := by decide

theorem noEarlier_nil (s : Str) : NoEarlier [] s := by
  intro a b hab hb
  have : b = [] := by
    have := congrArg List.length hab
    simp at this
    exact List.length_eq_zero.mp (by omega)
  exact absurd this hb

theorem noEarlier_snoc {pre cs : Str} {c : Char} (h : NoEarlier pre (c :: cs))
    (hm : matchAt (c :: cs) = none) : NoEarlier (pre ++ [c]) cs := by
  intro a b hab hb m hml hC hp
  rcases List.eq_nil_or_concat b with rfl | ⟨b', x, rfl⟩
  · exact hb rfl
  · rw [List.concat_eq_append] at hab hb hp
    rw [← List.append_assoc] at hab
    have h1 := List.append_inj' hab (by simp)
    obtain ⟨h1, h2⟩ := h1
    simp only [List.cons.injEq, and_true] at h2
    subst h2
    by_cases hb' : b' = []
    · subst hb'
      simp only [List.nil_append, List.singleton_append] at hp
      have := hml.2 _ hp
      rw [hm] at this
      exact absurd this (by simp)
    · refine h a b' h1 hb' m hml hC ?_
      simpa using hp

theorem noEarlier_token {pre m0 r : Str} (i : Nat) (h : NoEarlier pre (m0 ++ r)) :
    NoEarlier (pre ++ token i) r := by
  intro a b hab hb m hml hC hp
  obtain ⟨⟨c, t, rfl, hc⟩, _⟩ := hml
  -- `b` is a suffix of `pre ++ token i`
  rcases List.append_eq_append_iff.mp hab with ⟨a', h1, h2⟩ | ⟨c', h1, h2⟩
  · -- a = pre ++ a', token i = a' ++ b
    cases b with
    | nil => exact hb rfl
    | cons x b =>
      simp only [List.cons_append, List.cons_prefix_cons] at hp
      have hx : x ∈ token i := by rw [h2]; simp
      exact mem_token_not_starter i hx (hp.1 ▸ hc)
  · -- pre = a ++ c', b = c' ++ token i
    subst h2
    by_cases hc' : c' = []
    · subst hc'
      have hx : c ∈ token i := by
        rw [token_eq_cons] at hp ⊢
        simp only [List.nil_append, List.cons_append, List.cons_prefix_cons] at hp
        simp [hp.1]
      exact mem_token_not_starter i hx hc
    · have hp' : (c :: t) <+: c' ++ 'C' :: (['H', 'I', 'L', 'I', '_', 'R', 'E', 'F', '_'] ++
          itoa i ++ ['_'] ++ 'C' :: ['H', 'I', 'L', 'I'] ++ r) := by
        rw [token_eq_cons] at hp
        simpa using hp
      have h3 := prefix_of_append_cons_not_mem hp' hC
      refine h a c' h1 hc' (c :: t) ⟨⟨c, t, rfl, hc⟩, ‹_›⟩ hC ?_
      exact h3.trans (List.prefix_append _ _)

/-- The protected text of `protectLoop`, for a text without `C`: every match is replaced at
its own position. -/
theorem protectLoop_fst (fuel i : Nat) (s pre : Str) (ph : GoMap Str)
    (hf : s.length ≤ fuel) (hC : 'C' ∉ s) (hpre : NoEarlier pre s) :
    (protectLoop i (findAllFrom fuel s) (pre ++ s, ph)).1 =
      pre ++ flat (fun _ => true) (segments fuel i s) := by
  induction fuel generalizing i s pre ph with
  | zero =>
    cases s with
    | nil => simp [findAllFrom, protectLoop, segments, flat]
    | cons c cs => simp at hf
  | succ f ih =>
    cases s with
    | nil => simp [findAllFrom, protectLoop, segments, flat]
    | cons c cs =>
      unfold findAllFrom segments
      cases hm : matchAt (c :: cs) with
      | none =>
        simp only [flat]
        have h1 := ih i cs (pre ++ [c]) ph (by simpa using hf)
          (fun h => hC (by simp [h])) (noEarlier_snoc hpre hm)
        simpa using h1
      | some res =>
        obtain ⟨m, r⟩ := res
        simp only [flat, protectLoop, if_true]
        have hs := matchAt_split hm
        have hl := matchAt_rest_length hm
        simp only [List.length_cons] at hl hf
        have hCm : 'C' ∉ m := fun h => hC (by rw [hs]; simp [h])
        have hCr : 'C' ∉ r := fun h => hC (by rw [hs]; simp [h])
        have hrep : replaceFirst (pre ++ c :: cs) m (token i) = (pre ++ token i) ++ r := by
          rw [hs, replaceFirst_at pre m r (token i) (matchAt_ne_nil hm)]
          · simp
          · intro a b hab hb
            have := hpre a b hab hb m (matchAt_matchLike hm) hCm
            rwa [hs] at this
        rw [hrep, ih (i + 1) r (pre ++ token i) _ (by omega) hCr
          (noEarlier_token i (hs ▸ hpre))]
        simp

theorem mapSet_new {α : Type} (ph : GoMap α) (k : Str) (v : α) (h : ∀ kv ∈ ph, kv.1 ≠ k) :
    mapSet ph k v = ph ++ [(k, v)] := by
  induction ph with
  | nil => rfl
  | cons e ph ih =>
    obtain ⟨k', v'⟩ := e
    have h1 : k' ≠ k := h (k', v') (by simp)
    simp only [mapSet, h1, if_false, List.cons_append]
    rw [ih (fun kv hkv => h kv (by simp [hkv]))]

theorem mem_tokEntries {i : Nat} {ms : List Str} {kv : Str × Str} (h : kv ∈ tokEntries i ms) :
    ∃ j, i ≤ j ∧ kv.1 = token j := by
  induction ms generalizing i with
  | nil => simp [tokEntries] at h
  | cons m ms ih =>
    simp only [tokEntries, List.mem_cons] at h
    rcases h with rfl | h
    · exact ⟨i, le_refl _, rfl⟩
    · obtain ⟨j, hj, hk⟩ := ih h
      exact ⟨j, by omega, hk⟩

/-- The placeholder map of `protectLoop`: one new entry per match, in match order. -/
theorem protectLoop_snd (i : Nat) (ms : List Str) (p : Str) (ph : GoMap Str)
    (h : ∀ kv ∈ ph, ∀ j, i ≤ j → kv.1 ≠ token j) :
    (protectLoop i ms (p, ph)).2 = ph ++ tokEntries i ms := by
  induction ms generalizing i p ph with
  | nil => simp [protectLoop, tokEntries]
  | cons m ms ih =>
    simp only [protectLoop, tokEntries]
    rw [mapSet_new ph (token i) m (fun kv hkv => h kv hkv i (le_refl _)), ih]
    · simp
    · intro kv hkv j hj
      simp only [List.mem_append, List.mem_singleton] at hkv
      rcases hkv with hkv | rfl
      · exact h kv hkv j (by omega)
      · intro e
        have := token_injective e
        omega

theorem protectVariables_snd (text : Str) :
    (protectVariables text).2 = tokEntries 0 (findAllString text) := by
  unfold protectVariables
  rw [protectLoop_snd 0 _ text [] (by simp)]
  simp

theorem protectVariables_fst (text : Str) (hC : 'C' ∉ text) :
    (protectVariables text).1 = flat (fun _ => true) (segments text.length 0 text) := by
  unfold protectVariables findAllString
  have := protectLoop_fst text.length 0 text [] [] (le_refl _) hC (noEarlier_nil _)
  simpa using this

/-! ## The restoration on the pieces of a text -/

theorem prefix_append_cases {w m x : Str} (h : w <+: m ++ x) :
    w <+: m ∨ ∃ w', w = m ++ w' ∧ w' <+: x := by
  induction m generalizing w with
  | nil => exact Or.inr ⟨w, rfl, by simpa using h⟩
  | cons c m ih =>
    cases w with
    | nil => exact Or.inl List.nil_prefix
    | cons d w =>
      simp only [List.cons_append, List.cons_prefix_cons] at h
      obtain ⟨rfl, h⟩ := h
      rcases ih h with h1 | ⟨w', rfl, h2⟩
      · exact Or.inl (by simpa [List.cons_prefix_cons] using h1)
      · exact Or.inr ⟨w', rfl, h2⟩

theorem C_not_mem_itoa (i : Nat) : 'C' ∉ itoa i :=
  fun h => C_not_mem_digits (itoa_mem i _ h)

theorem token_head (i : Nat) : ∃ t, token i = 'C' :: t := ⟨_, token_eq_cons i⟩

/-- A text without `C` that begins the written-out pieces also begins the original text. -/
theorem prefix_flat_of_not_mem (keep : Nat → Bool) (segs : List Seg) (w : Str)
    (hw : 'C' ∉ w) (h : w <+: flat keep segs) : w <+: flat (fun _ => false) segs := by
  induction segs generalizing w with
  | nil => simpa [flat] using h
  | cons g segs ih =>
    cases g with
    | lit c =>
      simp only [flat] at h ⊢
      cases w with
      | nil => exact List.nil_prefix
      | cons d w =>
        rw [List.cons_prefix_cons] at h ⊢
        exact ⟨h.1, ih w (fun hm => hw (by simp [hm])) h.2⟩
    | tok i m =>
      simp only [flat, Bool.false_eq_true, if_false] at h ⊢
      by_cases hk : keep i = true
      · simp only [hk, if_true] at h
        cases w with
        | nil => exact List.nil_prefix
        | cons d w =>
          obtain ⟨t, ht⟩ := token_head i
          rw [ht, List.cons_append, List.cons_prefix_cons] at h
          exact absurd (by simp [h.1]) hw
      · simp only [hk, if_false] at h
        rcases prefix_append_cases h with h1 | ⟨w', rfl, h2⟩
        · exact h1.trans (List.prefix_append _ _)
        · have := ih w' (fun hm => hw (by simp [hm])) h2
          exact (List.prefix_append_right_inj m).mpr this

theorem token_prefix_token {i j : Nat} {x : Str} (h : token j <+: token i ++ x) : j = i := by
  unfold token at h
  simp only [List.cons_append, List.nil_append, List.append_assoc, List.cons_prefix_cons,
    true_and] at h
  exact itoa_injective
    (digits_underscore_agree (itoa j) (itoa i) _ _ (itoa_mem j) (itoa_mem i) h)

theorem token_prefix_tail {j : Nat} {x : Str}
    (h : token j <+: 'C' :: 'H' :: 'I' :: 'L' :: 'I' :: x) : refMark <+: x := by
  unfold token at h
  simp only [List.cons_append, List.nil_append, List.cons_prefix_cons, true_and] at h
  obtain ⟨t, ht⟩ := h
  exact ⟨_, by rw [← ht]; simp [refMark]; rfl⟩

theorem C_not_mem_refMark : 'C' ∉ refMark := by decide

theorem C_not_mem_tokenMid (i : Nat) :
    'C' ∉ (['H', 'I', 'L', 'I', '_', 'R', 'E', 'F', '_'] ++ itoa i ++ ['_'] : Str) := by
  intro h
  simp only [List.mem_append, List.mem_cons, List.mem_singleton, List.not_mem_nil,
    or_false] at h
  rcases h with (h | h) | h
  · exact absurd h (by decide)
  · exact C_not_mem_itoa i h
  · exact absurd h (by decide)

/-- Replacing one placeholder passes over another placeholder unchanged, unless the
fragment `_REF_` follows it. -/
theorem replaceAll_token_pass {i j : Nat} (x v : Str) (hij : i ≠ j) (hx : ¬ refMark <+: x) :
    replaceAll (token i ++ x) (token j) v = token i ++ replaceAll x (token j) v := by
  obtain ⟨tj, htj⟩ := token_head j
  have h1 : ¬ token j <+: token i ++ x := fun h => hij (token_prefix_token h).symm
  have h2 : ¬ token j <+: 'C' :: 'H' :: 'I' :: 'L' :: 'I' :: x :=
    fun h => hx (token_prefix_tail h)
  rw [token_eq_cons i] at h1 ⊢
  simp only [List.cons_append, List.append_assoc, List.nil_append] at h1 ⊢
  rw [replaceAll_cons_skip _ _ _ _ h1]
  have h3 := C_not_mem_tokenMid i
  have h4 : 'C' ∉ (['H', 'I', 'L', 'I'] : Str) := by decide
  have e1 := replaceAll_append_of_head_not_mem 'C' tj
    (['H', 'I', 'L', 'I', '_', 'R', 'E', 'F', '_'] ++ itoa i ++ ['_'])
    ('C' :: 'H' :: 'I' :: 'L' :: 'I' :: x) v h3
  have e2 := replaceAll_append_of_head_not_mem 'C' tj ['H', 'I', 'L', 'I'] x v h4
  rw [← htj] at e1 e2
  simp only [List.cons_append, List.append_assoc, List.nil_append] at e1 e2
  rw [e1, replaceAll_cons_skip _ _ _ _ h2, e2]

/-- One step of the restoration on the written-out pieces: replacing the placeholder of
index `j` by its value turns every kept piece of index `j` into its literal text. -/
theorem replaceAll_flat (keep : Nat → Bool) (segs : List Seg) (j : Nat) (v : Str)
    (hC : 'C' ∉ flat (fun _ => false) segs)
    (hR : ¬ refMark <:+: flat (fun _ => false) segs)
    (hv : ∀ m, Seg.tok j m ∈ segs → m = v) :
    replaceAll (flat keep segs) (token j) v = flat (fun i => keep i && i != j) segs := by
  obtain ⟨tj, htj⟩ := token_head j
  induction segs with
  | nil => simp [flat, replaceAll_nil _ _ (token_ne_nil j)]
  | cons g segs ih =>
    cases g with
    | lit c =>
      simp only [flat] at hC hR ⊢
      have hc : c ≠ 'C' := fun e => hC (by simp [e])
      have hnp : ¬ token j <+: c :: flat keep segs := by
        rw [htj, List.cons_prefix_cons]
        exact fun h => hc h.1.symm
      rw [replaceAll_cons_skip _ _ _ _ hnp,
        ih (fun h => hC (by simp [h]))
          (fun h => hR (h.trans (List.suffix_cons _ _).isInfix))
          (fun m hm => hv m (by simp [hm]))]
    | tok i m =>
      simp only [flat, Bool.false_eq_true, if_false] at hC hR ⊢
      have hCm : 'C' ∉ m := fun h => hC (by simp [h])
      have hCr : 'C' ∉ flat (fun _ => false) segs := fun h => hC (by simp [h])
      have hRr : ¬ refMark <:+: flat (fun _ => false) segs :=
        fun h => hR (h.trans (List.suffix_append _ _).isInfix)
      have ih' := ih hCr hRr (fun m' hm => hv m' (by simp [hm]))
      by_cases hk : keep i = true
      · by_cases hij : i = j
        · subst hij
          have hmv : m = v := hv m (by simp)
          simp only [hk, if_true, bne_self_eq_false, Bool.and_false, Bool.false_eq_true,
            if_false]
          rw [replaceAll_append_self _ _ _ (token_ne_nil i), ih', hmv]
        · have hne : (i != j) = true := by simpa using hij
          simp only [hk, if_true, hne, Bool.and_self]
          have hx : ¬ refMark <+: flat keep segs := by
            intro h
            have := prefix_flat_of_not_mem keep segs refMark C_not_mem_refMark h
            exact hRr this.isInfix
          rw [replaceAll_token_pass _ _ hij hx, ih']
      · simp only [hk, Bool.false_and, Bool.false_eq_true, if_false]
        have := replaceAll_append_of_head_not_mem 'C' tj m (flat keep segs) v hCm
        rw [← htj] at this
        rw [this, ih']

theorem flat_congr (keep keep' : Nat → Bool) (segs : List Seg)
    (h : ∀ i m, Seg.tok i m ∈ segs → keep i = keep' i) : flat keep segs = flat keep' segs := by
  induction segs with
  | nil => rfl
  | cons g segs ih =>
    cases g with
    | lit c =>
      simp only [flat]
      rw [ih (fun i m hm => h i m (by simp [hm]))]
    | tok i m =>
      simp only [flat]
      rw [ih (fun i m hm => h i m (by simp [hm])), h i m (by simp)]

/-- The restoration on the written-out pieces, for any order of the entries: the pieces
whose placeholder is among the entries are turned into their literal text. -/
theorem restoreVariables_flat (segs : List Seg)
    (hC : 'C' ∉ flat (fun _ => false) segs)
    (hR : ¬ refMark <:+: flat (fun _ => false) segs)
    (entries : List (Str × Str)) (keep : Nat → Bool)
    (hL : ∀ kv ∈ entries, ∃ j, kv.1 = token j ∧ ∀ m, Seg.tok j m ∈ segs → m = kv.2) :
    restoreVariables (flat keep segs) entries =
      flat (fun i => keep i && !(entries.any (fun kv => kv.1 == token i))) segs := by
  induction entries generalizing keep with
  | nil => simp [restoreVariables]
  | cons kv entries ih =>
    obtain ⟨j, hj, hv⟩ := hL kv (by simp)
    have step : restoreVariables (flat keep segs) (kv :: entries) =
        restoreVariables (replaceAll (flat keep segs) kv.1 kv.2) entries := rfl
    rw [step, hj, replaceAll_flat keep segs j kv.2 hC hR hv,
      ih _ (fun e he => hL e (by simp [he]))]
    apply flat_congr
    intro i m _
    simp only [List.any_cons, hj]
    by_cases hij : i = j
    · subst hij; simp
    · have h1 : (i != j) = true := by simpa using hij
      have h2 : (token j == token i) = false := by
        rw [beq_eq_false_iff_ne]
        exact fun e => hij (token_injective e).symm
      simp [h1, h2]

theorem segments_index_le {fuel i j : Nat} {s m : Str}
    (h : Seg.tok j m ∈ segments fuel i s) : i ≤ j := by
  induction fuel generalizing i s with
  | zero => simp [segments] at h
  | succ f ih =>
    cases s with
    | nil => simp [segments] at h
    | cons c cs =>
      unfold segments at h
      cases hm : matchAt (c :: cs) with
      | none =>
        rw [hm] at h
        simp only [List.mem_cons] at h
        rcases h with h | h
        · exact absurd h (by simp)
        · exact ih h
      | some res =>
        obtain ⟨m0, r⟩ := res
        rw [hm] at h
        simp only [List.mem_cons, Seg.tok.injEq] at h
        rcases h with h | h
        · omega
        · have := ih h
          omega

theorem segments_unique {fuel i j : Nat} {s m m' : Str}
    (h : Seg.tok j m ∈ segments fuel i s) (h' : Seg.tok j m' ∈ segments fuel i s) : m = m' := by
  induction fuel generalizing i s with
  | zero => simp [segments] at h
  | succ f ih =>
    cases s with
    | nil => simp [segments] at h
    | cons c cs =>
      unfold segments at h h'
      cases hm : matchAt (c :: cs) with
      | none =>
        rw [hm] at h h'
        simp only [List.mem_cons] at h h'
        rcases h with h | h
        · exact absurd h (by simp)
        · rcases h' with h' | h'
          · exact absurd h' (by simp)
          · exact ih h h'
      | some res =>
        obtain ⟨m0, r⟩ := res
        rw [hm] at h h'
        simp only [List.mem_cons, Seg.tok.injEq] at h h'
        rcases h with h | h
        · rcases h' with h' | h'
          · rw [h.2, h'.2]
          · have := segments_index_le h'
            omega
        · rcases h' with h' | h'
          · have := segments_index_le h
            omega
          · exact ih h h'

theorem mem_tokEntries_segments (fuel i : Nat) (s : Str) (kv : Str × Str) :
    kv ∈ tokEntries i (findAllFrom fuel s) ↔
      ∃ j m, kv = (token j, m) ∧ Seg.tok j m ∈ segments fuel i s := by
  induction fuel generalizing i s with
  | zero => simp [findAllFrom, tokEntries, segments]
  | succ f ih =>
    cases s with
    | nil => simp [findAllFrom, tokEntries, segments]
    | cons c cs =>
      unfold findAllFrom segments
      cases hm : matchAt (c :: cs) with
      | none =>
        simp only [List.mem_cons, false_or, reduceCtorEq]
        exact ih i cs
      | some res =>
        obtain ⟨m0, r⟩ := res
        simp only [tokEntries, List.mem_cons, Seg.tok.injEq]
        rw [ih (i + 1) r]
        constructor
        · rintro (h | ⟨j, m, h1, h2⟩)
          · exact ⟨i, m0, h, Or.inl ⟨rfl, rfl⟩⟩
          · exact ⟨j, m, h1, Or.inr h2⟩
        · rintro ⟨j, m, h1, (⟨rfl, rfl⟩ | h2)⟩
          · exact Or.inl h1
          · exact Or.inr ⟨j, m, h1, h2⟩

/-! ## Occurrences of placeholders, and the placeholder map -/

theorem infix_append_of_head_not_mem (h : Char) (t x rest : Str) (hx : h ∉ x)
    (hi : (h :: t) <:+: x ++ rest) : (h :: t) <:+: rest := by
  induction x with
  | nil => simpa using hi
  | cons c x ih =>
    rw [List.cons_append, List.infix_cons_iff] at hi
    rcases hi with hp | hi
    · rw [List.cons_prefix_cons] at hp
      exact absurd (by simp [hp.1]) hx
    · exact ih (fun hm => hx (by simp [hm])) hi

theorem token_infix_pass {i j : Nat} (x : Str) (hij : i ≠ j) (hx : ¬ refMark <+: x)
    (h : token j <:+: token i ++ x) : token j <:+: x := by
  obtain ⟨tj, htj⟩ := token_head j
  have h1 : ¬ token j <+: token i ++ x := fun h => hij (token_prefix_token h).symm
  have h2 : ¬ token j <+: 'C' :: 'H' :: 'I' :: 'L' :: 'I' :: x :=
    fun h => hx (token_prefix_tail h)
  rw [token_eq_cons i] at h1 h
  simp only [List.cons_append, List.append_assoc, List.nil_append] at h1 h
  rw [List.infix_cons_iff] at h
  rcases h with h | h
  · exact absurd h h1
  · rw [htj] at h h2 ⊢
    have h3 := C_not_mem_tokenMid i
    have e1 := infix_append_of_head_not_mem 'C' tj
      (['H', 'I', 'L', 'I', '_', 'R', 'E', 'F', '_'] ++ itoa i ++ ['_'])
      ('C' :: 'H' :: 'I' :: 'L' :: 'I' :: x) h3 (by simpa using h)
    rw [List.infix_cons_iff] at e1
    rcases e1 with e1 | e1
    · exact absurd e1 h2
    · exact infix_append_of_head_not_mem 'C' tj ['H', 'I', 'L', 'I'] x (by decide) e1

/-- A placeholder that occurs in the written-out pieces is the placeholder of a kept piece. -/
theorem token_infix_flat (keep : Nat → Bool) (segs : List Seg) (j : Nat)
    (hC : 'C' ∉ flat (fun _ => false) segs)
    (hR : ¬ refMark <:+: flat (fun _ => false) segs)
    (h : token j <:+: flat keep segs) : ∃ m, Seg.tok j m ∈ segs := by
  obtain ⟨tj, htj⟩ := token_head j
  induction segs with
  | nil =>
    simp only [flat, List.infix_nil] at h
    exact absurd h (token_ne_nil j)
  | cons g segs ih =>
    cases g with
    | lit c =>
      simp only [flat] at hC hR h
      have hc : c ≠ 'C' := fun e => hC (by simp [e])
      rw [List.infix_cons_iff] at h
      rcases h with h | h
      · rw [htj, List.cons_prefix_cons] at h
        exact absurd h.1.symm hc
      · obtain ⟨m, hm⟩ := ih (fun h => hC (by simp [h]))
          (fun h => hR (h.trans (List.suffix_cons _ _).isInfix)) h
        exact ⟨m, by simp [hm]⟩
    | tok i m =>
      simp only [flat, Bool.false_eq_true, if_false] at hC hR h
      have hCm : 'C' ∉ m := fun h => hC (by simp [h])
      have hCr : 'C' ∉ flat (fun _ => false) segs := fun h => hC (by simp [h])
      have hRr : ¬ refMark <:+: flat (fun _ => false) segs :=
        fun h => hR (h.trans (List.suffix_append _ _).isInfix)
      have fin : token j <:+: flat keep segs → ∃ m', Seg.tok j m' ∈ Seg.tok i m :: segs := by
        intro h'
        obtain ⟨m', hm'⟩ := ih hCr hRr h'
        exact ⟨m', by simp [hm']⟩
      by_cases hk : keep i = true
      · by_cases hij : i = j
        · exact ⟨m, by simp [hij]⟩
        · simp only [hk, if_true] at h
          have hx : ¬ refMark <+: flat keep segs := by
            intro h
            have := prefix_flat_of_not_mem keep segs refMark C_not_mem_refMark h
            exact hRr this.isInfix
          exact fin (token_infix_pass _ hij hx h)
      · simp only [hk, if_false] at h
        rw [htj] at h
        have := infix_append_of_head_not_mem 'C' tj m (flat keep segs) hCm h
        rw [← htj] at this
        exact fin this

theorem token_infix_flat_of_mem (segs : List Seg) (j : Nat) (m : Str)
    (h : Seg.tok j m ∈ segs) : token j <:+: flat (fun _ => true) segs := by
  induction segs with
  | nil => simp at h
  | cons g segs ih =>
    simp only [List.mem_cons] at h
    rcases h with rfl | h
    · simp only [flat, if_true]
      exact (List.prefix_append _ _).isInfix
    · have := ih h
      cases g with
      | lit c => simp only [flat]; exact this.trans (List.suffix_cons _ _).isInfix
      | tok i m' =>
        simp only [flat, if_true]; exact this.trans (List.suffix_append _ _).isInfix

theorem segments_index_range (fuel i j : Nat) (s : Str) :
    (∃ m, Seg.tok j m ∈ segments fuel i s) ↔
      i ≤ j ∧ j < i + (findAllFrom fuel s).length := by
  induction fuel generalizing i s with
  | zero => simp [segments, findAllFrom]
  | succ f ih =>
    cases s with
    | nil => simp [segments, findAllFrom]
    | cons c cs =>
      unfold findAllFrom segments
      cases hm : matchAt (c :: cs) with
      | none =>
        simp only [List.mem_cons, false_or, reduceCtorEq]
        exact ih i cs
      | some res =>
        obtain ⟨m0, r⟩ := res
        simp only [List.mem_cons, Seg.tok.injEq, List.length_cons]
        constructor
        · rintro ⟨m, (⟨rfl, rfl⟩ | h)⟩
          · omega
          · have := (ih (i + 1) r).mp ⟨m, h⟩
            omega
        · rintro ⟨h1, h2⟩
          by_cases hij : j = i
          · exact ⟨m0, Or.inl ⟨hij, rfl⟩⟩
          · obtain ⟨m, hm⟩ := (ih (i + 1) r).mpr ⟨by omega, by omega⟩
            exact ⟨m, Or.inr hm⟩

theorem mem_gaps (segs : List Seg) : ∀ g ∈ gaps segs, ∀ c ∈ g, c ∈ flat (fun _ => false) segs := by
  induction segs with
  | nil => simp [gaps]
  | cons s segs ih =>
    cases s with
    | lit c =>
      intro g hg x hx
      simp only [gaps] at hg
      simp only [flat, List.mem_cons]
      cases hgs : gaps segs with
      | nil =>
        rw [hgs] at hg
        simp only [List.mem_singleton] at hg
        subst hg
        simp only [List.mem_singleton] at hx
        exact Or.inl hx
      | cons g0 gs =>
        rw [hgs] at hg
        simp only [List.mem_cons] at hg
        rcases hg with rfl | hg
        · simp only [List.mem_cons] at hx
          rcases hx with hx | hx
          · exact Or.inl hx
          · exact Or.inr (ih g0 (by rw [hgs]; simp) x hx)
        · exact Or.inr (ih g (by rw [hgs]; simp [hg]) x hx)
    | tok i m =>
      intro g hg x hx
      simp only [gaps, List.mem_cons] at hg
      simp only [flat, Bool.false_eq_true, if_false, List.mem_append]
      rcases hg with rfl | hg
      · simp at hx
      · exact Or.inr (ih g hg x hx)

theorem mapGet_tokEntries (i n : Nat) (ms : List Str) :
    mapGet (tokEntries i ms) (token (i + n)) = ms[n]? := by
  induction ms generalizing i n with
  | nil => simp [tokEntries, mapGet]
  | cons m ms ih =>
    cases n with
    | zero => simp [tokEntries, mapGet]
    | succ n =>
      have hne : token i ≠ token (i + (n + 1)) := fun e => by
        have := token_injective e
        omega
      simp only [tokEntries, mapGet, hne, if_false, List.getElem?_cons_succ]
      have := ih (i + 1) n
      rwa [show i + 1 + n = i + (n + 1) by omega] at this

theorem mapGet_tokEntries_lt (i j : Nat) (ms : List Str) (h : j < i) :
    mapGet (tokEntries i ms) (token j) = none := by
  induction ms generalizing i with
  | nil => simp [tokEntries, mapGet]
  | cons m ms ih =>
    have hne : token i ≠ token j := fun e => by
      have := token_injective e
      omega
    simp only [tokEntries, mapGet, hne, if_false]
    exact ih (i + 1) (by omega)

theorem tokEntries_fst (i : Nat) (ms : List Str) :
    (tokEntries i ms).map Prod.fst = (List.range' i ms.length).map token := by
  induction ms generalizing i with
  | nil => rfl
  | cons m ms ih => simp [tokEntries, List.range'_succ, ih]

theorem tokEntries_snd (i : Nat) (ms : List Str) : (tokEntries i ms).map Prod.snd = ms := by
  induction ms generalizing i with
  | nil => rfl
  | cons m ms ih => simp [tokEntries, ih]

theorem mapGet_mem {α : Type} (m : GoMap α) (k : Str) (v : α) (h : mapGet m k = some v) :
    (k, v) ∈ m := by
  induction m with
  | nil => simp [mapGet] at h
  | cons e m ih =>
    obtain ⟨k', v'⟩ := e
    simp only [mapGet] at h
    split at h
    · rename_i hk
      simp only [Option.some.injEq] at h
      simp [hk, h]
    · simp [ih h]

theorem mem_tokEntries_mapGet {i : Nat} {ms : List Str} {kv : Str × Str}
    (h : kv ∈ tokEntries i ms) :
    ∃ j, kv.1 = token j ∧ mapGet (tokEntries i ms) (token j) = some kv.2 := by
  induction ms generalizing i with
  | nil => simp [tokEntries] at h
  | cons m ms ih =>
    simp only [tokEntries, List.mem_cons] at h
    rcases h with rfl | h
    · exact ⟨i, rfl, by simp [tokEntries, mapGet]⟩
    · obtain ⟨j, hj, hget⟩ := ih h
      obtain ⟨j', hj', hk⟩ := mem_tokEntries h
      have hjj : j = j' := token_injective (hj.symm.trans hk)
      have hne : token i ≠ token j := fun e => by
        have := token_injective e
        omega
      exact ⟨j, hj, by simp only [tokEntries, mapGet, hne, if_false]; exact hget⟩

/-! ## The replacement of every match at its own position -/

theorem positionalFrom_flat (fuel i : Nat) (s : Str) :
    positionalFrom fuel i s = flat (fun _ => true) (segments fuel i s) := by
  induction fuel generalizing i s with
  | zero => simp [positionalFrom, segments, flat]
  | succ f ih =>
    cases s with
    | nil => simp [positionalFrom, segments, flat]
    | cons c cs =>
      unfold positionalFrom segments
      cases hm : matchAt (c :: cs) with
      | none => simp [flat, ih]
      | some res => simp [flat, ih]

/-- The protected text of `protectLoop`, for a text none of whose matches contains `C`: every
match is replaced at its own position. -/
theorem protectLoop_positional (fuel i : Nat) (s pre : Str) (ph : GoMap Str)
    (hf : s.length ≤ fuel) (hC : ∀ m ∈ findAllFrom fuel s, 'C' ∉ m) (hpre : NoEarlier pre s) :
    (protectLoop i (findAllFrom fuel s) (pre ++ s, ph)).1 =
      pre ++ positionalFrom fuel i s := by
  induction fuel generalizing i s pre ph with
  | zero =>
    cases s with
    | nil => simp [findAllFrom, protectLoop, positionalFrom]
    | cons c cs => simp at hf
  | succ f ih =>
    cases s with
    | nil => simp [findAllFrom, protectLoop, positionalFrom]
    | cons c cs =>
      cases hm : matchAt (c :: cs) with
      | none =>
        have hfa : findAllFrom (f + 1) (c :: cs) = findAllFrom f cs := by
          simp [findAllFrom, hm]
        have hpo : positionalFrom (f + 1) i (c :: cs) = c :: positionalFrom f i cs := by
          simp [positionalFrom, hm]
        rw [hfa] at hC ⊢
        rw [hpo]
        have h1 := ih i cs (pre ++ [c]) ph (by simpa using hf) hC (noEarlier_snoc hpre hm)
        simpa using h1
      | some res =>
        obtain ⟨m, r⟩ := res
        have hfa : findAllFrom (f + 1) (c :: cs) = m :: findAllFrom f r := by
          simp [findAllFrom, hm]
        have hpo : positionalFrom (f + 1) i (c :: cs) = token i ++ positionalFrom f (i + 1) r := by
          simp [positionalFrom, hm]
        rw [hfa] at hC ⊢
        rw [hpo]
        simp only [protectLoop]
        have hs := matchAt_split hm
        have hl := matchAt_rest_length hm
        simp only [List.length_cons] at hl hf
        have hCm : 'C' ∉ m := hC m (by simp)
        have hrep : replaceFirst (pre ++ c :: cs) m (token i) = (pre ++ token i) ++ r := by
          rw [hs, replaceFirst_at pre m r (token i) (matchAt_ne_nil hm)]
          · simp
          · intro a b hab hb
            have := hpre a b hab hb m (matchAt_matchLike hm) hCm
            rwa [hs] at this
        rw [hrep, ih (i + 1) r (pre ++ token i) _ (by omega)
          (fun m' hm' => hC m' (by simp [hm'])) (noEarlier_token i (hs ▸ hpre))]
        simp

/-! ## The restoration without the letter `C` -/

/-- A text without `C` that begins a plain text followed by the written-out pieces also
begins the plain text followed by the original text. -/
theorem prefix_plain_flat (keep : Nat → Bool) (segs : List Seg) (pre w : Str)
    (hw : 'C' ∉ w) (h : w <+: pre ++ flat keep segs) :
    w <+: pre ++ flat (fun _ => false) segs := by
  rcases prefix_append_cases h with h1 | ⟨w', rfl, h2⟩
  · exact h1.trans (List.prefix_append _ _)
  · exact (List.prefix_append_right_inj pre).mpr
      (prefix_flat_of_not_mem keep segs w' (fun hm => hw (by simp [hm])) h2)

theorem token_tail_eq (j : Nat) :
    token j = 'C' :: (['H', 'I', 'L', 'I'] ++ refMark) ++ (itoa j ++ ['_', 'C', 'H', 'I', 'L', 'I']) := by
  simp [token, refMark]

/-- No placeholder starts at a rune of a plain text in front of the written-out pieces, when
the plain text followed by the original text does not contain `_REF_`. -/
theorem token_not_prefix_plain (keep : Nat → Bool) (segs : List Seg) (c : Char) (pre : Str)
    (j : Nat) (hR : ¬ refMark <:+: c :: pre ++ flat (fun _ => false) segs) :
    ¬ token j <+: c :: pre ++ flat keep segs := by
  intro h
  rw [token_tail_eq] at h
  have h0 : 'C' :: ((['H', 'I', 'L', 'I'] ++ refMark) ++
      (itoa j ++ ['_', 'C', 'H', 'I', 'L', 'I'])) <+: c :: (pre ++ flat keep segs) := by
    simpa using h
  rw [List.cons_prefix_cons] at h0
  have h1 : (['H', 'I', 'L', 'I'] ++ refMark) <+: pre ++ flat keep segs :=
    (List.prefix_append _ _).trans h0.2
  have h2 := prefix_plain_flat keep segs pre _ (by decide) h1
  apply hR
  have h3 : refMark <:+: pre ++ flat (fun _ => false) segs :=
    (List.suffix_append _ _).isInfix.trans h2.isInfix
  exact h3.trans (List.suffix_cons _ _).isInfix

/-- One step of the restoration on a plain text followed by the written-out pieces:
replacing the placeholder of index `j` by its value leaves the plain text and turns every
kept piece of index `j` into its literal text. -/
theorem replaceAll_plain_flat (keep : Nat → Bool) (segs : List Seg) (j : Nat) (v : Str)
    (hv : ∀ m, Seg.tok j m ∈ segs → m = v) (pre : Str)
    (hR : ¬ refMark <:+: pre ++ flat (fun _ => false) segs) :
    replaceAll (pre ++ flat keep segs) (token j) v =
      pre ++ flat (fun i => keep i && i != j) segs := by
  induction segs generalizing pre with
  | nil =>
    induction pre with
    | nil => simp [flat, replaceAll_nil _ _ (token_ne_nil j)]
    | cons c pre ih =>
      have hnp := token_not_prefix_plain keep [] c pre j hR
      simp only [flat, List.append_nil, List.cons_append] at hnp ih ⊢
      rw [replaceAll_cons_skip _ _ _ _ hnp,
        ih (fun h => hR (by
          simp only [flat, List.append_nil, List.cons_append]
          exact h.trans (List.suffix_cons _ _).isInfix))]
  | cons g segs ihs =>
    have base : ¬ refMark <:+: flat (fun _ => false) (g :: segs) →
        replaceAll (flat keep (g :: segs)) (token j) v =
          flat (fun i => keep i && i != j) (g :: segs) := by
      intro hR0
      cases g with
      | lit c =>
        simp only [flat] at hR0 ⊢
        have := ihs (fun m hm => hv m (by simp [hm])) [c] (by simpa using hR0)
        simpa using this
      | tok i m =>
        simp only [flat, Bool.false_eq_true, if_false] at hR0 ⊢
        have hRr : ¬ refMark <:+: flat (fun _ => false) segs :=
          fun h => hR0 (h.trans (List.suffix_append _ _).isInfix)
        have ih0 := ihs (fun m' hm => hv m' (by simp [hm])) [] (by simpa using hRr)
        simp only [List.nil_append] at ih0
        by_cases hk : keep i = true
        · by_cases hij : i = j
          · subst hij
            have hmv : m = v := hv m (by simp)
            simp only [hk, if_true, bne_self_eq_false, Bool.and_false, Bool.false_eq_true,
              if_false]
            rw [replaceAll_append_self _ _ _ (token_ne_nil i), ih0, hmv]
          · have hne : (i != j) = true := by simpa using hij
            simp only [hk, if_true, hne, Bool.and_self]
            have hx : ¬ refMark <+: flat keep segs := by
              intro h
              have := prefix_flat_of_not_mem keep segs refMark C_not_mem_refMark h
              exact hRr this.isInfix
            rw [replaceAll_token_pass _ _ hij hx, ih0]
        · simp only [hk, Bool.false_and, Bool.false_eq_true, if_false]
          exact ihs (fun m' hm => hv m' (by simp [hm])) m hR0
    induction pre with
    | nil => simpa using base (by simpa using hR)
    | cons c pre ih =>
      have hnp := token_not_prefix_plain keep (g :: segs) c pre j hR
      simp only [List.cons_append] at hnp ⊢
      rw [replaceAll_cons_skip _ _ _ _ hnp,
        ih (fun h => hR (by
          simp only [List.cons_append]
          exact h.trans (List.suffix_cons _ _).isInfix))]

/-- The restoration on the written-out pieces, for any order of the entries, when the
original text does not contain `_REF_`: the pieces whose placeholder is among the entries
are turned into their literal text. -/
theorem restoreVariables_flat_ref (segs : List Seg)
    (hR : ¬ refMark <:+: flat (fun _ => false) segs)
    (entries : List (Str × Str)) (keep : Nat → Bool)
    (hL : ∀ kv ∈ entries, ∃ j, kv.1 = token j ∧ ∀ m, Seg.tok j m ∈ segs → m = kv.2) :
    restoreVariables (flat keep segs) entries =
      flat (fun i => keep i && !(entries.any (fun kv => kv.1 == token i))) segs := by
  induction entries generalizing keep with
  | nil => simp [restoreVariables]
  | cons kv entries ih =>
    obtain ⟨j, hj, hv⟩ := hL kv (by simp)
    have step : restoreVariables (flat keep segs) (kv :: entries) =
        restoreVariables (replaceAll (flat keep segs) kv.1 kv.2) entries := rfl
    have h1 := replaceAll_plain_flat keep segs j kv.2 hv [] (by simpa using hR)
    simp only [List.nil_append] at h1
    rw [step, hj, h1, ih _ (fun e he => hL e (by simp [he]))]
    apply flat_congr
    intro i m _
    simp only [List.any_cons, hj]
    by_cases hij : i = j
    · subst hij; simp
    · have h1 : (i != j) = true := by simpa using hij
      have h2 : (token j == token i) = false := by
        rw [beq_eq_false_iff_ne]
        exact fun e => hij (token_injective e).symm
      simp [h1, h2]

/-- A placeholder that occurs in a plain text followed by the written-out pieces is the
placeholder of a kept piece, when the plain text followed by the original text does not
contain `_REF_`. -/
theorem token_infix_plain_flat (keep : Nat → Bool) (segs : List Seg) (j : Nat) (pre : Str)
    (hR : ¬ refMark <:+: pre ++ flat (fun _ => false) segs)
    (h : token j <:+: pre ++ flat keep segs) : ∃ m, Seg.tok j m ∈ segs := by
  induction segs generalizing pre with
  | nil =>
    induction pre with
    | nil =>
      simp only [flat, List.append_nil, List.infix_nil] at h
      exact absurd h (token_ne_nil j)
    | cons c pre ih =>
      have hnp := token_not_prefix_plain keep [] c pre j hR
      rw [List.cons_append, List.infix_cons_iff] at h
      rcases h with h | h
      · exact absurd h hnp
      · exact ih (fun h' => hR (by
          rw [List.cons_append]; exact h'.trans (List.suffix_cons _ _).isInfix)) h
  | cons g segs ihs =>
    have base : ¬ refMark <:+: flat (fun _ => false) (g :: segs) →
        token j <:+: flat keep (g :: segs) → ∃ m, Seg.tok j m ∈ g :: segs := by
      intro hR0 h0
      cases g with
      | lit c =>
        simp only [flat] at hR0 h0
        obtain ⟨m, hm⟩ := ihs [c] (by simpa using hR0) (by simpa using h0)
        exact ⟨m, by simp [hm]⟩
      | tok i m =>
        simp only [flat, Bool.false_eq_true, if_false] at hR0 h0
        have hRr : ¬ refMark <:+: flat (fun _ => false) segs :=
          fun h => hR0 (h.trans (List.suffix_append _ _).isInfix)
        have fin : token j <:+: flat keep segs → ∃ m', Seg.tok j m' ∈ Seg.tok i m :: segs := by
          intro h'
          obtain ⟨m', hm'⟩ := ihs [] (by simpa using hRr) (by simpa using h')
          exact ⟨m', by simp [hm']⟩
        by_cases hk : keep i = true
        · by_cases hij : i = j
          · exact ⟨m, by simp [hij]⟩
          · simp only [hk, if_true] at h0
            have hx : ¬ refMark <+: flat keep segs := by
              intro h
              have := prefix_flat_of_not_mem keep segs refMark C_not_mem_refMark h
              exact hRr this.isInfix
            exact fin (token_infix_pass _ hij hx h0)
        · simp only [hk, if_false] at h0
          obtain ⟨m', hm'⟩ := ihs m hR0 h0
          exact ⟨m', by simp [hm']⟩
    induction pre with
    | nil => exact base (by simpa using hR) (by simpa using h)
    | cons c pre ih =>
      have hnp := token_not_prefix_plain keep (g :: segs) c pre j hR
      rw [List.cons_append, List.infix_cons_iff] at h
      rcases h with h | h
      · exact absurd h hnp
      · exact ih (fun h' => hR (by
          rw [List.cons_append]; exact h'.trans (List.suffix_cons _ _).isInfix)) h

theorem gaps_ne_nil (segs : List Seg) : gaps segs ≠ [] := by
  cases segs with
  | nil => simp [gaps]
  | cons s segs =>
    cases s with
    | lit c =>
      simp only [gaps]
      split <;> simp
    | tok i m => simp [gaps]

theorem weave_cons_head (i : Nat) (c : Char) (g : Str) (gs : List Str) :
    weave i ((c :: g) :: gs) = c :: weave i (g :: gs) := by
  cases gs with
  | nil => simp [weave]
  | cons g' gs => simp [weave]

/-- The text with every match replaced at its own position is the unmatched parts and the
placeholders written in turn. -/
theorem flat_true_weave (fuel i : Nat) (s : Str) :
    flat (fun _ => true) (segments fuel i s) = weave i (gaps (segments fuel i s)) := by
  induction fuel generalizing i s with
  | zero => simp [segments, flat, gaps, weave]
  | succ f ih =>
    cases s with
    | nil => simp [segments, flat, gaps, weave]
    | cons c cs =>
      unfold segments
      cases hm : matchAt (c :: cs) with
      | none =>
        simp only [flat, gaps]
        rw [ih i cs]
        cases hg : gaps (segments f i cs) with
        | nil => exact absurd hg (gaps_ne_nil _)
        | cons g gs => simp [weave_cons_head]
      | some res =>
        obtain ⟨m, r⟩ := res
        simp only [flat, gaps, if_true]
        rw [ih (i + 1) r]
        cases hg : gaps (segments f (i + 1) r) with
        | nil => exact absurd hg (gaps_ne_nil _)
        | cons g gs => simp [weave]

/-- The first unmatched part begins the original text. -/
theorem gaps_head_prefix (segs : List Seg) (g : Str) (gs : List Str)
    (h : gaps segs = g :: gs) : g <+: flat (fun _ => false) segs := by
  induction segs generalizing g gs with
  | nil =>
    simp only [gaps, List.cons.injEq] at h
    rw [← h.1]
    exact List.nil_prefix
  | cons s segs ih =>
    cases s with
    | lit c =>
      simp only [gaps] at h
      simp only [flat]
      cases hgs : gaps segs with
      | nil => exact absurd hgs (gaps_ne_nil _)
      | cons g0 gs0 =>
        rw [hgs] at h
        simp only [List.cons.injEq] at h
        rw [← h.1, List.cons_prefix_cons]
        exact ⟨rfl, ih g0 gs0 hgs⟩
    | tok i m =>
      simp only [gaps, List.cons.injEq] at h
      rw [← h.1]
      exact List.nil_prefix

/-- Every unmatched part is a piece of the original text. -/
theorem gaps_infix (segs : List Seg) : ∀ g ∈ gaps segs, g <:+: flat (fun _ => false) segs := by
  induction segs with
  | nil => simp [gaps, flat]
  | cons s segs ih =>
    cases s with
    | lit c =>
      intro g hg
      simp only [gaps] at hg
      simp only [flat]
      cases hgs : gaps segs with
      | nil => exact absurd hgs (gaps_ne_nil _)
      | cons g0 gs =>
        rw [hgs] at hg
        simp only [List.mem_cons] at hg
        rcases hg with rfl | hg
        · have := gaps_head_prefix segs g0 gs hgs
          exact ((List.cons_prefix_cons (a := c) (b := c)).mpr ⟨rfl, this⟩).isInfix
        · exact (ih g (by rw [hgs]; simp [hg])).trans (List.suffix_cons _ _).isInfix
    | tok i m =>
      intro g hg
      simp only [gaps, List.mem_cons] at hg
      simp only [flat, Bool.false_eq_true, if_false]
      rcases hg with rfl | hg
      · exact List.nil_infix
      · exact (ih g hg).trans (List.suffix_append _ _).isInfix

/-- The protected text of a text none of whose matches contains `C`, as written-out pieces. -/
theorem protectVariables_flat (text : Str) (hC : ∀ m ∈ findAllString text, 'C' ∉ m) :
    (protectVariables text).1 = flat (fun _ => true) (segments text.length 0 text) := by
  unfold protectVariables
  have := protectLoop_positional text.length 0 text [] [] (le_refl _) hC (noEarlier_nil _)
  rw [positionalFrom_flat] at this
  simpa [findAllString] using this

/-- The round trip for any order of the entries, for a text that does not contain `_REF_`
and none of whose matches contains `C`. -/
theorem restore_protect_round_trip (text : Str) (hC : ∀ m ∈ findAllString text, 'C' ∉ m)
    (hR : ¬ refMark <:+: text) (order : List (Str × Str))
    (hperm : order.Perm (protectVariables text).2) :
    restoreVariables (protectVariables text).1 order = text := by
  have hflat := flat_false_segments text.length 0 text (le_refl _)
  have hmem : ∀ kv, kv ∈ order ↔
      ∃ j m, kv = (token j, m) ∧ Seg.tok j m ∈ segments text.length 0 text := by
    intro kv
    rw [hperm.mem_iff, protectVariables_snd]
    exact mem_tokEntries_segments _ _ _ _
  rw [protectVariables_flat text hC,
    restoreVariables_flat_ref _ (by rw [hflat]; exact hR) order]
  · conv_rhs => rw [← hflat]
    apply flat_congr
    intro i m hm
    have : (token i, m) ∈ order := (hmem _).mpr ⟨i, m, rfl, hm⟩
    have h2 : order.any (fun kv => kv.1 == token i) = true := by
      rw [List.any_eq_true]
      exact ⟨_, this, by simp⟩
    simp [h2]
  · intro kv hkv
    obtain ⟨j, m, rfl, hm⟩ := (hmem kv).mp hkv
    exact ⟨j, rfl, fun m' hm' => segments_unique hm' hm⟩

theorem refMark_infix_token (j : Nat) : refMark <:+: token j := by
  rw [token_tail_eq]
  exact ⟨'C' :: ['H', 'I', 'L', 'I'], itoa j ++ ['_', 'C', 'H', 'I', 'L', 'I'], by simp⟩

theorem gaps_length (fuel i : Nat) (s : Str) :
    (gaps (segments fuel i s)).length = (findAllFrom fuel s).length + 1 := by
  induction fuel generalizing i s with
  | zero => simp [segments, gaps, findAllFrom]
  | succ f ih =>
    cases s with
    | nil => simp [segments, gaps, findAllFrom]
    | cons c cs =>
      unfold segments findAllFrom
      cases hm : matchAt (c :: cs) with
      | none =>
        simp only [gaps]
        cases hg : gaps (segments f i cs) with
        | nil => exact absurd hg (gaps_ne_nil _)
        | cons g gs =>
          have := ih i cs
          rw [hg] at this
          simpa using this
      | some res =>
        obtain ⟨m, r⟩ := res
        simp [gaps, ih (i + 1) r]

/-! ## Claims on the protection of substrings (v2.1.19) -/

/-- C1, counterexample: for the text `CHILI_REF_0_CHILI $A` the only match is `$A`, the
placeholder map has the single entry `CHILI_REF_0_CHILI ↦ $A`, the protected text is
`CHILI_REF_0_CHILI CHILI_REF_0_CHILI`, and the restoration gives `$A $A`, not the original
text. -/
theorem restore_protect_collision :
    (protectVariables "CHILI_REF_0_CHILI $A".toList).2 = [(token 0, "$A".toList)] ∧
    restoreVariables (protectVariables "CHILI_REF_0_CHILI $A".toList).1
      (protectVariables "CHILI_REF_0_CHILI $A".toList).2 = "$A $A".toList ∧
    restoreVariables (protectVariables "CHILI_REF_0_CHILI $A".toList).1
      (protectVariables "CHILI_REF_0_CHILI $A".toList).2 ≠ "CHILI_REF_0_CHILI $A".toList := by
  decide

/-- C1, amended: for every text that does not contain the fragment `_REF_` and none of whose
matches contains the letter `C`, and for every order in which the placeholder map is
visited, restoring the protected text with the placeholder map that `protectVariables`
returned gives back the original text exactly. -/
theorem restoreVariables_protectVariables (text : Str)
    (hC : ∀ m ∈ findAllString text, 'C' ∉ m)
    (hR : ¬ "_REF_".toList <:+: text) (order : List (Str × Str))
    (hperm : order.Perm (protectVariables text).2) :
    restoreVariables (protectVariables text).1 order = text :=
  restore_protect_round_trip text hC hR order hperm

/-- C1, witness: the text of the self-test, `User $USER em https://chili.com com %d`, and the
text `Click $HOME or https://chili.com`, which has the letter `C` outside its matches, with
its map visited in the reverse order. -/
theorem restoreVariables_protectVariables_selfTest :
    (∀ m ∈ findAllString "User $USER em https://chili.com com %d".toList, 'C' ∉ m) ∧
    ¬ "_REF_".toList <:+: "User $USER em https://chili.com com %d".toList ∧
    restoreVariables (protectVariables "User $USER em https://chili.com com %d".toList).1
      (protectVariables "User $USER em https://chili.com com %d".toList).2 =
      "User $USER em https://chili.com com %d".toList ∧
    restoreVariables (protectVariables "Click $HOME or https://chili.com".toList).1
      (protectVariables "Click $HOME or https://chili.com".toList).2.reverse =
      "Click $HOME or https://chili.com".toList :=
  ⟨by decide, by decide,
    restoreVariables_protectVariables "User $USER em https://chili.com com %d".toList
      (by decide) (by decide) _ (List.Perm.refl _),
    restoreVariables_protectVariables "Click $HOME or https://chili.com".toList
      (by decide) (by decide) _ (List.reverse_perm _)⟩

/-- Remark on the amended C1, the letter `C`: the text `$[a](b) $C` contains no `CHILI`, yet
its second match `$C` is first found in front of the placeholder of the first match, and
restoring in the order in which the entries were inserted does not give the text back. -/
theorem roundtrip_needs_no_C :
    ¬ "CHILI".toList <:+: "$[a](b) $C".toList ∧
    (protectVariables "$[a](b) $C".toList).1 =
      "CHILI_REF_1_CHILIHILI_REF_0_CHILI $C".toList ∧
    restoreVariables (protectVariables "$[a](b) $C".toList).1
      (protectVariables "$[a](b) $C".toList).2 = "$CHILI_REF_0_CHILI $C".toList := by
  decide

/-- Remark on the amended C1, the fragment `_REF_`: the text `%d_REF_1_%s` contains no `C`;
its protected text is `CHILI_REF_0_CHILI_REF_1_CHILI_REF_1_CHILI`, in which the placeholder
of index 1 also occurs astride the end of the placeholder of index 0, and restoring the
entries in the reverse order of insertion does not give the text back. -/
theorem roundtrip_needs_no_REF :
    'C' ∉ "%d_REF_1_%s".toList ∧
    (protectVariables "%d_REF_1_%s".toList).1 =
      "CHILI_REF_0_CHILI_REF_1_CHILI_REF_1_CHILI".toList ∧
    restoreVariables (protectVariables "%d_REF_1_%s".toList).1
      (protectVariables "%d_REF_1_%s".toList).2.reverse =
      "CHILI_REF_0_%s_REF_1_CHILI".toList := by
  decide

/-- C2, counterexample: in the text `CHILI_REF_0_CHILI $A` the only match is `$A`, and the
placeholder `CHILI_REF_0_CHILI` of that match occurs in the part of the original text that
is not matched. -/
theorem protect_token_in_unmatched :
    findAllString "CHILI_REF_0_CHILI $A".toList = ["$A".toList] ∧
    unmatchedParts "CHILI_REF_0_CHILI $A".toList = ["CHILI_REF_0_CHILI ".toList, []] ∧
    token 0 <:+: "CHILI_REF_0_CHILI ".toList := by
  decide

/-- C2, amended: for every text that does not contain the fragment `_REF_` and none of whose
matches contains the letter `C`, with `k` matches of the protected-pattern expression, the
protected text is the `k + 1` unmatched parts of the text with the placeholders
`CHILI_REF_0_CHILI` ... `CHILI_REF_(k-1)_CHILI` between them, in this order; the placeholders
that occur in it are exactly these `k`; they are pairwise distinct; and no placeholder occurs
in a part of the original text that was not matched. -/
theorem protectVariables_tokens (text : Str) (hC : ∀ m ∈ findAllString text, 'C' ∉ m)
    (hR : ¬ "_REF_".toList <:+: text) :
    (protectVariables text).1 = weave 0 (unmatchedParts text) ∧
    (unmatchedParts text).length = (findAllString text).length + 1 ∧
    (∀ j, token j <:+: (protectVariables text).1 ↔ j < (findAllString text).length) ∧
    (∀ i j, token i = token j → i = j) ∧
    (∀ j, ∀ g ∈ unmatchedParts text, ¬ token j <:+: g) := by
  have hR : ¬ refMark <:+: text := hR
  have hflat := flat_false_segments text.length 0 text (le_refl _)
  refine ⟨?_, gaps_length _ _ _, fun j => ?_, fun i j => token_injective,
    fun j g hg hin => ?_⟩
  · rw [protectVariables_flat text hC, flat_true_weave]
    rfl
  · rw [protectVariables_flat text hC]
    constructor
    · intro h
      obtain ⟨m, hm⟩ := token_infix_plain_flat (fun _ => true)
        (segments text.length 0 text) j [] (by rw [List.nil_append, hflat]; exact hR)
        (by simpa using h)
      have := (segments_index_range text.length 0 j text).mp ⟨m, hm⟩
      unfold findAllString
      omega
    · intro h
      obtain ⟨m, hm⟩ := (segments_index_range text.length 0 j text).mpr
        ⟨Nat.zero_le _, by unfold findAllString at h; omega⟩
      exact token_infix_flat_of_mem _ j m hm
  · have h1 := gaps_infix _ g hg
    rw [hflat] at h1
    exact hR ((refMark_infix_token j).trans (hin.trans h1))

/-- C2, witness: the text `Click $HOME or https://chili.com`, which has two matches and the
letter `C` outside them. -/
theorem protectVariables_tokens_selfTest :
    (∀ m ∈ findAllString "Click $HOME or https://chili.com".toList, 'C' ∉ m) ∧
    ¬ "_REF_".toList <:+: "Click $HOME or https://chili.com".toList ∧
    unmatchedParts "Click $HOME or https://chili.com".toList =
      ["Click ".toList, " or ".toList, []] ∧
    (protectVariables "Click $HOME or https://chili.com".toList).1 =
      "Click CHILI_REF_0_CHILI or CHILI_REF_1_CHILI".toList ∧
    (∀ j, token j <:+: (protectVariables "Click $HOME or https://chili.com".toList).1 ↔
      j < 2) :=
  ⟨by decide, by decide, by decide,
    (protectVariables_tokens "Click $HOME or https://chili.com".toList
      (by decide) (by decide)).1.trans (by decide),
    (protectVariables_tokens "Click $HOME or https://chili.com".toList
      (by decide) (by decide)).2.2.1⟩

/-- C3: for every text whose matches are `m_0 ... m_(k-1)` in left-to-right order, the
placeholder map returned by `protectVariables` has exactly the `k` keys
`CHILI_REF_0_CHILI ... CHILI_REF_(k-1)_CHILI` with the values `m_0 ... m_(k-1)`, so it maps
`CHILI_REF_i_CHILI` to `m_i` for every `i < k` (and has no entry for `i ≥ k`); the
placeholders of different indices differ, also when the matches have the same literal
text. -/
theorem protectVariables_placeholders (text : Str) :
    (protectVariables text).2.length = (findAllString text).length ∧
    (protectVariables text).2.map Prod.fst =
      (List.range (findAllString text).length).map token ∧
    (protectVariables text).2.map Prod.snd = findAllString text ∧
    (∀ i, mapGet (protectVariables text).2 (token i) = (findAllString text)[i]?) ∧
    (∀ i j, i ≠ j → token i ≠ token j) := by
  rw [protectVariables_snd]
  refine ⟨?_, ?_, tokEntries_snd _ _, fun i => ?_, fun i j hij e => hij (token_injective e)⟩
  · have := congrArg List.length (tokEntries_snd 0 (findAllString text))
    simpa using this
  · rw [tokEntries_fst, List.range_eq_range']
  · have := mapGet_tokEntries 0 i (findAllString text)
    simpa using this

/-- C4: for every text in which the protected-pattern expression has no match,
`protectVariables` returns the text unchanged together with an empty placeholder map, and
`restoreVariables` with an empty map returns its input unchanged. -/
theorem protectVariables_no_match (text : Str) (h : findAllString text = []) :
    protectVariables text = (text, []) ∧ ∀ s, restoreVariables s [] = s := by
  refine ⟨?_, fun s => rfl⟩
  unfold protectVariables
  rw [h]
  rfl

/-- C4, witness: the text `Hello, world` has no match. -/
theorem protectVariables_no_match_hello :
    findAllString "Hello, world".toList = [] ∧
    protectVariables "Hello, world".toList = ("Hello, world".toList, []) ∧
      ∀ s, restoreVariables s [] = s :=
  ⟨by decide, protectVariables_no_match "Hello, world".toList (by decide)⟩

/-- C5, counterexample: the text `$CHILI_REF_0_CHILI` is one match; its placeholder map is
`CHILI_REF_0_CHILI ↦ $CHILI_REF_0_CHILI`.  When the translator hands the protected text
`CHILI_REF_0_CHILI` back, the restoration gives `$CHILI_REF_0_CHILI`, in which the
placeholder `CHILI_REF_0_CHILI` of the map still occurs. -/
theorem restore_leaves_token :
    protectVariables "$CHILI_REF_0_CHILI".toList =
      (token 0, [(token 0, "$CHILI_REF_0_CHILI".toList)]) ∧
    restoreVariables (token 0) (protectVariables "$CHILI_REF_0_CHILI".toList).2 =
      "$CHILI_REF_0_CHILI".toList ∧
    token 0 <:+: restoreVariables (token 0) (protectVariables "$CHILI_REF_0_CHILI".toList).2 := by
  decide

/-- C5, amended: let `m` be the placeholder map that `protectVariables` returned for a text,
and let the translator output consist of pieces `segs`, each a rune or a placeholder of `m`
(a piece `tok i v` stands for the placeholder `CHILI_REF_i_CHILI`, `v` being its value in
`m`), in any order and any number of times, so that the output is `flat (fun _ => true) segs`
and the text expected from the restoration, every placeholder replaced by its original
substring, is `flat (fun _ => false) segs`.  If the expected text does not contain the
fragment `_REF_`, then for every order in which the map is visited `restoreVariables`
returns exactly the expected text, and no placeholder remains in it. -/
theorem restoreVariables_translated (text : Str) (segs : List Seg)
    (hsegs : ∀ i v, Seg.tok i v ∈ segs → mapGet (protectVariables text).2 (token i) = some v)
    (hR : ¬ "_REF_".toList <:+: flat (fun _ => false) segs)
    (order : List (Str × Str)) (hperm : order.Perm (protectVariables text).2) :
    restoreVariables (flat (fun _ => true) segs) order = flat (fun _ => false) segs ∧
    ∀ j, ¬ token j <:+: restoreVariables (flat (fun _ => true) segs) order := by
  have hR : ¬ refMark <:+: flat (fun _ => false) segs := hR
  have main : restoreVariables (flat (fun _ => true) segs) order =
      flat (fun _ => false) segs := by
    rw [restoreVariables_flat_ref segs hR order]
    · apply flat_congr
      intro i v hv
      have h1 : (token i, v) ∈ order :=
        hperm.mem_iff.mpr (mapGet_mem _ _ _ (hsegs i v hv))
      have h2 : order.any (fun kv => kv.1 == token i) = true := by
        rw [List.any_eq_true]
        exact ⟨_, h1, by simp⟩
      simp [h2]
    · intro kv hkv
      have h1 : kv ∈ tokEntries 0 (findAllString text) := by
        rw [← protectVariables_snd]; exact hperm.mem_iff.mp hkv
      obtain ⟨j, hj, hget⟩ := mem_tokEntries_mapGet h1
      refine ⟨j, hj, fun v hv => ?_⟩
      have h2 := hsegs j v hv
      rw [protectVariables_snd, hget] at h2
      exact (Option.some.inj h2).symm
  refine ⟨main, fun j hin => ?_⟩
  rw [main] at hin
  exact hR ((refMark_infix_token j).trans hin)

/-- C5, witness: the placeholder map of the self-test text and the translator output
`Cancelar CHILI_REF_2_CHILI x CHILI_REF_0_CHILI, CHILI_REF_0_CHILI`, which has a capital `C`,
reorders the placeholders, repeats one and drops one; the restoration gives
`Cancelar %d x $USER, $USER`. -/
theorem restoreVariables_translated_selfTest :
    flat (fun _ => true) ("Cancelar ".toList.map Seg.lit ++
      [Seg.tok 2 "%d".toList, Seg.lit ' ', Seg.lit 'x', Seg.lit ' ',
        Seg.tok 0 "$USER".toList, Seg.lit ',', Seg.lit ' ', Seg.tok 0 "$USER".toList]) =
      "Cancelar CHILI_REF_2_CHILI x CHILI_REF_0_CHILI, CHILI_REF_0_CHILI".toList ∧
    (restoreVariables
        "Cancelar CHILI_REF_2_CHILI x CHILI_REF_0_CHILI, CHILI_REF_0_CHILI".toList
        (protectVariables "User $USER em https://chili.com com %d".toList).2 =
      "Cancelar %d x $USER, $USER".toList ∧
    ∀ j, ¬ token j <:+:
      restoreVariables
        "Cancelar CHILI_REF_2_CHILI x CHILI_REF_0_CHILI, CHILI_REF_0_CHILI".toList
        (protectVariables "User $USER em https://chili.com com %d".toList).2) :=
  ⟨by decide,
    restoreVariables_translated "User $USER em https://chili.com com %d".toList
      ("Cancelar ".toList.map Seg.lit ++
        [Seg.tok 2 "%d".toList, Seg.lit ' ', Seg.lit 'x', Seg.lit ' ',
          Seg.tok 0 "$USER".toList, Seg.lit ',', Seg.lit ' ', Seg.tok 0 "$USER".toList])
      (by
        intro i v h
        simp only [List.mem_append, List.mem_map, List.mem_cons, Seg.tok.injEq,
          List.mem_singleton, reduceCtorEq, false_or, List.not_mem_nil, or_false,
          and_false, exists_false] at h
        rcases h with ⟨rfl, rfl⟩ | ⟨rfl, rfl⟩ | ⟨rfl, rfl⟩ <;> decide)
      (by decide) _ (List.Perm.refl _)⟩

/-! ## Lemmas on maps and on the cache -/

theorem mapGet_mapSet_same {α : Type} (m : GoMap α) (k : Str) (v : α) :
    mapGet (mapSet m k v) k = some v := by
  induction m with
  | nil => simp [mapSet, mapGet]
  | cons e m ih =>
    obtain ⟨k', v'⟩ := e
    by_cases h : k' = k
    · simp [mapSet, mapGet, h]
    · simp [mapSet, mapGet, h, ih]

theorem mapGet_mapSet_other {α : Type} (m : GoMap α) (k k' : Str) (v : α) (h : k' ≠ k) :
    mapGet (mapSet m k v) k' = mapGet m k' := by
  induction m with
  | nil => simp [mapSet, mapGet, Ne.symm h]
  | cons e m ih =>
    obtain ⟨k0, v0⟩ := e
    by_cases h0 : k0 = k
    · subst h0
      simp [mapSet, mapGet, Ne.symm h]
    · simp only [mapSet, h0, if_false, mapGet]
      rw [ih]

theorem cacheLookup_ensureLang (c : Option Cache) (lang l k : Str) :
    cacheLookup (some (ensureLang c lang)) l k = cacheLookup c l k := by
  unfold ensureLang
  cases c with
  | none =>
    simp only [mapGet, cacheLookup, mapSet]
    split <;> simp_all [mapGet]
  | some c =>
    simp only
    cases h : mapGet c lang with
    | some m => rfl
    | none =>
      simp only [cacheLookup]
      by_cases hl : l = lang
      · subst hl
        rw [mapGet_mapSet_same, h]
        rfl
      · rw [mapGet_mapSet_other _ _ _ _ hl]

theorem mapGet_langEntries (c : Cache) (lang k : Str) :
    mapGet (langEntries c lang) k = cacheLookup (some c) lang k := by
  unfold langEntries cacheLookup
  cases h : mapGet c lang with
  | none => simp [mapGet, h]
  | some o => cases o <;> simp [mapGet, h]

theorem cacheLookup_withEntry_same (c : Cache) (lang key : Str) (e : CacheEntry) :
    cacheLookup (some (withEntry c lang key e)) lang key = some e := by
  simp [cacheLookup, withEntry, mapGet_mapSet_same]

theorem cacheLookup_withEntry_other (c : Cache) (lang key l k : Str) (e : CacheEntry)
    (h : l ≠ lang ∨ k ≠ key) :
    cacheLookup (some (withEntry c lang key e)) l k = cacheLookup (some c) l k := by
  by_cases hl : l = lang
  · subst hl
    have hk : k ≠ key := by
      rcases h with h | h
      · exact absurd rfl h
      · exact h
    simp only [cacheLookup, withEntry, mapGet_mapSet_same, mapGet_mapSet_other _ _ _ _ hk]
    rw [mapGet_langEntries]
    rfl
  · simp only [cacheLookup, withEntry, mapGet_mapSet_other _ _ _ _ hl]

/-- The assignment into the inner map under `lang`, after the two statements that make the
missing maps: it panics when the cache holds the nil map under `lang`, and stores the entry
otherwise. -/
theorem cacheStore_ensureLang (c : Option Cache) (lang key : Str) (e : CacheEntry) :
    cacheStore (ensureLang c lang) lang key e =
      if nilUnder c lang = true then none
      else some (withEntry (ensureLang c lang) lang key e) := by
  unfold cacheStore withEntry langEntries ensureLang nilUnder
  cases c with
  | none => simp [mapGet, mapSet]
  | some c =>
    simp only
    cases h : mapGet c lang with
    | none => simp [mapGet_mapSet_same]
    | some o => cases o <;> simp [h]

/-- A key that the cache holds lies in an inner map that is not nil. -/
theorem nilUnder_of_lookup (c : Option Cache) (lang key : Str) (e : CacheEntry)
    (h : cacheLookup c lang key = some e) : nilUnder c lang = false := by
  unfold cacheLookup at h
  unfold nilUnder
  cases c with
  | none => rfl
  | some c =>
    simp only at h ⊢
    cases h2 : mapGet c lang with
    | none => rfl
    | some o =>
      cases o with
      | none => rw [h2] at h; simp at h
      | some l => rfl

/-- The two statements that make the missing maps leave a nil inner map as it is. -/
theorem nilUnder_ensureLang (c : Option Cache) (lang l : Str) :
    nilUnder (some (ensureLang c lang)) l = nilUnder c l := by
  unfold ensureLang nilUnder
  cases c with
  | none =>
    by_cases hl : l = lang
    · subst hl; simp [mapGet, mapSet]
    · simp [mapGet, mapSet, Ne.symm hl]
  | some c =>
    simp only
    cases h : mapGet c lang with
    | some m => rfl
    | none =>
      by_cases hl : l = lang
      · subst hl; simp [mapGet_mapSet_same, h]
      · simp [mapGet_mapSet_other _ _ _ _ hl]

/-- A store under `lang` leaves no nil map under `lang` and changes no other inner map. -/
theorem nilUnder_withEntry (c : Cache) (lang key l : Str) (e : CacheEntry) :
    nilUnder (some (withEntry c lang key e)) l =
      if l = lang then false else nilUnder (some c) l := by
  unfold withEntry nilUnder
  by_cases hl : l = lang
  · subst hl; simp [mapGet_mapSet_same]
  · simp [mapGet_mapSet_other _ _ _ _ hl, hl]

theorem toLower_ne_nil (u : Char → Char) (s : Str) (h : s ≠ []) : toLower u s ≠ [] := by
  cases s with
  | nil => exact absurd rfl h
  | cons c s => simp [toLower]

theorem mapGet_langEntries_ensureLang (c : Option Cache) (lang k : Str) :
    mapGet (langEntries (ensureLang c lang) lang) k = cacheLookup c lang k := by
  rw [mapGet_langEntries, cacheLookup_ensureLang]

/-- A call on a blank text. -/
theorem call_blank (u : Char → Char) (cfg : Config) (env : Env) (st : State) (text lang : Str)
    (ht : trimSpace text = []) :
    callUniversalTranslator u cfg env st text lang = ⟨[], st, []⟩ := by
  simp [callUniversalTranslator, ht]

/-- A call that finds its key in the cache, the cache not being bypassed. -/
theorem call_hit (u : Char → Char) (cfg : Config) (env : Env) (st : State) (text lang : Str)
    (e : CacheEntry) (ht : trimSpace text ≠ []) (hf : cfg.forceFlag = false)
    (he : cacheLookup st.cacheData lang (toLower u (trimSpace text)) = some e) :
    callUniversalTranslator u cfg env st text lang =
      ⟨e.Value,
        { st with cacheData := some (withEntry (ensureLang st.cacheData lang) lang
                    (toLower u (trimSpace text)) { e with LastUsed := env.now }),
                  cacheHits := st.cacheHits + 1 },
        [Event.lock, Event.unlock]⟩ := by
  have hn := nilUnder_of_lookup _ _ _ _ he
  rw [← mapGet_langEntries_ensureLang] at he
  simp [callUniversalTranslator, ht, hf, he, cacheStore_ensureLang, hn]

/-- A call that does not take the cache-hit path, offline. -/
theorem call_offline (u : Char → Char) (cfg : Config) (env : Env) (st : State)
    (text lang : Str) (ht : trimSpace text ≠ [])
    (hm : cfg.forceFlag = true ∨
      cacheLookup st.cacheData lang (toLower u (trimSpace text)) = none)
    (ho : cfg.isOnline = false) :
    callUniversalTranslator u cfg env st text lang =
      ⟨trimSpace text, { st with cacheData := some (ensureLang st.cacheData lang) },
        [Event.lock, Event.unlock]⟩ := by
  rw [← mapGet_langEntries_ensureLang] at hm
  unfold callUniversalTranslator
  simp only [ht, if_false]
  split
  · rename_i entry h1 h2
    rcases hm with hm | hm
    · rw [hm] at h2; exact absurd h2 (by simp)
    · rw [hm] at h1; exact absurd h1 (by simp)
  · simp [ho]

/-- A call that does not take the cache-hit path, online: the retry loop decides, and after
a successful attempt the store panics when the cache holds the nil map under `lang`. -/
theorem call_online (u : Char → Char) (cfg : Config) (env : Env) (st : State)
    (text lang : Str) (ht : trimSpace text ≠ [])
    (hm : cfg.forceFlag = true ∨
      cacheLookup st.cacheData lang (toLower u (trimSpace text)) = none)
    (ho : cfg.isOnline = true) :
    callUniversalTranslator u cfg env st text lang =
      match retryLoop env.run
        (Event.exec cfg.engine cfg.sourceLang (replaceAll lang ['_'] ['-'])
          (protectVariables (trimSpace text)).1)
        (fun out => restoreVariables out (env.order (protectVariables (trimSpace text)).2))
        3 0 with
      | (none, tr) =>
        ⟨trimSpace text,
          { st with cacheData := some (ensureLang st.cacheData lang),
                    failedCalls := st.failedCalls + 1 },
          [Event.lock, Event.unlock] ++ tr⟩
      | (some res, tr) =>
        if nilUnder st.cacheData lang = true then
          ⟨[],
            { st with cacheData := some (ensureLang st.cacheData lang),
                      netCalls := st.netCalls + 1 },
            [Event.lock, Event.unlock] ++ tr ++ [Event.lock, Event.panic]⟩
        else
          ⟨res,
            { st with cacheData := some (withEntry (ensureLang st.cacheData lang) lang
                        (toLower u (trimSpace text)) ⟨res, env.now⟩),
                      netCalls := st.netCalls + 1 },
            [Event.lock, Event.unlock] ++ tr ++ [Event.lock, Event.unlock]⟩ := by
  rw [← mapGet_langEntries_ensureLang] at hm
  unfold callUniversalTranslator
  simp only [ht, if_false]
  split
  · rename_i entry h1 h2
    rcases hm with hm | hm
    · rw [hm] at h2; exact absurd h2 (by simp)
    · rw [hm] at h1; exact absurd h1 (by simp)
  · simp only [ho, Bool.not_true, Bool.false_eq_true, if_false, cacheStore_ensureLang]
    generalize retryLoop env.run _ _ 3 0 = rl
    rcases rl with ⟨_ | res, tr⟩
    · rfl
    · by_cases hn : nilUnder st.cacheData lang = true <;> simp [hn]

/-- The retry loop runs the translator at least once when it has an attempt left. -/
theorem retryLoop_hasExec (run : Nat → Option Str) (restore : Str → Str)
    (a b c d : Str) (n i : Nat) :
    hasExec (retryLoop run (Event.exec a b c d) restore (n + 1) i).2 = true := by
  unfold retryLoop
  cases run i <;> simp [hasExec]

/-- The retry loop does not panic. -/
theorem retryLoop_no_panic (run : Nat → Option Str) (restore : Str → Str)
    (a b c d : Str) (n i : Nat) :
    Event.panic ∉ (retryLoop run (Event.exec a b c d) restore n i).2 := by
  induction n generalizing i with
  | zero => simp [retryLoop]
  | succ n ih =>
    unfold retryLoop
    cases run i with
    | some out => simp
    | none =>
      simp only [List.mem_cons, not_or]
      exact ⟨by simp, by simp, ih (i + 1)⟩

/-- The six ways a call of `callUniversalTranslator` can go, with what each does to the
returned string, the counters, the cache and the trace. -/
theorem call_cases (u : Char → Char) (cfg : Config) (env : Env) (st : State)
    (text lang : Str) :
    let r := callUniversalTranslator u cfg env st text lang
    let key := toLower u (trimSpace text)
    -- blank text
    (trimSpace text = [] ∧ r.ret = [] ∧ r.st = st ∧ r.trace = []) ∨
    -- cache hit
    (trimSpace text ≠ [] ∧ cfg.forceFlag = false ∧
      ∃ e, cacheLookup st.cacheData lang key = some e ∧ r.ret = e.Value ∧
        r.st.cacheHits = st.cacheHits + 1 ∧ r.st.netCalls = st.netCalls ∧
        r.st.failedCalls = st.failedCalls ∧ r.trace = [Event.lock, Event.unlock] ∧
        cacheLookup r.st.cacheData lang key = some { e with LastUsed := env.now } ∧
        ∀ l k, l ≠ lang ∨ k ≠ key →
          cacheLookup r.st.cacheData l k = cacheLookup st.cacheData l k) ∨
    -- no hit, offline
    (trimSpace text ≠ [] ∧
      (cfg.forceFlag = true ∨ cacheLookup st.cacheData lang key = none) ∧
      cfg.isOnline = false ∧ r.ret = trimSpace text ∧
      r.st.cacheHits = st.cacheHits ∧ r.st.netCalls = st.netCalls ∧
      r.st.failedCalls = st.failedCalls ∧ r.trace = [Event.lock, Event.unlock] ∧
      ∀ l k, cacheLookup r.st.cacheData l k = cacheLookup st.cacheData l k) ∨
    -- no hit, online, every attempt fails
    (trimSpace text ≠ [] ∧
      (cfg.forceFlag = true ∨ cacheLookup st.cacheData lang key = none) ∧
      cfg.isOnline = true ∧ r.ret = trimSpace text ∧
      r.st.cacheHits = st.cacheHits ∧ r.st.netCalls = st.netCalls ∧
      r.st.failedCalls = st.failedCalls + 1 ∧ hasExec r.trace = true ∧
      ∀ l k, cacheLookup r.st.cacheData l k = cacheLookup st.cacheData l k) ∨
    -- no hit, online, an attempt succeeds, the result is stored
    (trimSpace text ≠ [] ∧
      (cfg.forceFlag = true ∨ cacheLookup st.cacheData lang key = none) ∧
      cfg.isOnline = true ∧ nilUnder st.cacheData lang = false ∧
      r.st.cacheHits = st.cacheHits ∧ r.st.netCalls = st.netCalls + 1 ∧
      r.st.failedCalls = st.failedCalls ∧ hasExec r.trace = true ∧
      cacheLookup r.st.cacheData lang key = some ⟨r.ret, env.now⟩ ∧
      ∀ l k, l ≠ lang ∨ k ≠ key →
        cacheLookup r.st.cacheData l k = cacheLookup st.cacheData l k) ∨
    -- no hit, online, an attempt succeeds, the store panics
    (trimSpace text ≠ [] ∧
      (cfg.forceFlag = true ∨ cacheLookup st.cacheData lang key = none) ∧
      cfg.isOnline = true ∧ nilUnder st.cacheData lang = true ∧ r.ret = [] ∧
      r.st.cacheHits = st.cacheHits ∧ r.st.netCalls = st.netCalls + 1 ∧
      r.st.failedCalls = st.failedCalls ∧ hasExec r.trace = true ∧
      r.trace.getLast? = some Event.panic ∧
      ∀ l k, cacheLookup r.st.cacheData l k = cacheLookup st.cacheData l k) := by
  intro r key
  by_cases ht : trimSpace text = []
  · left
    have := call_blank u cfg env st text lang ht
    rw [show r = _ from this]
    exact ⟨ht, rfl, rfl, rfl⟩
  · right
    by_cases hm : cfg.forceFlag = true ∨ cacheLookup st.cacheData lang key = none
    · right
      cases ho : cfg.isOnline with
      | false =>
        left
        have := call_offline u cfg env st text lang ht hm ho
        rw [show r = _ from this]
        exact ⟨ht, hm, rfl, rfl, rfl, rfl, rfl, rfl, fun l k => cacheLookup_ensureLang _ _ _ _⟩
      | true =>
        right
        have hcall := call_online u cfg env st text lang ht hm ho
        have hex := retryLoop_hasExec env.run
          (fun out => restoreVariables out (env.order (protectVariables (trimSpace text)).2))
          cfg.engine cfg.sourceLang (replaceAll lang ['_'] ['-'])
          (protectVariables (trimSpace text)).1 2 0
        revert hcall hex
        generalize retryLoop env.run _ _ 3 0 = rl
        rcases rl with ⟨_ | res, tr⟩
        · intro hcall hex
          left
          rw [show r = _ from hcall]
          refine ⟨ht, hm, rfl, rfl, rfl, rfl, rfl, ?_,
            fun l k => cacheLookup_ensureLang _ _ _ _⟩
          simp only [hasExec, List.any_append, List.any_cons] at hex ⊢
          simpa using hex
        · intro hcall hex
          right
          by_cases hn : nilUnder st.cacheData lang = true
          · right
            simp only [hn, if_true] at hcall
            rw [show r = _ from hcall]
            refine ⟨ht, hm, rfl, hn, rfl, rfl, rfl, rfl, ?_, ?_,
              fun l k => cacheLookup_ensureLang _ _ _ _⟩
            · simp only [hasExec, List.any_append, List.any_cons] at hex ⊢
              simp [hex]
            · rw [List.getLast?_append]; rfl
          · left
            have hn' : nilUnder st.cacheData lang = false := by simpa using hn
            simp only [hn', Bool.false_eq_true, if_false] at hcall
            rw [show r = _ from hcall]
            refine ⟨ht, hm, rfl, hn', rfl, rfl, rfl, ?_,
              cacheLookup_withEntry_same _ _ _ _, fun l k hlk => ?_⟩
            · simp only [hasExec, List.any_append, List.any_cons] at hex ⊢
              simp [hex]
            · rw [cacheLookup_withEntry_other _ _ _ _ _ _ hlk, cacheLookup_ensureLang]
    · left
      have hf : cfg.forceFlag = false := by
        cases h : cfg.forceFlag with
        | false => rfl
        | true => exact absurd (Or.inl h) hm
      obtain ⟨e, he⟩ : ∃ e, cacheLookup st.cacheData lang key = some e := by
        cases h : cacheLookup st.cacheData lang key with
        | none => exact absurd (Or.inr h) hm
        | some e => exact ⟨e, rfl⟩
      have := call_hit u cfg env st text lang e ht hf he
      rw [show r = _ from this]
      refine ⟨ht, hf, e, he, rfl, rfl, rfl, rfl, rfl, cacheLookup_withEntry_same _ _ _ _,
        fun l k hlk => ?_⟩
      rw [cacheLookup_withEntry_other _ _ _ _ _ _ hlk, cacheLookup_ensureLang]

/-- A call changes no inner map from nil to a map or back. -/
theorem call_nilUnder (u : Char → Char) (cfg : Config) (env : Env) (st : State)
    (text lang l : Str) :
    nilUnder (callUniversalTranslator u cfg env st text lang).st.cacheData l =
      nilUnder st.cacheData l := by
  by_cases ht : trimSpace text = []
  · rw [call_blank u cfg env st text lang ht]
  · by_cases hm : cfg.forceFlag = true ∨
        cacheLookup st.cacheData lang (toLower u (trimSpace text)) = none
    · cases ho : cfg.isOnline with
      | false =>
        rw [call_offline u cfg env st text lang ht hm ho]
        exact nilUnder_ensureLang _ _ _
      | true =>
        rw [call_online u cfg env st text lang ht hm ho]
        generalize retryLoop env.run _ _ 3 0 = rl
        rcases rl with ⟨_ | res, tr⟩
        · exact nilUnder_ensureLang _ _ _
        · by_cases hn : nilUnder st.cacheData lang = true
          · simp only [hn, if_true]
            exact nilUnder_ensureLang _ _ _
          · have hn' : nilUnder st.cacheData lang = false := by simpa using hn
            simp only [hn', Bool.false_eq_true, if_false]
            rw [nilUnder_withEntry, nilUnder_ensureLang]
            by_cases hl : l = lang
            · subst hl; simp only [if_true]; exact hn'.symm
            · simp [hl]
    · have hf : cfg.forceFlag = false := by
        cases h : cfg.forceFlag with
        | false => rfl
        | true => exact absurd (Or.inl h) hm
      obtain ⟨e, he⟩ : ∃ e, cacheLookup st.cacheData lang (toLower u (trimSpace text)) =
          some e := by
        cases h : cacheLookup st.cacheData lang (toLower u (trimSpace text)) with
        | none => exact absurd (Or.inr h) hm
        | some e => exact ⟨e, rfl⟩
      rw [call_hit u cfg env st text lang e ht hf he]
      simp only
      rw [nilUnder_withEntry, nilUnder_ensureLang]
      by_cases hl : l = lang
      · subst hl; simp only [if_true]; exact (nilUnder_of_lookup _ _ _ _ he).symm
      · simp [hl]

/-- A call panics only when the cache holds the nil map under its language. -/
theorem call_no_panic (u : Char → Char) (cfg : Config) (env : Env) (st : State)
    (text lang : Str) (hn : nilUnder st.cacheData lang = false) :
    (callUniversalTranslator u cfg env st text lang).trace.contains Event.panic = false := by
  by_cases ht : trimSpace text = []
  · rw [call_blank u cfg env st text lang ht]; rfl
  · by_cases hm : cfg.forceFlag = true ∨
        cacheLookup st.cacheData lang (toLower u (trimSpace text)) = none
    · cases ho : cfg.isOnline with
      | false =>
        rw [call_offline u cfg env st text lang ht hm ho]; rfl
      | true =>
        rw [call_online u cfg env st text lang ht hm ho]
        have hnp := retryLoop_no_panic env.run
          (fun out => restoreVariables out (env.order (protectVariables (trimSpace text)).2))
          cfg.engine cfg.sourceLang (replaceAll lang ['_'] ['-'])
          (protectVariables (trimSpace text)).1 3 0
        revert hnp
        generalize retryLoop env.run _ _ 3 0 = rl
        rcases rl with ⟨_ | res, tr⟩
        · intro hnp
          simp only at hnp ⊢
          simpa using hnp
        · intro hnp
          simp only [hn, Bool.false_eq_true, if_false] at hnp ⊢
          simpa using hnp
    · have hf : cfg.forceFlag = false := by
        cases h : cfg.forceFlag with
        | false => rfl
        | true => exact absurd (Or.inl h) hm
      obtain ⟨e, he⟩ : ∃ e, cacheLookup st.cacheData lang (toLower u (trimSpace text)) =
          some e := by
        cases h : cacheLookup st.cacheData lang (toLower u (trimSpace text)) with
        | none => exact absurd (Or.inr h) hm
        | some e => exact ⟨e, rfl⟩
      rw [call_hit u cfg env st text lang e ht hf he]; rfl

/-- With the cache not bypassed, a call leaves the value of every entry that exists as it
was: it can only refresh `LastUsed`. -/
theorem call_keeps_value (u : Char → Char) (cfg : Config) (env : Env) (st : State)
    (text lang l k : Str) (e : CacheEntry) (hf : cfg.forceFlag = false)
    (he : cacheLookup st.cacheData l k = some e) :
    ∃ e', cacheLookup (callUniversalTranslator u cfg env st text lang).st.cacheData l k =
      some e' ∧ e'.Value = e.Value := by
  have hc := call_cases u cfg env st text lang
  simp only at hc
  by_cases hlk : l ≠ lang ∨ k ≠ toLower u (trimSpace text)
  · rcases hc with ⟨_, _, h, _⟩ | ⟨_, _, e0, _, _, _, _, _, _, _, h⟩ | ⟨_, _, _, _, _, _, _, _, h⟩ |
      ⟨_, _, _, _, _, _, _, _, h⟩ | ⟨_, _, _, _, _, _, _, _, _, h⟩ |
      ⟨_, _, _, _, _, _, _, _, _, _, h⟩
    · rw [h]; exact ⟨e, he, rfl⟩
    · rw [h l k hlk]; exact ⟨e, he, rfl⟩
    · rw [h l k]; exact ⟨e, he, rfl⟩
    · rw [h l k]; exact ⟨e, he, rfl⟩
    · rw [h l k hlk]; exact ⟨e, he, rfl⟩
    · rw [h l k]; exact ⟨e, he, rfl⟩
  · have h1 : l = lang := by
      by_contra h; exact hlk (Or.inl h)
    have h2 : k = toLower u (trimSpace text) := by
      by_contra h; exact hlk (Or.inr h)
    subst h1 h2
    rcases hc with ⟨_, _, h, _⟩ | ⟨_, _, e0, he0, _, _, _, _, _, h, _⟩ |
      ⟨_, _, _, _, _, _, _, _, h⟩ | ⟨_, _, _, _, _, _, _, _, h⟩ | ⟨_, hm, _⟩ | ⟨_, hm, _⟩
    · rw [h]; exact ⟨e, he, rfl⟩
    · rw [h]
      rw [he] at he0
      cases he0
      exact ⟨_, rfl, rfl⟩
    · rw [h]; exact ⟨e, he, rfl⟩
    · rw [h]; exact ⟨e, he, rfl⟩
    · rcases hm with hm | hm
      · rw [hf] at hm; exact absurd hm (by simp)
      · rw [he] at hm; exact absurd hm (by simp)
    · rcases hm with hm | hm
      · rw [hf] at hm; exact absurd hm (by simp)
      · rw [he] at hm; exact absurd hm (by simp)

theorem runCalls_keeps_value (u : Char → Char) (cfg : Config) (calls : List (Env × Str × Str))
    (st st' : State) (l k : Str) (e : CacheEntry) (hf : cfg.forceFlag = false)
    (he : cacheLookup st.cacheData l k = some e) (hrun : runCalls u cfg st calls = some st') :
    ∃ e', cacheLookup st'.cacheData l k = some e' ∧ e'.Value = e.Value := by
  induction calls generalizing st e with
  | nil =>
    simp only [runCalls, Option.some.injEq] at hrun
    subst hrun
    exact ⟨e, he, rfl⟩
  | cons c calls ih =>
    obtain ⟨env, text, lang⟩ := c
    obtain ⟨e1, h1, hv1⟩ := call_keeps_value u cfg env st text lang l k e hf he
    simp only [runCalls] at hrun
    split at hrun
    · exact absurd hrun (by simp)
    · obtain ⟨e2, h2, hv2⟩ := ih _ e1 h1 hrun
      exact ⟨e2, h2, hv2.trans hv1⟩

/-- A call on a key that the cache holds, the cache not being bypassed, is a cache hit. -/
theorem call_hit_summary (u : Char → Char) (cfg : Config) (env : Env) (st : State)
    (text lang : Str) (e : CacheEntry) (ht : trimSpace text ≠ []) (hf : cfg.forceFlag = false)
    (he : cacheLookup st.cacheData lang (toLower u (trimSpace text)) = some e) :
    (callUniversalTranslator u cfg env st text lang).ret = e.Value ∧
    (callUniversalTranslator u cfg env st text lang).st.cacheHits = st.cacheHits + 1 ∧
    (callUniversalTranslator u cfg env st text lang).st.netCalls = st.netCalls ∧
    (callUniversalTranslator u cfg env st text lang).st.failedCalls = st.failedCalls ∧
    (callUniversalTranslator u cfg env st text lang).trace = [Event.lock, Event.unlock] ∧
    cacheLookup (callUniversalTranslator u cfg env st text lang).st.cacheData lang
      (toLower u (trimSpace text)) = some ⟨e.Value, env.now⟩ := by
  rw [call_hit u cfg env st text lang e ht hf he]
  exact ⟨rfl, rfl, rfl, rfl, rfl, cacheLookup_withEntry_same _ _ _ _⟩

/-- After a call that obtained its result from a successful external attempt, on a cache that
holds no nil map under `lang`, the cache holds the result `r` under `lang` and the lower-cased
trimmed text; and after any further calls that return, every later call with `forceFlag`
false, the same `lang` and a text with the same lower-cased trimmed form returns `r` as a
cache hit (`cacheHits` incremented by one) without an external call. -/
theorem stored_translation_is_hit (u : Char → Char) (cfg1 : Config) (env1 : Env) (st : State)
    (text lang : Str) (hn : nilUnder st.cacheData lang = false)
    (h1 : (callUniversalTranslator u cfg1 env1 st text lang).st.netCalls = st.netCalls + 1) :
    cacheLookup (callUniversalTranslator u cfg1 env1 st text lang).st.cacheData lang
      (toLower u (trimSpace text)) =
      some ⟨(callUniversalTranslator u cfg1 env1 st text lang).ret, env1.now⟩ ∧
    ∀ (cfg2 : Config) (later : List (Env × Str × Str)) (st2 : State) (env2 : Env)
      (text2 : Str), cfg2.forceFlag = false →
      runCalls u cfg2 (callUniversalTranslator u cfg1 env1 st text lang).st later = some st2 →
      toLower u (trimSpace text2) = toLower u (trimSpace text) →
      (callUniversalTranslator u cfg2 env2 st2 text2 lang).ret =
        (callUniversalTranslator u cfg1 env1 st text lang).ret ∧
      (callUniversalTranslator u cfg2 env2 st2 text2 lang).st.cacheHits = st2.cacheHits + 1 ∧
      hasExec (callUniversalTranslator u cfg2 env2 st2 text2 lang).trace = false := by
  have hc := call_cases u cfg1 env1 st text lang
  simp only at hc
  have key : trimSpace text ≠ [] ∧
      cacheLookup (callUniversalTranslator u cfg1 env1 st text lang).st.cacheData lang
        (toLower u (trimSpace text)) =
        some ⟨(callUniversalTranslator u cfg1 env1 st text lang).ret, env1.now⟩ := by
    rcases hc with ⟨_, _, h, _⟩ | ⟨_, _, e0, _, _, _, h, _⟩ |
      ⟨_, _, _, _, _, h, _⟩ | ⟨_, _, _, _, _, h, _⟩ | ⟨ht, _, _, _, _, _, _, _, h, _⟩ |
      ⟨_, _, _, h, _⟩
    · rw [h] at h1; omega
    · omega
    · omega
    · omega
    · exact ⟨ht, h⟩
    · rw [hn] at h; exact absurd h (by simp)
  obtain ⟨ht, hstore⟩ := key
  refine ⟨hstore, fun cfg2 later st2 env2 text2 hf hrun hkey => ?_⟩
  obtain ⟨e', he', hv⟩ := runCalls_keeps_value u cfg2 later _ st2 lang _ _ hf hstore hrun
  have ht2 : trimSpace text2 ≠ [] := by
    intro h
    rw [h] at hkey
    exact toLower_ne_nil u _ ht hkey.symm
  rw [← hkey] at he'
  obtain ⟨h2, h3, _, _, h4, _⟩ := call_hit_summary u cfg2 env2 _ text2 lang e' ht2 hf he'
  refine ⟨h2.trans hv, h3, ?_⟩
  rw [h4]; rfl

/-- Online, with an empty cache and a translator that prints `hola`, the call for `hello`
stores `hola`; after a further call for `bye`, the call for ` HELLO ` is a hit. -/
theorem stored_translation_is_hit_hola :
    (callUniversalTranslator id onlineConfig (holaEnv 1) emptyState
      "hello".toList "es".toList).st.netCalls = emptyState.netCalls + 1 ∧
    (callUniversalTranslator id onlineConfig (holaEnv 3)
      (callUniversalTranslator id onlineConfig (holaEnv 2)
        (callUniversalTranslator id onlineConfig (holaEnv 1) emptyState
          "hello".toList "es".toList).st "bye".toList "es".toList).st
      " HELLO ".toList "es".toList).ret = "hola".toList :=
  ⟨by decide,
    ((stored_translation_is_hit id onlineConfig (holaEnv 1) emptyState
      "hello".toList "es".toList (by decide) (by decide)).2 onlineConfig
      [(holaEnv 2, "bye".toList, "es".toList)] _ (holaEnv 3) " HELLO ".toList rfl
      (by decide) (by decide)).1.trans (by decide)⟩

/-- Remark on the condition that the cache holds no nil map under the language: on the cache
that `loadCache` leaves for the cache file `{"es": null}`, a call for `es` whose attempt
succeeds counts the attempt in `netCalls` and then panics at the store, whether the translator
printed `hola` or only white space; a call that makes no store (here offline) returns. -/
theorem store_needs_inner_map :
    nilUnder nilMapState.cacheData "es".toList = true ∧
    (callUniversalTranslator id onlineConfig (holaEnv 1) nilMapState
      "hello".toList "es".toList).st.netCalls = nilMapState.netCalls + 1 ∧
    (callUniversalTranslator id onlineConfig (holaEnv 1) nilMapState
      "hello".toList "es".toList).trace.getLast? = some Event.panic ∧
    (callUniversalTranslator id onlineConfig blankOutputEnv nilMapState
      "hello".toList "es".toList).trace.getLast? = some Event.panic ∧
    (callUniversalTranslator id offlineConfig (holaEnv 1) nilMapState
      "hello".toList "es".toList).trace = [Event.lock, Event.unlock] := by
  decide

/-! ## Claims on the cache of v2.1.19 -/

/-- C6, counterexample: online, with an empty cache and a translator that always fails, the
first call for `hello` returns the text itself and stores nothing; the second call in
succession is no cache hit: `cacheHits` stays as it was and the translator is run again. -/
theorem second_call_not_hit :
    (callUniversalTranslator id onlineConfig failingEnv
      (callUniversalTranslator id onlineConfig failingEnv emptyState
        "hello".toList "es".toList).st "hello".toList "es".toList).st.cacheHits =
      (callUniversalTranslator id onlineConfig failingEnv emptyState
        "hello".toList "es".toList).st.cacheHits ∧
    hasExec (callUniversalTranslator id onlineConfig failingEnv
      (callUniversalTranslator id onlineConfig failingEnv emptyState
        "hello".toList "es".toList).st "hello".toList "es".toList).trace = true := by
  decide

/-- C6, amended: for every text, every language and every cache state that does not hold the
nil map under that language, with `forceFlag` false, if the first call was a cache hit or
obtained its result from a successful external attempt (it incremented `cacheHits` or
`netCalls`), then the first call returns and a second call in succession on the same text and
language is a cache hit: it returns the same value as the first call, increments `cacheHits`
by one and performs no external translation attempt. -/
theorem second_call_hit (u : Char → Char) (cfg : Config) (env1 env2 : Env) (st : State)
    (text lang : Str) (hf : cfg.forceFlag = false)
    (hn : nilUnder st.cacheData lang = false)
    (h1 : (callUniversalTranslator u cfg env1 st text lang).st.cacheHits = st.cacheHits + 1 ∨
      (callUniversalTranslator u cfg env1 st text lang).st.netCalls = st.netCalls + 1) :
    (callUniversalTranslator u cfg env1 st text lang).trace.contains Event.panic = false ∧
    (callUniversalTranslator u cfg env2
      (callUniversalTranslator u cfg env1 st text lang).st text lang).ret =
      (callUniversalTranslator u cfg env1 st text lang).ret ∧
    (callUniversalTranslator u cfg env2
      (callUniversalTranslator u cfg env1 st text lang).st text lang).st.cacheHits =
      (callUniversalTranslator u cfg env1 st text lang).st.cacheHits + 1 ∧
    (callUniversalTranslator u cfg env2
      (callUniversalTranslator u cfg env1 st text lang).st text lang).trace =
      [Event.lock, Event.unlock] ∧
    hasExec (callUniversalTranslator u cfg env2
      (callUniversalTranslator u cfg env1 st text lang).st text lang).trace = false := by
  have hc := call_cases u cfg env1 st text lang
  simp only at hc
  have key : ∃ e, trimSpace text ≠ [] ∧
      cacheLookup (callUniversalTranslator u cfg env1 st text lang).st.cacheData lang
        (toLower u (trimSpace text)) = some e ∧
      e.Value = (callUniversalTranslator u cfg env1 st text lang).ret := by
    rcases hc with ⟨_, _, h, _⟩ | ⟨ht, _, e0, _, hr, _, _, _, _, h, _⟩ |
      ⟨_, _, _, _, h3, h4, _⟩ | ⟨_, _, _, _, h3, h4, _⟩ |
      ⟨ht, _, _, _, _, _, _, _, h, _⟩ | ⟨_, _, _, h, _⟩
    · rw [h] at h1; omega
    · exact ⟨_, ht, h, hr.symm⟩
    · omega
    · omega
    · exact ⟨_, ht, h, rfl⟩
    · rw [hn] at h; exact absurd h (by simp)
  obtain ⟨e, ht, he, hv⟩ := key
  obtain ⟨h2, h3, _, _, h4, _⟩ := call_hit_summary u cfg env2 _ text lang e ht hf he
  refine ⟨call_no_panic u cfg env1 st text lang hn, h2.trans hv, h3, h4, ?_⟩
  rw [h4]; rfl

/-- C6, witness: online, with an empty cache and a translator that prints `hola`, the first
call for `hello` stores `hola`; the second call is a hit. -/
theorem second_call_hit_hola :
    onlineConfig.forceFlag = false ∧ nilUnder emptyState.cacheData "es".toList = false ∧
    (callUniversalTranslator id onlineConfig (holaEnv 1) emptyState
      "hello".toList "es".toList).st.netCalls = emptyState.netCalls + 1 ∧
    ((callUniversalTranslator id onlineConfig (holaEnv 1) emptyState
      "hello".toList "es".toList).trace.contains Event.panic = false ∧
    (callUniversalTranslator id onlineConfig (holaEnv 2)
      (callUniversalTranslator id onlineConfig (holaEnv 1) emptyState
        "hello".toList "es".toList).st "hello".toList "es".toList).ret =
      (callUniversalTranslator id onlineConfig (holaEnv 1) emptyState
        "hello".toList "es".toList).ret ∧
    (callUniversalTranslator id onlineConfig (holaEnv 2)
      (callUniversalTranslator id onlineConfig (holaEnv 1) emptyState
        "hello".toList "es".toList).st "hello".toList "es".toList).st.cacheHits =
      (callUniversalTranslator id onlineConfig (holaEnv 1) emptyState
        "hello".toList "es".toList).st.cacheHits + 1 ∧
    (callUniversalTranslator id onlineConfig (holaEnv 2)
      (callUniversalTranslator id onlineConfig (holaEnv 1) emptyState
        "hello".toList "es".toList).st "hello".toList "es".toList).trace =
      [Event.lock, Event.unlock] ∧
    hasExec (callUniversalTranslator id onlineConfig (holaEnv 2)
      (callUniversalTranslator id onlineConfig (holaEnv 1) emptyState
        "hello".toList "es".toList).st "hello".toList "es".toList).trace = false) :=
  ⟨rfl, by decide, by decide,
    second_call_hit id onlineConfig (holaEnv 1) (holaEnv 2) emptyState
      "hello".toList "es".toList rfl (by decide) (Or.inr (by decide))⟩

/-- C7, the code at the failing input: the cache file holds `{"es": null}`, which `loadCache`
reads as a cache with the nil map under `es`.  Online, with a translator that prints `hola`,
the call for `hello` and `es` obtains `hola` from its first attempt and counts it in
`netCalls`; the assignment `cacheData[lang][normID] = ...` then panics, `mu` being held: the
call returns nothing, and the cache holds no entry under `es` and `hello`. -/
theorem stored_translation_panics :
    loadCache unixLib nilMapFile emptyState = nilMapState ∧
    (callUniversalTranslator id onlineConfig (holaEnv 1) nilMapState
      "hello".toList "es".toList).trace =
      [Event.lock, Event.unlock,
        Event.exec "google".toList "auto".toList "es".toList "hello".toList,
        Event.lock, Event.panic] ∧
    (callUniversalTranslator id onlineConfig (holaEnv 1) nilMapState
      "hello".toList "es".toList).st.netCalls = 1 ∧
    cacheLookup (callUniversalTranslator id onlineConfig (holaEnv 1) nilMapState
      "hello".toList "es".toList).st.cacheData "es".toList "hello".toList = none := by
  refine ⟨by rfl, by decide, by decide, by decide⟩

/-- C8, counterexample: the cache holds the entry `x` under `es` and the empty key, which is
the lower-cased trimmed form of the blank text ` `; with `forceFlag` false the call for that
text returns the empty string, not `x`, leaves `cacheHits` at zero and does not touch the
entry. -/
theorem blank_text_not_hit :
    cacheLookup blankKeyState.cacheData "es".toList (toLower id (trimSpace " ".toList)) =
      some ⟨"x".toList, 0⟩ ∧
    (callUniversalTranslator id onlineConfig (holaEnv 5) blankKeyState
      " ".toList "es".toList).ret = [] ∧
    (callUniversalTranslator id onlineConfig (holaEnv 5) blankKeyState
      " ".toList "es".toList).st.cacheHits = 0 ∧
    cacheLookup (callUniversalTranslator id onlineConfig (holaEnv 5) blankKeyState
      " ".toList "es".toList).st.cacheData "es".toList [] = some ⟨"x".toList, 0⟩ := by
  decide

/-- C8, amended: for every text that is not blank, when the cache holds an entry for `lang`
and the lower-cased trimmed text and `forceFlag` is false, `callUniversalTranslator` returns
that entry's `Value`, sets that entry's `LastUsed` to the current time while leaving its
`Value` unchanged, and increments `cacheHits` by exactly one. -/
theorem cache_hit_refreshes (u : Char → Char) (cfg : Config) (env : Env) (st : State)
    (text lang : Str) (e : CacheEntry) (ht : trimSpace text ≠ [])
    (hf : cfg.forceFlag = false)
    (he : cacheLookup st.cacheData lang (toLower u (trimSpace text)) = some e) :
    (callUniversalTranslator u cfg env st text lang).ret = e.Value ∧
    cacheLookup (callUniversalTranslator u cfg env st text lang).st.cacheData lang
      (toLower u (trimSpace text)) = some ⟨e.Value, env.now⟩ ∧
    (callUniversalTranslator u cfg env st text lang).st.cacheHits = st.cacheHits + 1 := by
  obtain ⟨h1, h2, _, _, _, h3⟩ := call_hit_summary u cfg env st text lang e ht hf he
  exact ⟨h1, h3, h2⟩

/-- C8, witness: the cache holds `hola` for `hello` under `es`, last used at the instant 1;
the call for ` Hello ` at the instant 9 returns `hola` and sets `LastUsed` to 9. -/
theorem cache_hit_refreshes_hola :
    trimSpace " Hello ".toList ≠ [] ∧
    cacheLookup (⟨some [("es".toList, some [("hello".toList, ⟨"hola".toList, 1⟩)])], 0, 0, 0⟩ :
      State).cacheData "es".toList (toLower id (trimSpace " Hello ".toList)) =
      some ⟨"hola".toList, 1⟩ ∧
    ((callUniversalTranslator id onlineConfig (holaEnv 9)
      ⟨some [("es".toList, some [("hello".toList, ⟨"hola".toList, 1⟩)])], 0, 0, 0⟩
      " Hello ".toList "es".toList).ret = "hola".toList ∧
    cacheLookup (callUniversalTranslator id onlineConfig (holaEnv 9)
      ⟨some [("es".toList, some [("hello".toList, ⟨"hola".toList, 1⟩)])], 0, 0, 0⟩
      " Hello ".toList "es".toList).st.cacheData "es".toList
      (toLower id (trimSpace " Hello ".toList)) = some ⟨"hola".toList, 9⟩ ∧
    (callUniversalTranslator id onlineConfig (holaEnv 9)
      ⟨some [("es".toList, some [("hello".toList, ⟨"hola".toList, 1⟩)])], 0, 0, 0⟩
      " Hello ".toList "es".toList).st.cacheHits = 0 + 1) :=
  ⟨by decide, by decide,
    cache_hit_refreshes id onlineConfig (holaEnv 9)
      ⟨some [("es".toList, some [("hello".toList, ⟨"hola".toList, 1⟩)])], 0, 0, 0⟩
      " Hello ".toList "es".toList ⟨"hola".toList, 1⟩ (by decide) rfl (by decide)⟩

/-- C9, counterexample: with `forceFlag` set and online, the call for the blank text ` `
returns at once; the external translator is not invoked. -/
theorem force_blank_no_exec :
    forceConfig.forceFlag = true ∧ forceConfig.isOnline = true ∧
    (callUniversalTranslator id forceConfig (holaEnv 5) emptyState
      " ".toList "es".toList).trace = [] ∧
    hasExec (callUniversalTranslator id forceConfig (holaEnv 5) emptyState
      " ".toList "es".toList).trace = false := by
  decide

/-- C9, amended: with `forceFlag` set, `callUniversalTranslator` never takes the cache-hit
path: for every text and language, even when an entry for the key exists, `cacheHits` is
not incremented, and unless an external attempt succeeds (`netCalls` incremented) every
entry of the cache, its `LastUsed` included, is left as it was and the string returned is
the trimmed text, not the entry's value; for every text that is not blank, when online, the
external translator is invoked. -/
theorem force_bypasses_cache (u : Char → Char) (cfg : Config) (env : Env) (st : State)
    (text lang : Str) (hf : cfg.forceFlag = true) :
    (callUniversalTranslator u cfg env st text lang).st.cacheHits = st.cacheHits ∧
    ((callUniversalTranslator u cfg env st text lang).st.netCalls = st.netCalls →
      (callUniversalTranslator u cfg env st text lang).ret = trimSpace text ∧
      ∀ l k, cacheLookup (callUniversalTranslator u cfg env st text lang).st.cacheData l k =
        cacheLookup st.cacheData l k) ∧
    (trimSpace text ≠ [] → cfg.isOnline = true →
      hasExec (callUniversalTranslator u cfg env st text lang).trace = true) := by
  have hc := call_cases u cfg env st text lang
  simp only at hc
  rcases hc with ⟨ht, hr, h, _⟩ | ⟨_, hff, _⟩ | ⟨_, _, ho, hr, h1, _, _, _, h⟩ |
    ⟨_, _, _, hr, h1, _, _, hx, h⟩ | ⟨_, _, _, _, h1, h2, _, hx, _⟩ |
    ⟨_, _, _, _, _, h1, h2, _, hx, _⟩
  · rw [h]
    exact ⟨rfl, fun _ => ⟨by rw [hr, ht], fun l k => rfl⟩, fun h' => absurd ht h'⟩
  · rw [hf] at hff; exact absurd hff (by simp)
  · exact ⟨h1, fun _ => ⟨hr, h⟩, fun _ ho' => by rw [ho] at ho'; exact absurd ho' (by simp)⟩
  · exact ⟨h1, fun _ => ⟨hr, h⟩, fun _ _ => hx⟩
  · exact ⟨h1, fun hn => by omega, fun _ _ => hx⟩
  · exact ⟨h1, fun hn => by omega, fun _ _ => hx⟩

/-- C9, witness: with `--force`, online, the cache holds `hola` for `hello`; the call runs
the translator and `cacheHits` stays at zero. -/
theorem force_bypasses_cache_hola :
    forceConfig.forceFlag = true ∧
    (callUniversalTranslator id forceConfig (holaEnv 9)
      ⟨some [("es".toList, some [("hello".toList, ⟨"hola".toList, 1⟩)])], 0, 0, 0⟩
      "hello".toList "es".toList).st.cacheHits = 0 ∧
    hasExec (callUniversalTranslator id forceConfig (holaEnv 9)
      ⟨some [("es".toList, some [("hello".toList, ⟨"hola".toList, 1⟩)])], 0, 0, 0⟩
      "hello".toList "es".toList).trace = true :=
  ⟨rfl,
    (force_bypasses_cache id forceConfig (holaEnv 9)
      ⟨some [("es".toList, some [("hello".toList, ⟨"hola".toList, 1⟩)])], 0, 0, 0⟩
      "hello".toList "es".toList rfl).1,
    (force_bypasses_cache id forceConfig (holaEnv 9)
      ⟨some [("es".toList, some [("hello".toList, ⟨"hola".toList, 1⟩)])], 0, 0, 0⟩
      "hello".toList "es".toList rfl).2.2 (by decide) rfl⟩

/-! ## Lemmas on trimming -/

theorem dropWhile_eq_self_of_head (p : Char → Bool) (t : Str)
    (h : ∀ c, t.head? = some c → p c = false) : t.dropWhile p = t := by
  cases t with
  | nil => rfl
  | cons x t =>
    have := h x rfl
    simp [List.dropWhile_cons, this]

theorem dropWhile_eq_nil_of_all (p : Char → Bool) (b : Str) (h : ∀ c ∈ b, p c = true) :
    b.dropWhile p = [] := by
  induction b with
  | nil => rfl
  | cons x b ih =>
    simp [List.dropWhile_cons, h x (by simp), ih (fun c hc => h c (by simp [hc]))]

/-- Trimming the runes that satisfy `p` from both ends removes a run `a` in front and a run
`b` behind a text that neither starts nor ends with such a rune. -/
theorem trim_core (p : Char → Bool) (a t b : Str) (ha : ∀ c ∈ a, p c = true)
    (hb : ∀ c ∈ b, p c = true) (hh : ∀ c, t.head? = some c → p c = false)
    (hl : ∀ c, t.getLast? = some c → p c = false) :
    dropWhileEnd p ((a ++ (t ++ b)).dropWhile p) = t := by
  rw [List.dropWhile_append_of_pos ha]
  cases t with
  | nil =>
    simp only [List.nil_append]
    rw [dropWhile_eq_nil_of_all p b hb]
    rfl
  | cons x t1 =>
    have hx := hh x rfl
    have h1 : ((x :: t1) ++ b).dropWhile p = (x :: t1) ++ b := by
      simp [List.dropWhile_cons, hx]
    rw [h1]
    unfold dropWhileEnd
    rw [List.reverse_append,
      List.dropWhile_append_of_pos (fun c hc => hb c (List.mem_reverse.mp hc)),
      dropWhile_eq_self_of_head p _ (fun c hc => hl c (by
        rw [List.getLast?_eq_head?_reverse]; exact hc)),
      List.reverse_reverse]

theorem isSpace_quote : isSpace '"' = false := by decide

theorem head?_append_cases (a b : Str) (c : Char) (h : (a ++ b).head? = some c) :
    a.head? = some c ∨ (a = [] ∧ b.head? = some c) := by
  cases a with
  | nil => exact Or.inr ⟨rfl, by simpa using h⟩
  | cons x a => exact Or.inl (by simpa using h)

theorem getLast?_append_cases (a b : Str) (c : Char) (h : (a ++ b).getLast? = some c) :
    b.getLast? = some c ∨ (b = [] ∧ a.getLast? = some c) := by
  rcases List.eq_nil_or_concat b with rfl | ⟨b', x, rfl⟩
  · exact Or.inr ⟨rfl, by simpa using h⟩
  · left
    rw [List.concat_eq_append] at h ⊢
    rw [← List.append_assoc, List.getLast?_append] at h
    simpa using h

theorem head?_mem {t : Str} {c : Char} (h : t.head? = some c) : c ∈ t := by
  cases t with
  | nil => simp at h
  | cons x t => simp at h; simp [h]

theorem getLast?_mem {t : Str} {c : Char} (h : t.getLast? = some c) : c ∈ t :=
  List.mem_of_getLast?_eq_some h

/-- The normalisation of v1.5.7 removes double quotes around white space around a text that
neither starts nor ends with a double quote or a white space, and lower-cases the text. -/
theorem normalizeText_wrapped (u : Char → Char) (q1 w1 t w2 q2 : Str)
    (hq : ∀ c ∈ q1 ++ q2, c = '"') (hw : ∀ c ∈ w1 ++ w2, isSpace c = true)
    (ht : ∀ c, t.head? = some c ∨ t.getLast? = some c → c ≠ '"' ∧ isSpace c = false) :
    V1_5_7.normalizeText u (q1 ++ (w1 ++ (t ++ (w2 ++ q2)))) = toLower u t := by
  unfold V1_5_7.normalizeText trimSpace trimRune
  have hsq : ∀ c, isSpace c = true → (c == '"') = false := by
    intro c hc
    rw [beq_eq_false_iff_ne]
    rintro rfl
    rw [isSpace_quote] at hc
    exact absurd hc (by simp)
  have e1 : q1 ++ (w1 ++ (t ++ (w2 ++ q2))) = q1 ++ ((w1 ++ (t ++ w2)) ++ q2) := by simp
  rw [e1, trim_core (fun c => c == '"') q1 (w1 ++ (t ++ w2)) q2
    (fun c hc => by simpa using hq c (by simp [hc]))
    (fun c hc => by simpa using hq c (by simp [hc]))]
  · rw [trim_core isSpace w1 t w2 (fun c hc => hw c (by simp [hc]))
      (fun c hc => hw c (by simp [hc])) (fun c hc => (ht c (Or.inl hc)).2)
      (fun c hc => (ht c (Or.inr hc)).2)]
  · intro c hc
    rcases head?_append_cases _ _ _ hc with h | ⟨_, h⟩
    · exact hsq c (hw c (by simp [head?_mem h]))
    · rcases head?_append_cases _ _ _ h with h | ⟨_, h⟩
      · simpa using (ht c (Or.inl h)).1
      · exact hsq c (hw c (by simp [head?_mem h]))
  · intro c hc
    rw [← List.append_assoc] at hc
    rcases getLast?_append_cases _ _ _ hc with h | ⟨_, h⟩
    · exact hsq c (hw c (by simp [getLast?_mem h]))
    · rcases getLast?_append_cases _ _ _ h with h | ⟨_, h⟩
      · simpa using (ht c (Or.inr h)).1
      · exact hsq c (hw c (by simp [getLast?_mem h]))

theorem getFromCache_addToCache (u : Char → Char) (cache : V1_5_7.CacheData)
    (lang text text' v : Str) (hs : V1_5_7.storable cache lang = true)
    (h : V1_5_7.normalizeText u text' = V1_5_7.normalizeText u text) :
    ∃ cache', V1_5_7.addToCache u cache lang text v = some cache' ∧
      V1_5_7.getFromCache u false cache' lang text' = (v, true) := by
  unfold V1_5_7.storable at hs
  cases cache with
  | none => exact absurd hs (by simp)
  | some c =>
    simp only at hs
    unfold V1_5_7.addToCache
    simp only
    cases hl : mapGet c lang with
    | none =>
      simp only [mapGet_mapSet_same]
      refine ⟨_, rfl, ?_⟩
      simp [V1_5_7.getFromCache, mapGet_mapSet_same, h]
    | some o =>
      cases o with
      | none => rw [hl] at hs; exact absurd hs (by simp)
      | some l =>
        simp only [hl]
        refine ⟨_, rfl, ?_⟩
        simp [V1_5_7.getFromCache, mapGet_mapSet_same, h]

/-- The assignments of `addToCache` panic when `cacheData` is nil and when it holds the nil
map under the language: the cache files `null` and `{"en": null}` leave such a cache. -/
theorem addToCache_panics :
    V1_5_7.addToCache id none "en".toList "hello".toList "v".toList = none ∧
    V1_5_7.addToCache id (some [("en".toList, none)]) "en".toList "hello".toList
      "v".toList = none :=
  ⟨rfl, rfl⟩

/-! ## Claim on the cache of v1.5.7 -/

/-- C10, counterexample: after `addToCache("en", "hello", v)` on an empty cache, with
`forceFlag` false, `getFromCache("En", " \"Hello\" ")` returns `("", false)` while
`getFromCache("en", "hello")` returns `(v, true)`: the two lookups do not address the same
entry. -/
theorem lookup_other_entry :
    V1_5_7.addToCache id (some []) "en".toList "hello".toList "v".toList =
      some (some [("en".toList, some [("hello".toList, "v".toList)])]) ∧
    V1_5_7.getFromCache id false (some [("en".toList, some [("hello".toList, "v".toList)])])
      "En".toList " \"Hello\" ".toList = ([], false) ∧
    V1_5_7.getFromCache id false (some [("en".toList, some [("hello".toList, "v".toList)])])
      "en".toList "hello".toList = ("v".toList, true) :=
  ⟨rfl, rfl, rfl⟩

/-- C10, amended: in v1.5.7 cache lookups under the same language code (the code is compared
as it is written) whose texts differ only in letter case, in surrounding white space, or in
double quotes that enclose the text together with that white space, address the same cache
entry.  For texts `t` and `t'` that neither start nor end with a double quote or a white
space and have the same lower-cased form, a run `q1`, `q2` of double quotes and a run `w1`,
`w2` of white space on either side: `getFromCache` for `q1 w1 t w2 q2` and for `t'` always
return the same result, and on a cache that is not nil and does not hold the nil map under
`lang`, `addToCache(lang, t', v)` returns and afterwards, with `forceFlag` false,
`getFromCache(lang, q1 w1 t w2 q2)` returns `(v, true)`. -/
theorem lookup_same_entry (u : Char → Char) (forceFlag : Bool) (cache : V1_5_7.CacheData)
    (lang q1 w1 t w2 q2 t' v : Str)
    (hq : ∀ c ∈ q1 ++ q2, c = '"') (hw : ∀ c ∈ w1 ++ w2, isSpace c = true)
    (ht : ∀ c, t.head? = some c ∨ t.getLast? = some c → c ≠ '"' ∧ isSpace c = false)
    (ht' : ∀ c, t'.head? = some c ∨ t'.getLast? = some c → c ≠ '"' ∧ isSpace c = false)
    (hl : toLower u t = toLower u t') :
    V1_5_7.getFromCache u forceFlag cache lang (q1 ++ (w1 ++ (t ++ (w2 ++ q2)))) =
      V1_5_7.getFromCache u forceFlag cache lang t' ∧
    (V1_5_7.storable cache lang = true →
      ∃ cache', V1_5_7.addToCache u cache lang t' v = some cache' ∧
        V1_5_7.getFromCache u false cache' lang (q1 ++ (w1 ++ (t ++ (w2 ++ q2)))) =
          (v, true)) := by
  have h1 := normalizeText_wrapped u q1 w1 t w2 q2 hq hw ht
  have h2 := normalizeText_wrapped u [] [] t' [] [] (by simp) (by simp) ht'
  simp only [List.nil_append, List.append_nil] at h2
  have h3 : V1_5_7.normalizeText u (q1 ++ (w1 ++ (t ++ (w2 ++ q2)))) =
      V1_5_7.normalizeText u t' := by rw [h1, h2, hl]
  refine ⟨?_, fun hs => getFromCache_addToCache u cache lang t' _ v hs h3⟩
  unfold V1_5_7.getFromCache
  rw [h3]

/-- C10, witness: `getFromCache("en", "\" Hello \"")` and `getFromCache("en", "hello")`
return the same result on the empty cache, and after `addToCache("en", "hello", v)` the
lookup `getFromCache("en", "\" Hello \"")` returns `(v, true)`. -/
theorem lookup_same_entry_hello :
    toLower id "Hello".toList = toLower id "hello".toList ∧
    V1_5_7.storable (some []) "en".toList = true ∧
    V1_5_7.getFromCache id false (some []) "en".toList "\" Hello \"".toList =
      V1_5_7.getFromCache id false (some []) "en".toList "hello".toList ∧
    ∃ cache', V1_5_7.addToCache id (some []) "en".toList "hello".toList "v".toList =
      some cache' ∧
      V1_5_7.getFromCache id false cache' "en".toList "\" Hello \"".toList =
        ("v".toList, true) :=
  have h := lookup_same_entry id false (some [])
    "en".toList ['"'] [' '] "Hello".toList [' '] ['"'] "hello".toList "v".toList
    (by decide) (by decide)
    (by
      intro c h
      simp only [String.toList, List.head?_cons, List.getLast?_cons_cons,
        List.getLast?_singleton, Option.some.injEq] at h
      rcases h with rfl | rfl <;> decide)
    (by
      intro c h
      simp only [String.toList, List.head?_cons, List.getLast?_cons_cons,
        List.getLast?_singleton, Option.some.injEq] at h
      rcases h with rfl | rfl <;> decide)
    (by decide)
  ⟨by decide, by decide, h.1, h.2 (by decide)⟩

/-! ## The retry loop -/

theorem leadingFailures_le (run : Nat → Option Str) (n i : Nat) :
    leadingFailures run n i ≤ n := by
  induction n generalizing i with
  | zero => simp [leadingFailures]
  | succ n ih =>
    unfold leadingFailures
    cases run i with
    | some o => simp
    | none => simp only; have := ih (i + 1); omega

/-- The retry loop, by the number of attempts that fail first. -/
theorem retryLoop_eq (run : Nat → Option Str) (cmd : Event) (restore : Str → Str) (n i : Nat) :
    retryLoop run cmd restore n i =
      (if leadingFailures run n i < n then
          (run (i + leadingFailures run n i)).map (fun o => restore (trimSpace o))
        else none,
       failedAttempts cmd i (leadingFailures run n i) ++
        (if leadingFailures run n i < n then [cmd] else [])) := by
  induction n generalizing i with
  | zero => simp [retryLoop, leadingFailures, failedAttempts]
  | succ n ih =>
    unfold retryLoop leadingFailures
    cases h : run i with
    | some o => simp [failedAttempts, h]
    | none =>
      simp only [ih (i + 1), failedAttempts, Nat.add_lt_add_iff_right, List.cons_append]
      have : i + 1 + leadingFailures run n (i + 1) = i + (leadingFailures run n (i + 1) + 1) := by
        omega
      rw [this]

theorem leadingFailures_spec (run : Nat → Option Str) (n i : Nat) :
    (∀ j, j < leadingFailures run n i → run (i + j) = none) ∧
    (leadingFailures run n i < n → ∃ o, run (i + leadingFailures run n i) = some o) := by
  induction n generalizing i with
  | zero => simp [leadingFailures]
  | succ n ih =>
    unfold leadingFailures
    cases h : run i with
    | some o => simp [h]
    | none =>
      simp only
      obtain ⟨h1, h2⟩ := ih (i + 1)
      constructor
      · intro j hj
        cases j with
        | zero => simpa using h
        | succ j =>
          have := h1 j (by omega)
          rwa [show i + 1 + j = i + (j + 1) by omega] at this
      · intro hk
        obtain ⟨o, ho⟩ := h2 (by omega)
        exact ⟨o, by rwa [show i + 1 + leadingFailures run n (i + 1) =
          i + (leadingFailures run n (i + 1) + 1) by omega] at ho⟩

theorem sleepsOf_append (a b : List Event) : sleepsOf (a ++ b) = sleepsOf a ++ sleepsOf b := by
  induction a with
  | nil => rfl
  | cons e a ih => cases e <;> simp [sleepsOf, ih]

theorem sleepsOf_failedAttempts (a b c d : Str) (i k : Nat) :
    sleepsOf (failedAttempts (Event.exec a b c d) i k) = List.range' (i + 1) k := by
  induction k generalizing i with
  | zero => rfl
  | succ k ih => simp [failedAttempts, sleepsOf, ih, List.range'_succ]

theorem execCount_append (a b : List Event) : execCount (a ++ b) = execCount a + execCount b := by
  induction a with
  | nil => simp [execCount]
  | cons e a ih =>
    cases e <;> simp [execCount, ih]
    omega

theorem execCount_failedAttempts (a b c d : Str) (i k : Nat) :
    execCount (failedAttempts (Event.exec a b c d) i k) = k := by
  induction k generalizing i with
  | zero => rfl
  | succ k ih => simp [failedAttempts, execCount, ih]

theorem mutexFree_failedAttempts (a b c d : Str) (i k : Nat) (rest : List Event) :
    mutexFree false (failedAttempts (Event.exec a b c d) i k ++ rest) = mutexFree false rest := by
  induction k generalizing i with
  | zero => rfl
  | succ k ih => simp [failedAttempts, mutexFree, ih]

/-- A call that reaches the retry loop, when all three attempts fail. -/
theorem call_online_fail (u : Char → Char) (cfg : Config) (env : Env) (st : State)
    (text lang : Str) (ht : trimSpace text ≠ [])
    (hm : cfg.forceFlag = true ∨
      cacheLookup st.cacheData lang (toLower u (trimSpace text)) = none)
    (ho : cfg.isOnline = true) (hk : leadingFailures env.run 3 0 = 3) :
    callUniversalTranslator u cfg env st text lang =
      ⟨trimSpace text,
        { st with cacheData := some (ensureLang st.cacheData lang),
                  failedCalls := st.failedCalls + 1 },
        [Event.lock, Event.unlock] ++
          failedAttempts (Event.exec cfg.engine cfg.sourceLang (replaceAll lang ['_'] ['-'])
            (protectVariables (trimSpace text)).1) 0 3⟩ := by
  rw [call_online u cfg env st text lang ht hm ho, retryLoop_eq, hk]
  simp

/-- A call that reaches the retry loop, when the attempt of index `k < 3` is the first to
succeed, with output `o`, and the cache holds no nil map under `lang`. -/
theorem call_online_success (u : Char → Char) (cfg : Config) (env : Env) (st : State)
    (text lang o : Str) (ht : trimSpace text ≠ [])
    (hm : cfg.forceFlag = true ∨
      cacheLookup st.cacheData lang (toLower u (trimSpace text)) = none)
    (ho : cfg.isOnline = true) (hn : nilUnder st.cacheData lang = false)
    (hk : leadingFailures env.run 3 0 < 3)
    (hrun : env.run (leadingFailures env.run 3 0) = some o) :
    callUniversalTranslator u cfg env st text lang =
      ⟨restoreVariables (trimSpace o) (env.order (protectVariables (trimSpace text)).2),
        { st with cacheData := some (withEntry (ensureLang st.cacheData lang) lang
                    (toLower u (trimSpace text))
                    ⟨restoreVariables (trimSpace o)
                      (env.order (protectVariables (trimSpace text)).2), env.now⟩),
                  netCalls := st.netCalls + 1 },
        [Event.lock, Event.unlock] ++
          failedAttempts (Event.exec cfg.engine cfg.sourceLang (replaceAll lang ['_'] ['-'])
            (protectVariables (trimSpace text)).1) 0 (leadingFailures env.run 3 0) ++
          [Event.exec cfg.engine cfg.sourceLang (replaceAll lang ['_'] ['-'])
            (protectVariables (trimSpace text)).1] ++ [Event.lock, Event.unlock]⟩ := by
  rw [call_online u cfg env st text lang ht hm ho, retryLoop_eq]
  simp only [hk, if_true, Nat.zero_add, hrun, Option.map_some', hn, Bool.false_eq_true,
    if_false]
  simp

/-- A call that reaches the retry loop, when the attempt of index `k < 3` is the first to
succeed and the cache holds the nil map under `lang`: the store panics. -/
theorem call_online_panic (u : Char → Char) (cfg : Config) (env : Env) (st : State)
    (text lang o : Str) (ht : trimSpace text ≠ [])
    (hm : cfg.forceFlag = true ∨
      cacheLookup st.cacheData lang (toLower u (trimSpace text)) = none)
    (ho : cfg.isOnline = true) (hn : nilUnder st.cacheData lang = true)
    (hk : leadingFailures env.run 3 0 < 3)
    (hrun : env.run (leadingFailures env.run 3 0) = some o) :
    callUniversalTranslator u cfg env st text lang =
      ⟨[],
        { st with cacheData := some (ensureLang st.cacheData lang),
                  netCalls := st.netCalls + 1 },
        [Event.lock, Event.unlock] ++
          failedAttempts (Event.exec cfg.engine cfg.sourceLang (replaceAll lang ['_'] ['-'])
            (protectVariables (trimSpace text)).1) 0 (leadingFailures env.run 3 0) ++
          [Event.exec cfg.engine cfg.sourceLang (replaceAll lang ['_'] ['-'])
            (protectVariables (trimSpace text)).1] ++ [Event.lock, Event.panic]⟩ := by
  rw [call_online u cfg env st text lang ht hm ho, retryLoop_eq]
  simp only [hk, if_true, Nat.zero_add, hrun, Option.map_some', hn]
  simp

/-- On a cache miss (or with the cache bypassed) while online, the cache holding no nil map
under `lang`, if the external call fails on the first two attempts and succeeds on the third
with output `o`, `callUniversalTranslator` makes exactly three attempts, with a sleep of one
second after the first and of two seconds after the second, returns `restoreVariables`
applied to the trimmed `o`, increments `netCalls` by one and leaves `failedCalls`
unchanged. -/
theorem third_attempt_succeeds (u : Char → Char) (cfg : Config) (env : Env) (st : State)
    (text lang o : Str) (ht : trimSpace text ≠ [])
    (hm : cfg.forceFlag = true ∨
      cacheLookup st.cacheData lang (toLower u (trimSpace text)) = none)
    (ho : cfg.isOnline = true) (hn : nilUnder st.cacheData lang = false)
    (h0 : env.run 0 = none) (h1 : env.run 1 = none) (h2 : env.run 2 = some o) :
    (callUniversalTranslator u cfg env st text lang).trace =
      [Event.lock, Event.unlock,
        Event.exec cfg.engine cfg.sourceLang (replaceAll lang ['_'] ['-'])
          (protectVariables (trimSpace text)).1,
        Event.sleep 1,
        Event.exec cfg.engine cfg.sourceLang (replaceAll lang ['_'] ['-'])
          (protectVariables (trimSpace text)).1,
        Event.sleep 2,
        Event.exec cfg.engine cfg.sourceLang (replaceAll lang ['_'] ['-'])
          (protectVariables (trimSpace text)).1,
        Event.lock, Event.unlock] ∧
    execCount (callUniversalTranslator u cfg env st text lang).trace = 3 ∧
    (callUniversalTranslator u cfg env st text lang).ret =
      restoreVariables (trimSpace o) (env.order (protectVariables (trimSpace text)).2) ∧
    (callUniversalTranslator u cfg env st text lang).st.netCalls = st.netCalls + 1 ∧
    (callUniversalTranslator u cfg env st text lang).st.failedCalls = st.failedCalls := by
  have hk : leadingFailures env.run 3 0 = 2 := by
    simp [leadingFailures, h0, h1, h2]
  rw [call_online_success u cfg env st text lang o ht hm ho hn (by omega)
    (by rw [hk]; exact h2), hk]
  refine ⟨rfl, rfl, rfl, rfl, rfl⟩

/-- Online, with an empty cache, the translator fails twice and then prints `hola`; the call
for `hello` makes three attempts and returns `hola`. -/
theorem third_attempt_succeeds_hola :
    flakyEnv.run 0 = none ∧ flakyEnv.run 1 = none ∧ flakyEnv.run 2 = some "hola\n".toList ∧
    execCount (callUniversalTranslator id onlineConfig flakyEnv emptyState
      "hello".toList "es".toList).trace = 3 ∧
    (callUniversalTranslator id onlineConfig flakyEnv emptyState
      "hello".toList "es".toList).ret = "hola".toList :=
  ⟨rfl, rfl, rfl,
    (third_attempt_succeeds id onlineConfig flakyEnv emptyState "hello".toList "es".toList
      "hola\n".toList (by decide) (Or.inr (by decide)) rfl (by decide) rfl rfl rfl).2.1,
    (third_attempt_succeeds id onlineConfig flakyEnv emptyState "hello".toList "es".toList
      "hola\n".toList (by decide) (Or.inr (by decide)) rfl (by decide) rfl rfl rfl).2.2.1⟩

/-! ## Claims on the translation invoker of v2.1.19 -/

/-- C13, counterexample: offline, with an empty cache, the call for ` hello ` returns
`hello`, which is not the string it was given. -/
theorem offline_returns_trimmed :
    offlineConfig.isOnline = false ∧
    (callUniversalTranslator id offlineConfig failingEnv emptyState
      " hello ".toList "es".toList).ret = "hello".toList ∧
    (callUniversalTranslator id offlineConfig failingEnv emptyState
      " hello ".toList "es".toList).ret ≠ " hello ".toList := by
  decide

/-- C13, amended: with `isOnline` false, for every text and every language
`callUniversalTranslator` makes no external translation attempt and increments neither
`netCalls` nor `failedCalls`; when it does not answer from the cache (`forceFlag` is set or
the cache has no entry for the key) it returns the text with its surrounding white space
trimmed, which is the very string it was given when that string has no surrounding white
space. -/
theorem offline_pass_through (u : Char → Char) (cfg : Config) (env : Env) (st : State)
    (text lang : Str) (ho : cfg.isOnline = false) :
    hasExec (callUniversalTranslator u cfg env st text lang).trace = false ∧
    (callUniversalTranslator u cfg env st text lang).st.netCalls = st.netCalls ∧
    (callUniversalTranslator u cfg env st text lang).st.failedCalls = st.failedCalls ∧
    (cfg.forceFlag = true ∨
        cacheLookup st.cacheData lang (toLower u (trimSpace text)) = none →
      (callUniversalTranslator u cfg env st text lang).ret = trimSpace text ∧
      (trimSpace text = text →
        (callUniversalTranslator u cfg env st text lang).ret = text)) := by
  have hc := call_cases u cfg env st text lang
  simp only at hc
  rcases hc with ⟨ht, hr, h, htr⟩ | ⟨_, hf, e, he, _, _, h2, h3, htr, _⟩ |
    ⟨_, _, _, hr, _, h2, h3, htr, _⟩ | ⟨_, _, ho', _⟩ | ⟨_, _, ho', _⟩ | ⟨_, _, ho', _⟩
  · rw [h, htr]
    refine ⟨rfl, rfl, rfl, fun _ => ⟨by rw [hr, ht], fun h' => by rw [hr, ← h', ht]⟩⟩
  · rw [htr]
    refine ⟨rfl, h2, h3, fun hm => ?_⟩
    rcases hm with hm | hm
    · rw [hf] at hm; exact absurd hm (by simp)
    · rw [he] at hm; exact absurd hm (by simp)
  · rw [htr]
    exact ⟨rfl, h2, h3, fun _ => ⟨hr, fun h' => by rw [hr, h']⟩⟩
  · rw [ho] at ho'; exact absurd ho' (by simp)
  · rw [ho] at ho'; exact absurd ho' (by simp)
  · rw [ho] at ho'; exact absurd ho' (by simp)

/-- C13, witness: offline, with an empty cache, the call for `hello` returns `hello` without
running the translator. -/
theorem offline_pass_through_hello :
    offlineConfig.isOnline = false ∧
    hasExec (callUniversalTranslator id offlineConfig failingEnv emptyState
      "hello".toList "es".toList).trace = false ∧
    (callUniversalTranslator id offlineConfig failingEnv emptyState
      "hello".toList "es".toList).ret = "hello".toList :=
  ⟨rfl,
    (offline_pass_through id offlineConfig failingEnv emptyState
      "hello".toList "es".toList rfl).1,
    ((offline_pass_through id offlineConfig failingEnv emptyState
      "hello".toList "es".toList rfl).2.2.2 (Or.inr (by decide))).2 (by decide)⟩

/-- C14, the code at the failing input: the cache file holds `{"es": null}`, which
`loadCache` reads as a cache with the nil map under `es`.  Online, the translator fails
twice and then prints `hola`: the call for `hello` and `es` is a cache miss, makes exactly
three attempts, with a sleep of one second after the first and of two seconds after the
second, increments `netCalls` by one and leaves `failedCalls` unchanged; then the assignment
`cacheData[lang][normID] = ...` panics, `mu` being held, and the call returns nothing. -/
theorem third_attempt_panics :
    loadCache unixLib nilMapFile emptyState = nilMapState ∧
    cacheLookup nilMapState.cacheData "es".toList "hello".toList = none ∧
    flakyEnv.run 0 = none ∧ flakyEnv.run 1 = none ∧ flakyEnv.run 2 = some "hola\n".toList ∧
    (callUniversalTranslator id onlineConfig flakyEnv nilMapState
      "hello".toList "es".toList).trace =
      [Event.lock, Event.unlock,
        Event.exec "google".toList "auto".toList "es".toList "hello".toList,
        Event.sleep 1,
        Event.exec "google".toList "auto".toList "es".toList "hello".toList,
        Event.sleep 2,
        Event.exec "google".toList "auto".toList "es".toList "hello".toList,
        Event.lock, Event.panic] ∧
    (callUniversalTranslator id onlineConfig flakyEnv nilMapState
      "hello".toList "es".toList).st.netCalls = nilMapState.netCalls + 1 ∧
    (callUniversalTranslator id onlineConfig flakyEnv nilMapState
      "hello".toList "es".toList).st.failedCalls = nilMapState.failedCalls := by
  refine ⟨by rfl, by decide, rfl, rfl, rfl, by decide, by decide, by decide⟩

theorem leadingFailures_all (run : Nat → Option Str) (n i : Nat)
    (h : ∀ j, j < n → run (i + j) = none) : leadingFailures run n i = n := by
  induction n generalizing i with
  | zero => rfl
  | succ n ih =>
    have h0 : run i = none := by simpa using h 0 (by omega)
    unfold leadingFailures
    rw [h0]
    simp only
    rw [ih (i + 1) (fun j hj => by
      have := h (j + 1) (by omega)
      rwa [show i + (j + 1) = i + 1 + j by omega] at this)]

theorem restoreVariables_nil (p : List (Str × Str)) (h : ∀ kv ∈ p, kv.1 ≠ []) :
    restoreVariables [] p = [] := by
  induction p with
  | nil => rfl
  | cons kv p ih =>
    have h1 : restoreVariables [] (kv :: p) = restoreVariables (replaceAll [] kv.1 kv.2) p := rfl
    rw [h1, replaceAll_nil _ _ (h kv (by simp)), ih (fun e he => h e (by simp [he]))]

/-- C15, counterexample: online, with an empty cache and a translator that always fails, the
call for ` hello ` returns `hello`, which is not the original text. -/
theorem failed_returns_trimmed :
    onlineConfig.isOnline = true ∧
    (callUniversalTranslator id onlineConfig failingEnv emptyState
      " hello ".toList "es".toList).st.failedCalls = 1 ∧
    (callUniversalTranslator id onlineConfig failingEnv emptyState
      " hello ".toList "es".toList).ret = "hello".toList ∧
    (callUniversalTranslator id onlineConfig failingEnv emptyState
      " hello ".toList "es".toList).ret ≠ " hello ".toList := by
  decide

/-- C15, amended: on a cache miss (or with the cache bypassed) while online, if every
external attempt fails, `callUniversalTranslator` makes exactly 3 attempts and no more, each
followed by its sleep, increments `failedCalls` by exactly one, leaves `netCalls` and
`cacheHits` unchanged, and returns the original text with its surrounding white space
trimmed (the very text when it has none); the function is total and gives its caller a
string, never an error. -/
theorem all_attempts_fail (u : Char → Char) (cfg : Config) (env : Env) (st : State)
    (text lang : Str) (ht : trimSpace text ≠ [])
    (hm : cfg.forceFlag = true ∨
      cacheLookup st.cacheData lang (toLower u (trimSpace text)) = none)
    (ho : cfg.isOnline = true) (hfail : ∀ i, i < 3 → env.run i = none) :
    (callUniversalTranslator u cfg env st text lang).trace =
      [Event.lock, Event.unlock,
        Event.exec cfg.engine cfg.sourceLang (replaceAll lang ['_'] ['-'])
          (protectVariables (trimSpace text)).1,
        Event.sleep 1,
        Event.exec cfg.engine cfg.sourceLang (replaceAll lang ['_'] ['-'])
          (protectVariables (trimSpace text)).1,
        Event.sleep 2,
        Event.exec cfg.engine cfg.sourceLang (replaceAll lang ['_'] ['-'])
          (protectVariables (trimSpace text)).1,
        Event.sleep 3] ∧
    execCount (callUniversalTranslator u cfg env st text lang).trace = 3 ∧
    (callUniversalTranslator u cfg env st text lang).st.failedCalls = st.failedCalls + 1 ∧
    (callUniversalTranslator u cfg env st text lang).st.netCalls = st.netCalls ∧
    (callUniversalTranslator u cfg env st text lang).st.cacheHits = st.cacheHits ∧
    (callUniversalTranslator u cfg env st text lang).ret = trimSpace text ∧
    (trimSpace text = text → (callUniversalTranslator u cfg env st text lang).ret = text) := by
  have hk : leadingFailures env.run 3 0 = 3 :=
    leadingFailures_all env.run 3 0 (fun j hj => by simpa using hfail j hj)
  rw [call_online_fail u cfg env st text lang ht hm ho hk]
  exact ⟨rfl, rfl, rfl, rfl, rfl, rfl, fun h => h⟩

/-- C15, witness: online, with an empty cache and a translator that always fails, the call
for `hello` makes three attempts, counts one failure and returns `hello`. -/
theorem all_attempts_fail_hello :
    (∀ i, i < 3 → failingEnv.run i = none) ∧
    execCount (callUniversalTranslator id onlineConfig failingEnv emptyState
      "hello".toList "es".toList).trace = 3 ∧
    (callUniversalTranslator id onlineConfig failingEnv emptyState
      "hello".toList "es".toList).st.failedCalls = emptyState.failedCalls + 1 ∧
    (callUniversalTranslator id onlineConfig failingEnv emptyState
      "hello".toList "es".toList).ret = "hello".toList :=
  ⟨fun _ _ => rfl,
    (all_attempts_fail id onlineConfig failingEnv emptyState "hello".toList "es".toList
      (by decide) (Or.inr (by decide)) rfl (fun _ _ => rfl)).2.1,
    (all_attempts_fail id onlineConfig failingEnv emptyState "hello".toList "es".toList
      (by decide) (Or.inr (by decide)) rfl (fun _ _ => rfl)).2.2.1,
    (all_attempts_fail id onlineConfig failingEnv emptyState "hello".toList "es".toList
      (by decide) (Or.inr (by decide)) rfl (fun _ _ => rfl)).2.2.2.2.2.2 (by decide)⟩

/-- C16, counterexample: online, with an empty cache and a translator that always fails, the
call for `hello` returns `hello` but stores no entry for it; the second call for the same
text runs the translator again and counts no cache hit. -/
theorem failure_not_stored :
    (callUniversalTranslator id onlineConfig failingEnv emptyState
      "hello".toList "es".toList).ret = "hello".toList ∧
    cacheLookup (callUniversalTranslator id onlineConfig failingEnv emptyState
      "hello".toList "es".toList).st.cacheData "es".toList "hello".toList = none ∧
    execCount (callUniversalTranslator id onlineConfig failingEnv
      (callUniversalTranslator id onlineConfig failingEnv emptyState
        "hello".toList "es".toList).st "hello".toList "es".toList).trace = 3 ∧
    (callUniversalTranslator id onlineConfig failingEnv
      (callUniversalTranslator id onlineConfig failingEnv emptyState
        "hello".toList "es".toList).st "hello".toList "es".toList).st.cacheHits = 0 := by
  decide

/-- C16, amended: on a cache miss (or with the cache bypassed) whose external attempts all
fail, `callUniversalTranslator` returns the trimmed text and stores nothing: every entry of
the cache is as it was before the call, so a second call for the same text in the same run
is again no cache hit (`cacheHits` stays) and, online, runs the external translator again. -/
theorem failure_leaves_cache (u : Char → Char) (cfg : Config) (env env2 : Env) (st : State)
    (text lang : Str) (ht : trimSpace text ≠ [])
    (hm : cfg.forceFlag = true ∨
      cacheLookup st.cacheData lang (toLower u (trimSpace text)) = none)
    (ho : cfg.isOnline = true) (hfail : ∀ i, i < 3 → env.run i = none) :
    (callUniversalTranslator u cfg env st text lang).ret = trimSpace text ∧
    (∀ l k, cacheLookup (callUniversalTranslator u cfg env st text lang).st.cacheData l k =
      cacheLookup st.cacheData l k) ∧
    (callUniversalTranslator u cfg env2
      (callUniversalTranslator u cfg env st text lang).st text lang).st.cacheHits =
      (callUniversalTranslator u cfg env st text lang).st.cacheHits ∧
    hasExec (callUniversalTranslator u cfg env2
      (callUniversalTranslator u cfg env st text lang).st text lang).trace = true := by
  have hk : leadingFailures env.run 3 0 = 3 :=
    leadingFailures_all env.run 3 0 (fun j hj => by simpa using hfail j hj)
  have h1 := call_online_fail u cfg env st text lang ht hm ho hk
  have hsame : ∀ l k,
      cacheLookup (callUniversalTranslator u cfg env st text lang).st.cacheData l k =
        cacheLookup st.cacheData l k := by
    intro l k
    rw [h1]
    exact cacheLookup_ensureLang _ _ _ _
  have hm2 : cfg.forceFlag = true ∨
      cacheLookup (callUniversalTranslator u cfg env st text lang).st.cacheData lang
        (toLower u (trimSpace text)) = none := by
    rw [hsame]; exact hm
  refine ⟨by rw [h1], hsame, ?_, ?_⟩
  · have hc := call_cases u cfg env2 (callUniversalTranslator u cfg env st text lang).st
      text lang
    simp only at hc
    rcases hc with ⟨ht', _⟩ | ⟨_, hf, e, he, _⟩ | ⟨_, _, _, _, h, _⟩ | ⟨_, _, _, _, h, _⟩ |
      ⟨_, _, _, _, h, _⟩ | ⟨_, _, _, _, _, h, _⟩
    · exact absurd ht' ht
    · rcases hm2 with hm2 | hm2
      · rw [hf] at hm2; exact absurd hm2 (by simp)
      · rw [he] at hm2; exact absurd hm2 (by simp)
    · exact h
    · exact h
    · exact h
    · exact h
  · have hc := call_cases u cfg env2 (callUniversalTranslator u cfg env st text lang).st
      text lang
    simp only at hc
    rcases hc with ⟨ht', _⟩ | ⟨_, hf, e, he, _⟩ | ⟨_, _, ho', _⟩ |
      ⟨_, _, _, _, _, _, _, h, _⟩ | ⟨_, _, _, _, _, _, _, h, _⟩ |
      ⟨_, _, _, _, _, _, _, _, h, _⟩
    · exact absurd ht' ht
    · rcases hm2 with hm2 | hm2
      · rw [hf] at hm2; exact absurd hm2 (by simp)
      · rw [he] at hm2; exact absurd hm2 (by simp)
    · rw [ho] at ho'; exact absurd ho' (by simp)
    · exact h
    · exact h
    · exact h

/-- C16, witness: online, with an empty cache and a translator that always fails, then one
that prints `hola`: the second call for `hello` runs the translator. -/
theorem failure_leaves_cache_hello :
    (∀ i, i < 3 → failingEnv.run i = none) ∧
    hasExec (callUniversalTranslator id onlineConfig (holaEnv 2)
      (callUniversalTranslator id onlineConfig failingEnv emptyState
        "hello".toList "es".toList).st "hello".toList "es".toList).trace = true :=
  ⟨fun _ _ => rfl,
    (failure_leaves_cache id onlineConfig failingEnv (holaEnv 2) emptyState
      "hello".toList "es".toList (by decide) (Or.inr (by decide)) rfl
      (fun _ _ => rfl)).2.2.2⟩

/-- The trace of a call that reaches the retry loop. -/
theorem call_online_trace (u : Char → Char) (cfg : Config) (env : Env) (st : State)
    (text lang : Str) (ht : trimSpace text ≠ [])
    (hm : cfg.forceFlag = true ∨
      cacheLookup st.cacheData lang (toLower u (trimSpace text)) = none)
    (ho : cfg.isOnline = true) :
    (callUniversalTranslator u cfg env st text lang).trace =
      [Event.lock, Event.unlock] ++
        failedAttempts (Event.exec cfg.engine cfg.sourceLang (replaceAll lang ['_'] ['-'])
          (protectVariables (trimSpace text)).1) 0 (leadingFailures env.run 3 0) ++
        (if leadingFailures env.run 3 0 < 3 then
          [Event.exec cfg.engine cfg.sourceLang (replaceAll lang ['_'] ['-'])
            (protectVariables (trimSpace text)).1, Event.lock,
            if nilUnder st.cacheData lang = true then Event.panic else Event.unlock]
        else []) := by
  have hle := leadingFailures_le env.run 3 0
  by_cases hk : leadingFailures env.run 3 0 < 3
  · obtain ⟨o, hrun⟩ := (leadingFailures_spec env.run 3 0).2 hk
    rw [Nat.zero_add] at hrun
    cases hn : nilUnder st.cacheData lang with
    | false =>
      rw [call_online_success u cfg env st text lang o ht hm ho hn hk hrun]
      simp [hk]
    | true =>
      rw [call_online_panic u cfg env st text lang o ht hm ho hn hk hrun]
      simp [hk]
  · have hk3 : leadingFailures env.run 3 0 = 3 := by omega
    rw [call_online_fail u cfg env st text lang ht hm ho hk3]
    simp [hk3]

/-- C17, counterexample: online, with an empty cache, the translator exits successfully and
prints only white space; the call for `hello` makes one attempt, does not retry, returns the
empty string and stores it in the cache. -/
theorem blank_output_accepted :
    trimSpace "hello".toList ≠ [] ∧
    blankOutputEnv.run 0 = some " \n".toList ∧
    execCount (callUniversalTranslator id onlineConfig blankOutputEnv emptyState
      "hello".toList "es".toList).trace = 1 ∧
    (callUniversalTranslator id onlineConfig blankOutputEnv emptyState
      "hello".toList "es".toList).ret = [] ∧
    cacheLookup (callUniversalTranslator id onlineConfig blankOutputEnv emptyState
      "hello".toList "es".toList).st.cacheData "es".toList "hello".toList = some ⟨[], 7⟩ := by
  decide

/-- C17, amended: an external call that exits successfully is taken as the successful attempt
whatever it printed; only a call that returns an error is retried, under the 3-attempt
limit.  On a cache miss (or with the cache bypassed) while online, the cache not holding the
nil map under `lang`, when the first attempt exits successfully with empty or
white-space-only output, `callUniversalTranslator` makes that one attempt and no other,
sleeps for no backoff, returns the empty string as the translation and stores it in the
cache, increments `netCalls` and leaves `failedCalls` unchanged. -/
theorem blank_output_is_result (u : Char → Char) (cfg : Config) (env : Env) (st : State)
    (text lang o : Str) (ht : trimSpace text ≠ [])
    (hm : cfg.forceFlag = true ∨
      cacheLookup st.cacheData lang (toLower u (trimSpace text)) = none)
    (ho : cfg.isOnline = true) (hn : nilUnder st.cacheData lang = false)
    (h0 : env.run 0 = some o) (hblank : trimSpace o = [])
    (hord : (env.order (protectVariables (trimSpace text)).2).Perm
      (protectVariables (trimSpace text)).2) :
    (callUniversalTranslator u cfg env st text lang).trace.contains Event.panic = false ∧
    execCount (callUniversalTranslator u cfg env st text lang).trace = 1 ∧
    sleepsOf (callUniversalTranslator u cfg env st text lang).trace = [] ∧
    (callUniversalTranslator u cfg env st text lang).ret = [] ∧
    cacheLookup (callUniversalTranslator u cfg env st text lang).st.cacheData lang
      (toLower u (trimSpace text)) = some ⟨[], env.now⟩ ∧
    (callUniversalTranslator u cfg env st text lang).st.netCalls = st.netCalls + 1 ∧
    (callUniversalTranslator u cfg env st text lang).st.failedCalls = st.failedCalls := by
  have hk : leadingFailures env.run 3 0 = 0 := by
    simp [leadingFailures, h0]
  have hres : restoreVariables (trimSpace o)
      (env.order (protectVariables (trimSpace text)).2) = [] := by
    rw [hblank]
    apply restoreVariables_nil
    intro kv hkv
    have h1 : kv ∈ tokEntries 0 (findAllString (trimSpace text)) := by
      rw [← protectVariables_snd]; exact hord.mem_iff.mp hkv
    obtain ⟨j, _, hj⟩ := mem_tokEntries h1
    rw [hj]
    exact token_ne_nil j
  rw [call_online_success u cfg env st text lang o ht hm ho hn (by omega)
    (by rw [hk]; exact h0), hk, hres]
  refine ⟨rfl, rfl, rfl, rfl, cacheLookup_withEntry_same _ _ _ _, rfl, rfl⟩

/-- C17, witness: online, with an empty cache and a translator that prints only white space,
the call for `hello` returns the empty string after one attempt. -/
theorem blank_output_is_result_hello :
    blankOutputEnv.run 0 = some " \n".toList ∧ trimSpace " \n".toList = [] ∧
    execCount (callUniversalTranslator id onlineConfig blankOutputEnv emptyState
      "hello".toList "es".toList).trace = 1 ∧
    (callUniversalTranslator id onlineConfig blankOutputEnv emptyState
      "hello".toList "es".toList).ret = [] :=
  ⟨rfl, by decide,
    (blank_output_is_result id onlineConfig blankOutputEnv emptyState "hello".toList
      "es".toList " \n".toList (by decide) (Or.inr (by decide)) rfl (by decide) rfl
      (by decide) (List.Perm.refl _)).2.1,
    (blank_output_is_result id onlineConfig blankOutputEnv emptyState "hello".toList
      "es".toList " \n".toList (by decide) (Or.inr (by decide)) rfl (by decide) rfl
      (by decide) (List.Perm.refl _)).2.2.2.1⟩

/-- C18: in a call that reaches the retry loop (the text is not blank, the cache gives no
hit, the run is online), `k ≤ 3` being the number of attempts that fail before the first
success, the trace after the first critical section is `k` times a run of the command
followed by a sleep, the sleep after the `i`-th failed attempt being of exactly `i` seconds,
and then, when `k < 3`, the successful run and the second critical section (which the store
ends with a panic when the cache holds the nil map under `lang`).  So the sleeps are of 1,
2, ..., `k` seconds in this order: one second before the second attempt, two before the
third. -/
theorem backoff_delays (u : Char → Char) (cfg : Config) (env : Env) (st : State)
    (text lang : Str) (ht : trimSpace text ≠ [])
    (hm : cfg.forceFlag = true ∨
      cacheLookup st.cacheData lang (toLower u (trimSpace text)) = none)
    (ho : cfg.isOnline = true) :
    leadingFailures env.run 3 0 ≤ 3 ∧
    (callUniversalTranslator u cfg env st text lang).trace =
      [Event.lock, Event.unlock] ++
        failedAttempts (Event.exec cfg.engine cfg.sourceLang (replaceAll lang ['_'] ['-'])
          (protectVariables (trimSpace text)).1) 0 (leadingFailures env.run 3 0) ++
        (if leadingFailures env.run 3 0 < 3 then
          [Event.exec cfg.engine cfg.sourceLang (replaceAll lang ['_'] ['-'])
            (protectVariables (trimSpace text)).1, Event.lock,
            if nilUnder st.cacheData lang = true then Event.panic else Event.unlock]
        else []) ∧
    sleepsOf (callUniversalTranslator u cfg env st text lang).trace =
      List.range' 1 (leadingFailures env.run 3 0) ∧
    (∀ i, i < leadingFailures env.run 3 0 →
      (sleepsOf (callUniversalTranslator u cfg env st text lang).trace)[i]? = some (i + 1)) := by
  have hle := leadingFailures_le env.run 3 0
  have htrace := call_online_trace u cfg env st text lang ht hm ho
  have hsl : sleepsOf (callUniversalTranslator u cfg env st text lang).trace =
      List.range' 1 (leadingFailures env.run 3 0) := by
    rw [htrace, sleepsOf_append, sleepsOf_append, sleepsOf_failedAttempts]
    by_cases hk : leadingFailures env.run 3 0 < 3 <;>
      cases hn : nilUnder st.cacheData lang <;> simp [hk, sleepsOf]
  refine ⟨hle, htrace, hsl, fun i hi => ?_⟩
  rw [hsl, List.getElem?_range' _ _ hi]
  simp [Nat.add_comm]

/-- C18, witness: the translator fails twice and then succeeds; the sleeps are of one and of
two seconds. -/
theorem backoff_delays_flaky :
    sleepsOf (callUniversalTranslator id onlineConfig flakyEnv emptyState
      "hello".toList "es".toList).trace = [1, 2] :=
  (backoff_delays id onlineConfig flakyEnv emptyState "hello".toList "es".toList
    (by decide) (Or.inr (by decide)) rfl).2.2.1

/-- C20: the cache mutex `mu` is never held while `callUniversalTranslator` runs the external
command or sleeps for backoff.  On every path the trace of the call keeps the discipline of
`mutexFree`: `mu` is locked only when free and unlocked only when held, every run of the
command and every sleep happens while `mu` is free (after the first critical section has
been left, and before the second one, which comes only after the retry loop, is entered),
and `mu` is free when the function returns (a panic of the store ends the process inside the
second critical section, after the retry loop). -/
theorem mutex_not_held_across_attempts (u : Char → Char) (cfg : Config) (env : Env)
    (st : State) (text lang : Str) :
    mutexFree false (callUniversalTranslator u cfg env st text lang).trace = true := by
  by_cases ht : trimSpace text = []
  · rw [call_blank u cfg env st text lang ht]; rfl
  · by_cases hm : cfg.forceFlag = true ∨
        cacheLookup st.cacheData lang (toLower u (trimSpace text)) = none
    · cases ho : cfg.isOnline with
      | false => rw [call_offline u cfg env st text lang ht hm ho]; rfl
      | true =>
        rw [call_online_trace u cfg env st text lang ht hm ho]
        show mutexFree false (failedAttempts _ 0 (leadingFailures env.run 3 0) ++ _) = true
        rw [mutexFree_failedAttempts]
        by_cases hk : leadingFailures env.run 3 0 < 3 <;>
          cases hn : nilUnder st.cacheData lang <;> simp [hk, mutexFree]
    · have hf : cfg.forceFlag = false := by
        cases h : cfg.forceFlag with
        | false => rfl
        | true => exact absurd (Or.inl h) hm
      obtain ⟨e, he⟩ : ∃ e, cacheLookup st.cacheData lang (toLower u (trimSpace text)) =
          some e := by
        cases h : cacheLookup st.cacheData lang (toLower u (trimSpace text)) with
        | none => exact absurd (Or.inr h) hm
        | some e => exact ⟨e, rfl⟩
      rw [call_hit u cfg env st text lang e ht hf he]; rfl

theorem trimSpace_wrapped (w1 t w2 : Str) (hw : ∀ c ∈ w1 ++ w2, isSpace c = true)
    (ht : ∀ c, t.head? = some c ∨ t.getLast? = some c → isSpace c = false) :
    trimSpace (w1 ++ (t ++ w2)) = t := by
  unfold trimSpace
  exact trim_core isSpace w1 t w2 (fun c hc => hw c (by simp [hc]))
    (fun c hc => hw c (by simp [hc])) (fun c hc => ht c (Or.inl hc))
    (fun c hc => ht c (Or.inr hc))

theorem stripQuoteLayer_bare (t : Str)
    (ht : ∀ c, t.head? = some c → c ≠ '"') : V1_5_7.stripQuoteLayer t = t := by
  unfold V1_5_7.stripQuoteLayer
  split
  · rename_i rest
    exact absurd rfl (ht '"' rfl)
  · rfl

theorem stripQuoteLayer_quoted (t : Str) :
    V1_5_7.stripQuoteLayer ('"' :: (t ++ ['"'])) = t := by
  simp [V1_5_7.stripQuoteLayer]

/-! ## Claim on the normalisation of v1.5.7 -/

/-- C11, counterexample: for ` "Hello" ` (quotes inside the white space) `normalizeText`
gives `"hello"`, quotes kept, where the reference gives `hello`; for `""a""` (two layers of
quotes) `normalizeText` gives `a` where the reference gives `"a"`. -/
theorem normalizeText_differs :
    V1_5_7.normalizeText id " \"Hello\" ".toList = "\"hello\"".toList ∧
    V1_5_7.referenceNormalize id " \"Hello\" ".toList = "hello".toList ∧
    V1_5_7.normalizeText id "\"\"a\"\"".toList = "a".toList ∧
    V1_5_7.referenceNormalize id "\"\"a\"\"".toList = "\"a\"".toList := by
  decide

/-- C11, amended: `normalizeText` removes every leading and trailing double quote first, then
the surrounding white space, then lower-cases.  It equals the reference normalisation (trim
the white space, remove one layer of enclosing double quotes, lower-case) on every text that
is a core, neither starting nor ending with a double quote or white space, either with
white space around it or enclosed in one pair of double quotes; both give the lower-cased
core. -/
theorem normalizeText_reference (u : Char → Char) (w1 core w2 : Str)
    (hw : ∀ c ∈ w1 ++ w2, isSpace c = true)
    (hcore : ∀ c, core.head? = some c ∨ core.getLast? = some c →
      c ≠ '"' ∧ isSpace c = false) :
    V1_5_7.normalizeText u (w1 ++ (core ++ w2)) =
      V1_5_7.referenceNormalize u (w1 ++ (core ++ w2)) ∧
    V1_5_7.normalizeText u (w1 ++ (core ++ w2)) = toLower u core ∧
    V1_5_7.normalizeText u ('"' :: (core ++ ['"'])) =
      V1_5_7.referenceNormalize u ('"' :: (core ++ ['"'])) ∧
    V1_5_7.normalizeText u ('"' :: (core ++ ['"'])) = toLower u core := by
  have h1 : V1_5_7.normalizeText u (w1 ++ (core ++ w2)) = toLower u core := by
    have := normalizeText_wrapped u [] w1 core w2 [] (by simp) hw hcore
    simpa using this
  have h2 : V1_5_7.referenceNormalize u (w1 ++ (core ++ w2)) = toLower u core := by
    unfold V1_5_7.referenceNormalize
    rw [trimSpace_wrapped w1 core w2 hw (fun c hc => (hcore c hc).2),
      stripQuoteLayer_bare core (fun c hc => (hcore c (Or.inl hc)).1)]
  have h3 : V1_5_7.normalizeText u ('"' :: (core ++ ['"'])) = toLower u core := by
    have := normalizeText_wrapped u ['"'] [] core [] ['"'] (by simp) (by simp) hcore
    simpa using this
  have h4 : V1_5_7.referenceNormalize u ('"' :: (core ++ ['"'])) = toLower u core := by
    unfold V1_5_7.referenceNormalize
    have : trimSpace ('"' :: (core ++ ['"'])) = '"' :: (core ++ ['"']) := by
      have := trimSpace_wrapped [] ('"' :: (core ++ ['"'])) [] (by simp) (by
        intro c hc
        rcases hc with hc | hc
        · simp only [List.head?_cons, Option.some.injEq] at hc
          subst hc; exact isSpace_quote
        · rw [show '"' :: (core ++ ['"']) = ('"' :: core) ++ ['"'] by simp,
            List.getLast?_append] at hc
          simp only [List.getLast?_singleton, Option.or, Option.some.injEq] at hc
          subst hc; exact isSpace_quote)
      simpa using this
    rw [this, stripQuoteLayer_quoted]
  exact ⟨h1.trans h2.symm, h1, h3.trans h4.symm, h3⟩

/-- C11, witness: the texts `  Hello ` and `"Hello"`, both normalised to `hello`. -/
theorem normalizeText_reference_hello :
    V1_5_7.normalizeText id "  Hello ".toList =
      V1_5_7.referenceNormalize id "  Hello ".toList ∧
    V1_5_7.normalizeText id "  Hello ".toList = "hello".toList ∧
    V1_5_7.normalizeText id "\"Hello\"".toList =
      V1_5_7.referenceNormalize id "\"Hello\"".toList ∧
    V1_5_7.normalizeText id "\"Hello\"".toList = "hello".toList :=
  normalizeText_reference id [' ', ' '] "Hello".toList [' '] (by decide)
    (by
      intro c h
      simp only [String.toList, List.head?_cons, List.getLast?_cons_cons,
        List.getLast?_singleton, Option.some.injEq] at h
      rcases h with rfl | rfl <;> decide)

/-! ## Lemmas on the pruning -/

theorem mapGet_mapDelete_same {α : Type} (m : GoMap α) (k : Str) :
    mapGet (mapDelete m k) k = none := by
  induction m with
  | nil => rfl
  | cons e m ih =>
    obtain ⟨k', v⟩ := e
    by_cases h : k' = k
    · simp [mapDelete, h, ih]
    · simp [mapDelete, mapGet, h, ih]

theorem mapGet_mapDelete_other {α : Type} (m : GoMap α) (k k' : Str) (h : k' ≠ k) :
    mapGet (mapDelete m k) k' = mapGet m k' := by
  induction m with
  | nil => rfl
  | cons e m ih =>
    obtain ⟨k0, v⟩ := e
    by_cases h0 : k0 = k
    · subst h0
      simp [mapDelete, mapGet, Ne.symm h, ih]
    · simp only [mapDelete, h0, if_false, mapGet, ih]

theorem mapGet_eq_none_of_not_mem {α : Type} (m : GoMap α) (k : Str) (h : k ∉ mapKeys m) :
    mapGet m k = none := by
  induction m with
  | nil => rfl
  | cons e m ih =>
    obtain ⟨k', v⟩ := e
    simp only [mapKeys, List.map_cons, List.mem_cons, not_or] at h
    simp only [mapGet, Ne.symm h.1, if_false]
    exact ih h.2

theorem keepFresh_idem (limit : Int) (e : Option CacheEntry) :
    keepFresh limit (keepFresh limit e) = keepFresh limit e := by
  cases e with
  | none => rfl
  | some e =>
    by_cases h : e.LastUsed < limit <;> simp [keepFresh, h]

theorem cleanEntries_get (limit : Int) (ids : List Str) (m : GoMap CacheEntry) (k : Str) :
    mapGet (cleanEntries limit ids m).1 k =
      if k ∈ ids then keepFresh limit (mapGet m k) else mapGet m k := by
  induction ids generalizing m with
  | nil => simp [cleanEntries]
  | cons id ids ih =>
    unfold cleanEntries
    cases hg : mapGet m id with
    | none =>
      simp only
      rw [ih m]
      by_cases hk : k = id
      · subst hk
        simp [hg, keepFresh]
      · simp [hk]
    | some e =>
      simp only
      by_cases hs : e.LastUsed < limit
      · simp only [hs, if_true]
        rw [ih (mapDelete m id)]
        by_cases hk : k = id
        · subst hk
          simp [mapGet_mapDelete_same, hg, keepFresh, hs]
        · simp [hk, mapGet_mapDelete_other _ _ _ hk]
      · simp only [hs, if_false]
        rw [ih m]
        by_cases hk : k = id
        · subst hk
          simp [hg, keepFresh, hs]
        · simp [hk]

theorem cleanEntries_visit (limit : Int) (visit : List Str → List Str)
    (hvisit : ∀ ks, (visit ks).Perm ks) (m : GoMap CacheEntry) (k : Str) :
    mapGet (cleanEntries limit (visit (mapKeys m)) m).1 k = keepFresh limit (mapGet m k) := by
  rw [cleanEntries_get]
  by_cases hk : k ∈ visit (mapKeys m)
  · simp [hk]
  · have : k ∉ mapKeys m := fun h => hk ((hvisit _).mem_iff.mpr h)
    simp [hk, mapGet_eq_none_of_not_mem m k this, keepFresh]

theorem cleanLangs_get (limit : Int) (visit : List Str → List Str)
    (hvisit : ∀ ks, (visit ks).Perm ks) (ls : List Str) (c : Cache) (l k : Str) :
    cacheLookup (some (cleanLangs limit visit ls c).1) l k =
      if l ∈ ls then keepFresh limit (cacheLookup (some c) l k)
      else cacheLookup (some c) l k := by
  induction ls generalizing c with
  | nil => simp [cleanLangs]
  | cons l0 ls ih =>
    unfold cleanLangs
    cases hg : mapGet c l0 with
    | none =>
      simp only
      rw [ih c]
      by_cases hl : l = l0
      · subst hl
        simp [cacheLookup, hg, keepFresh]
      · simp [hl]
    | some o =>
      cases o with
      | none =>
        simp only
        rw [ih c]
        by_cases hl : l = l0
        · subst hl
          simp [cacheLookup, hg, keepFresh]
        · simp [hl]
      | some inner =>
        simp only
        rw [ih]
        have hstep : cacheLookup
            (some (mapSet c l0 (some (cleanEntries limit (visit (mapKeys inner)) inner).1)))
              l k =
            if l = l0 then keepFresh limit (cacheLookup (some c) l k)
            else cacheLookup (some c) l k := by
          by_cases hl : l = l0
          · subst hl
            simp only [cacheLookup, mapGet_mapSet_same, hg, if_true]
            exact cleanEntries_visit limit visit hvisit inner k
          · simp only [cacheLookup, mapGet_mapSet_other _ _ _ _ hl, hl, if_false]
        rw [hstep]
        by_cases hl : l = l0
        · subst hl
          by_cases hin : l ∈ ls <;> simp [hin, keepFresh_idem]
        · simp [hl]

/-- The pruning makes no inner map nil and none that was nil a map. -/
theorem cleanLangs_nilUnder (limit : Int) (visit : List Str → List Str) (ls : List Str)
    (c : Cache) (l : Str) :
    nilUnder (some (cleanLangs limit visit ls c).1) l = nilUnder (some c) l := by
  induction ls generalizing c with
  | nil => simp [cleanLangs]
  | cons l0 ls ih =>
    unfold cleanLangs
    cases hg : mapGet c l0 with
    | none => simp only; rw [ih c]
    | some o =>
      cases o with
      | none => simp only; rw [ih c]
      | some inner =>
        simp only
        rw [ih]
        unfold nilUnder
        by_cases hl : l = l0
        · subst hl; simp [mapGet_mapSet_same, hg]
        · simp [mapGet_mapSet_other _ _ _ _ hl]

/-- After `doCleanCache` the lookup of a key finds what the pruning at the limit
`time.Now().AddDate(0, 0, -30)` leaves of its entry. -/
theorem doCleanCache_get (now zoneShift : Int) (visit : List Str → List Str)
    (hvisit : ∀ ks, (visit ks).Perm ks) (st : State) (l k : Str) :
    cacheLookup (doCleanCache now zoneShift visit st).1.cacheData l k =
      keepFresh (now - 30 * day + zoneShift) (cacheLookup st.cacheData l k) := by
  have hlim : addDate zoneShift now (-30) = now - 30 * day + zoneShift := by
    unfold addDate; ring
  unfold doCleanCache
  rw [hlim]
  cases hc : st.cacheData with
  | none => simp [cacheLookup, keepFresh, hc]
  | some c =>
    simp only
    rw [cleanLangs_get _ visit hvisit]
    by_cases hl : l ∈ visit (mapKeys c)
    · simp [hl]
    · have : l ∉ mapKeys c := fun h => hl ((hvisit _).mem_iff.mpr h)
      simp [hl, cacheLookup, mapGet_eq_none_of_not_mem c l this, keepFresh]

/-! ## Claim on the pruning of v2.1.19 -/

/-- C12: for every cache state and every current time `now`, whatever the order in which the
maps are visited, `doCleanCache` removes exactly the entries whose `LastUsed` is before the
limit `time.Now().AddDate(0, 0, -30)` and leaves every other entry present with unchanged
`Value` and `LastUsed`; it creates no entry and leaves the counters as they were.  The limit
is the instant at which the clock on the wall read, 30 days earlier, what it reads now: `now`
minus 30 days of 24 hours, plus `zoneShift`, the difference of the offsets of the time zone at
the two instants, which is zero unless a change to or from summer time lies between them.
Whatever that difference (it is far less than a day), an entry last used 31 days ago or
earlier is removed and an entry last used 29 days ago or later, such as one used 1 day ago,
is kept. -/
theorem doCleanCache_prunes (now zoneShift : Int) (visit : List Str → List Str)
    (hvisit : ∀ ks, (visit ks).Perm ks) (st : State) :
    addDate 0 now (-30) = now - 30 * day ∧
    addDate zoneShift now (-30) = now - 30 * day + zoneShift ∧
    (∀ l k e, cacheLookup st.cacheData l k = some e →
      e.LastUsed < now - 30 * day + zoneShift →
      cacheLookup (doCleanCache now zoneShift visit st).1.cacheData l k = none) ∧
    (∀ l k e, cacheLookup st.cacheData l k = some e →
      ¬ e.LastUsed < now - 30 * day + zoneShift →
      cacheLookup (doCleanCache now zoneShift visit st).1.cacheData l k = some e) ∧
    (∀ l k, cacheLookup st.cacheData l k = none →
      cacheLookup (doCleanCache now zoneShift visit st).1.cacheData l k = none) ∧
    (- day < zoneShift → zoneShift < day →
      ∀ l k e, cacheLookup st.cacheData l k = some e →
        (e.LastUsed ≤ now - 31 * day →
          cacheLookup (doCleanCache now zoneShift visit st).1.cacheData l k = none) ∧
        (now - 29 * day ≤ e.LastUsed →
          cacheLookup (doCleanCache now zoneShift visit st).1.cacheData l k = some e)) ∧
    (doCleanCache now zoneShift visit st).1.cacheHits = st.cacheHits ∧
    (doCleanCache now zoneShift visit st).1.netCalls = st.netCalls ∧
    (doCleanCache now zoneShift visit st).1.failedCalls = st.failedCalls := by
  have main := doCleanCache_get now zoneShift visit hvisit st
  refine ⟨by unfold addDate; ring, by unfold addDate; ring, fun l k e he hs => ?_,
    fun l k e he hs => ?_, fun l k he => ?_, fun hz1 hz2 l k e he => ⟨fun hs => ?_,
    fun hs => ?_⟩, ?_, ?_, ?_⟩
  · rw [main, he]; simp [keepFresh, hs]
  · rw [main, he]; simp [keepFresh, hs]
  · rw [main, he]; rfl
  · have h : e.LastUsed < now - 30 * day + zoneShift := by omega
    rw [main, he]; simp [keepFresh, h]
  · have h : ¬ e.LastUsed < now - 30 * day + zoneShift := by omega
    rw [main, he]; simp [keepFresh, h]
  · unfold doCleanCache; cases st.cacheData <;> rfl
  · unfold doCleanCache; cases st.cacheData <;> rfl
  · unfold doCleanCache; cases st.cacheData <;> rfl

/-- C12, witness: at the instant of 40 days, in a zone whose offset did not change, the limit
is the instant of 10 days; of the two entries last used 31 days ago and 1 day ago the first
is removed and the second is kept. -/
theorem doCleanCache_prunes_two :
    cacheLookup twoEntryState.cacheData "es".toList "old".toList =
      some ⟨"a".toList, 40 * day - 31 * day⟩ ∧
    cacheLookup twoEntryState.cacheData "es".toList "new".toList =
      some ⟨"b".toList, 40 * day - 1 * day⟩ ∧
    40 * day - 31 * day < 40 * day - 30 * day + 0 ∧
    ¬ 40 * day - 1 * day < 40 * day - 30 * day + 0 ∧
    cacheLookup (doCleanCache (40 * day) 0 id twoEntryState).1.cacheData
      "es".toList "old".toList = none ∧
    cacheLookup (doCleanCache (40 * day) 0 id twoEntryState).1.cacheData
      "es".toList "new".toList = some ⟨"b".toList, 40 * day - 1 * day⟩ :=
  ⟨by decide, by decide, by decide, by decide,
    (doCleanCache_prunes (40 * day) 0 id (fun _ => List.Perm.refl _)
      twoEntryState).2.2.1 "es".toList "old".toList ⟨"a".toList, 40 * day - 31 * day⟩
      (by decide) (by decide),
    (doCleanCache_prunes (40 * day) 0 id (fun _ => List.Perm.refl _)
      twoEntryState).2.2.2.1 "es".toList "new".toList ⟨"b".toList, 40 * day - 1 * day⟩
      (by decide) (by decide)⟩

/-! ## Lemmas on `runTranslationLoop` -/

theorem holders_setPhase (ps : List Phase) (i : Nat) (p q : Phase)
    (h : getPhase ps i = some p) :
    holders (setPhase ps i q) + (if holdsSlot p then 1 else 0) =
      holders ps + (if holdsSlot q then 1 else 0) := by
  induction ps generalizing i with
  | nil => simp [getPhase] at h
  | cons x ps ih =>
    cases i with
    | zero =>
      simp only [getPhase, Option.some.injEq] at h
      subst h
      simp only [setPhase, holders, List.countP_cons]
      omega
    | succ i =>
      simp only [getPhase] at h
      have := ih i h
      simp only [setPhase, holders, List.countP_cons] at this ⊢
      omega

theorem holders_pos (ps : List Phase) (i : Nat) (p : Phase) (h : getPhase ps i = some p)
    (hp : holdsSlot p = true) : 0 < holders ps := by
  induction ps generalizing i with
  | nil => simp [getPhase] at h
  | cons x ps ih =>
    cases i with
    | zero =>
      simp only [getPhase, Option.some.injEq] at h
      subst h
      simp [holders, List.countP_cons, hp]
    | succ i =>
      simp only [getPhase] at h
      have := ih i h
      simp only [holders, List.countP_cons] at this ⊢
      omega

theorem inFlight_le_holders (ps : List Phase) : inFlight ps ≤ holders ps := by
  induction ps with
  | nil => simp [inFlight, holders]
  | cons x ps ih =>
    simp only [inFlight, holders, List.countP_cons] at ih ⊢
    cases x with
    | translating b => cases b <;> simp [holdsSlot] <;> omega
    | waiting => simpa [holdsSlot] using ih
    | counted => simp [holdsSlot]; omega
    | done => simpa [holdsSlot] using ih

theorem holders_initSched (targetLangs : List Str) : holders (initSched targetLangs).phases = 0 := by
  induction targetLangs with
  | nil => rfl
  | cons l ls ih =>
    simp only [initSched, List.map_cons, holders, List.countP_cons] at ih ⊢
    simp [holdsSlot, ih]

/-- Every step keeps the channel as long as the number of workers that hold a slot, and
within its capacity. -/
theorem schedStep_inv (jobs : Nat) (s s' : Sched) (a : Action)
    (hstep : schedStep jobs s a = some s')
    (hinv : s.sem = holders s.phases ∧ s.sem ≤ jobs) :
    s'.sem = holders s'.phases ∧ s'.sem ≤ jobs := by
  obtain ⟨h1, h2⟩ := hinv
  cases a with
  | acquire i =>
    simp only [schedStep] at hstep
    split at hstep
    · rename_i hc
      simp only [Option.some.injEq] at hstep
      subst hstep
      have := holders_setPhase s.phases i _ (Phase.translating false) hc.1
      simp only [holdsSlot] at this
      simp only
      constructor <;> simp at this <;> omega
    · exact absurd hstep (by simp)
  | startCall i =>
    simp only [schedStep] at hstep
    split at hstep
    · rename_i hc
      simp only [Option.some.injEq] at hstep
      subst hstep
      have := holders_setPhase s.phases i _ (Phase.translating true) hc
      simp only [holdsSlot] at this
      simp only
      constructor <;> omega
    · exact absurd hstep (by simp)
  | endCall i =>
    simp only [schedStep] at hstep
    split at hstep
    · rename_i hc
      simp only [Option.some.injEq] at hstep
      subst hstep
      have := holders_setPhase s.phases i _ (Phase.translating false) hc
      simp only [holdsSlot] at this
      simp only
      constructor <;> omega
    · exact absurd hstep (by simp)
  | finish i =>
    simp only [schedStep] at hstep
    split at hstep
    · rename_i hc
      simp only [Option.some.injEq] at hstep
      subst hstep
      have := holders_setPhase s.phases i _ Phase.counted hc
      simp only [holdsSlot] at this
      simp only
      constructor <;> omega
    · exact absurd hstep (by simp)
  | release i =>
    simp only [schedStep] at hstep
    split at hstep
    · rename_i hc
      simp only [Option.some.injEq] at hstep
      subst hstep
      have := holders_setPhase s.phases i _ Phase.done hc.1
      simp only [holdsSlot] at this
      simp only
      have := hc.2
      constructor <;> simp at * <;> omega
    · exact absurd hstep (by simp)
  | handOver i j =>
    simp only [schedStep] at hstep
    split at hstep
    · rename_i hc
      have := holders_pos s.phases j _ hc.2.2 rfl
      omega
    · exact absurd hstep (by simp)

theorem schedRun_inv (jobs : Nat) (acts : List Action) (s s' : Sched)
    (hrun : schedRun jobs s acts = some s')
    (hinv : s.sem = holders s.phases ∧ s.sem ≤ jobs) :
    s'.sem = holders s'.phases ∧ s'.sem ≤ jobs := by
  induction acts generalizing s with
  | nil =>
    simp only [schedRun, Option.some.injEq] at hrun
    subst hrun
    exact hinv
  | cons a acts ih =>
    simp only [schedRun] at hrun
    cases hs : schedStep jobs s a with
    | none => rw [hs] at hrun; exact absurd hrun (by simp)
    | some s1 =>
      rw [hs] at hrun
      exact ih s1 hrun (schedStep_inv jobs s s1 a hs hinv)

/-! ## Claim on the job scheduler of v2.1.19 -/

/-- C19: for every list of target languages and every channel capacity `jobs`, in every state
that `runTranslationLoop` reaches, by whatever interleaving of the steps of its workers, the
workers between acquiring and releasing the semaphore are as many as the elements of the
channel and at most `jobs`, hence the runs of the external translator in flight are at most
`jobs`. -/
theorem semaphore_bounds_workers (jobs : Nat) (targetLangs : List Str) (acts : List Action)
    (s : Sched) (hrun : schedRun jobs (initSched targetLangs) acts = some s) :
    holders s.phases ≤ jobs ∧ inFlight s.phases ≤ jobs ∧ s.sem = holders s.phases := by
  have h0 : (initSched targetLangs).sem = holders (initSched targetLangs).phases ∧
      (initSched targetLangs).sem ≤ jobs := by
    rw [holders_initSched]
    exact ⟨rfl, Nat.zero_le _⟩
  obtain ⟨h1, h2⟩ := schedRun_inv jobs acts _ s hrun h0
  have h3 := inFlight_le_holders s.phases
  omega

/-- C19, witness: ten languages and a job limit of 4; after four workers have acquired a slot
and started a run of the translator, four runs are in flight, and a fifth worker blocks at
its send. -/
theorem semaphore_bounds_workers_four :
    schedRun 4 (initSched (List.replicate 10 "xx".toList))
      [Action.acquire 0, Action.acquire 1, Action.acquire 2, Action.acquire 3,
        Action.startCall 0, Action.startCall 1, Action.startCall 2, Action.startCall 3] =
      some ⟨[Phase.translating true, Phase.translating true, Phase.translating true,
        Phase.translating true, Phase.waiting, Phase.waiting, Phase.waiting, Phase.waiting,
        Phase.waiting, Phase.waiting], 4, 0⟩ ∧
    schedStep 4 ⟨[Phase.translating true, Phase.translating true, Phase.translating true,
        Phase.translating true, Phase.waiting, Phase.waiting, Phase.waiting, Phase.waiting,
        Phase.waiting, Phase.waiting], 4, 0⟩ (Action.acquire 4) = none ∧
    inFlight [Phase.translating true, Phase.translating true, Phase.translating true,
        Phase.translating true, Phase.waiting, Phase.waiting, Phase.waiting, Phase.waiting,
        Phase.waiting, Phase.waiting] ≤ 4 :=
  ⟨by decide, by decide,
    (semaphore_bounds_workers 4 (List.replicate 10 "xx".toList)
      [Action.acquire 0, Action.acquire 1, Action.acquire 2, Action.acquire 3,
        Action.startCall 0, Action.startCall 1, Action.startCall 2, Action.startCall 3]
      ⟨[Phase.translating true, Phase.translating true, Phase.translating true,
        Phase.translating true, Phase.waiting, Phase.waiting, Phase.waiting, Phase.waiting,
        Phase.waiting, Phase.waiting], 4, 0⟩ (by decide)).2.1⟩

/-! ## Lemmas on the counters and on the frame of a call -/

theorem lookup_isSome_of_not_miss {cfg : Config} {c : Option CacheEntry}
    (hm : ¬ (cfg.forceFlag = true ∨ c = none)) : cfg.forceFlag = false ∧ c.isSome = true := by
  constructor
  · cases h : cfg.forceFlag with
    | false => rfl
    | true => exact absurd (Or.inl h) hm
  · cases h : c with
    | none => exact absurd (Or.inr h) hm
    | some e => rfl

/-! ## Claims on the counters and on the frame of `callUniversalTranslator` -/

/-- C26: every call of `callUniversalTranslator` changes the statistics counters in exactly
one of four ways, decided by the situation of the call: a cache hit (the text is not blank,
the cache is not bypassed and holds the key) adds one to `cacheHits` only; a successful
external translation (no hit, online, one of the three attempts succeeds) adds one to
`netCalls` only; exhausted retries (no hit, online, the three attempts fail) add one to
`failedCalls` only; a blank text, or no hit while offline, changes no counter.  No counter
decreases. -/
theorem counters_change_one_way (u : Char → Char) (cfg : Config) (env : Env) (st : State)
    (text lang : Str) :
    let r := callUniversalTranslator u cfg env st text lang
    let noHit := cfg.forceFlag = true ∨
      cacheLookup st.cacheData lang (toLower u (trimSpace text)) = none
    ((trimSpace text ≠ [] ∧ ¬ noHit ∧
        r.st.cacheHits = st.cacheHits + 1 ∧ r.st.netCalls = st.netCalls ∧
        r.st.failedCalls = st.failedCalls) ∨
      (trimSpace text ≠ [] ∧ noHit ∧ cfg.isOnline = true ∧
        (∃ i, i < 3 ∧ (env.run i).isSome = true) ∧
        r.st.cacheHits = st.cacheHits ∧ r.st.netCalls = st.netCalls + 1 ∧
        r.st.failedCalls = st.failedCalls) ∨
      (trimSpace text ≠ [] ∧ noHit ∧ cfg.isOnline = true ∧
        (∀ i, i < 3 → env.run i = none) ∧
        r.st.cacheHits = st.cacheHits ∧ r.st.netCalls = st.netCalls ∧
        r.st.failedCalls = st.failedCalls + 1) ∨
      ((trimSpace text = [] ∨ (noHit ∧ cfg.isOnline = false)) ∧
        r.st.cacheHits = st.cacheHits ∧ r.st.netCalls = st.netCalls ∧
        r.st.failedCalls = st.failedCalls)) ∧
    st.cacheHits ≤ r.st.cacheHits ∧ st.netCalls ≤ r.st.netCalls ∧
    st.failedCalls ≤ r.st.failedCalls := by
  intro r noHit
  have key : (trimSpace text ≠ [] ∧ ¬ noHit ∧
        r.st.cacheHits = st.cacheHits + 1 ∧ r.st.netCalls = st.netCalls ∧
        r.st.failedCalls = st.failedCalls) ∨
      (trimSpace text ≠ [] ∧ noHit ∧ cfg.isOnline = true ∧
        (∃ i, i < 3 ∧ (env.run i).isSome = true) ∧
        r.st.cacheHits = st.cacheHits ∧ r.st.netCalls = st.netCalls + 1 ∧
        r.st.failedCalls = st.failedCalls) ∨
      (trimSpace text ≠ [] ∧ noHit ∧ cfg.isOnline = true ∧
        (∀ i, i < 3 → env.run i = none) ∧
        r.st.cacheHits = st.cacheHits ∧ r.st.netCalls = st.netCalls ∧
        r.st.failedCalls = st.failedCalls + 1) ∨
      ((trimSpace text = [] ∨ (noHit ∧ cfg.isOnline = false)) ∧
        r.st.cacheHits = st.cacheHits ∧ r.st.netCalls = st.netCalls ∧
        r.st.failedCalls = st.failedCalls) := by
    by_cases ht : trimSpace text = []
    · right; right; right
      rw [show r = _ from call_blank u cfg env st text lang ht]
      exact ⟨Or.inl ht, rfl, rfl, rfl⟩
    · by_cases hm : noHit
      · cases ho : cfg.isOnline with
        | false =>
          right; right; right
          rw [show r = _ from call_offline u cfg env st text lang ht hm ho]
          exact ⟨Or.inr ⟨hm, rfl⟩, rfl, rfl, rfl⟩
        | true =>
          have hle := leadingFailures_le env.run 3 0
          have hspec := leadingFailures_spec env.run 3 0
          by_cases hk : leadingFailures env.run 3 0 < 3
          · right; left
            obtain ⟨o, hrun⟩ := hspec.2 hk
            rw [Nat.zero_add] at hrun
            cases hn : nilUnder st.cacheData lang with
            | false =>
              rw [show r = _ from
                call_online_success u cfg env st text lang o ht hm ho hn hk hrun]
              exact ⟨ht, hm, rfl, ⟨_, hk, by rw [hrun]; rfl⟩, rfl, rfl, rfl⟩
            | true =>
              rw [show r = _ from
                call_online_panic u cfg env st text lang o ht hm ho hn hk hrun]
              exact ⟨ht, hm, rfl, ⟨_, hk, by rw [hrun]; rfl⟩, rfl, rfl, rfl⟩
          · right; right; left
            have hk3 : leadingFailures env.run 3 0 = 3 := by omega
            rw [show r = _ from call_online_fail u cfg env st text lang ht hm ho hk3]
            refine ⟨ht, hm, rfl, fun i hi => ?_, rfl, rfl, rfl⟩
            have := hspec.1 i (by omega)
            rwa [Nat.zero_add] at this
      · left
        obtain ⟨hf, hs⟩ := lookup_isSome_of_not_miss hm
        obtain ⟨e, he⟩ := Option.isSome_iff_exists.mp hs
        rw [show r = _ from call_hit u cfg env st text lang e ht hf he]
        exact ⟨ht, hm, rfl, rfl, rfl⟩
  refine ⟨key, ?_⟩
  rcases key with ⟨_, _, h1, h2, h3⟩ | ⟨_, _, _, _, h1, h2, h3⟩ | ⟨_, _, _, _, h1, h2, h3⟩ |
    ⟨_, h1, h2, h3⟩ <;> omega

/-- C27: a call of `callUniversalTranslator` deletes no cache entry, and the entry under any
language and key other than the language of the call and the lower-cased trimmed text is
after the call what it was before (present with the same `Value` and `LastUsed`, or
absent). -/
theorem call_frame (u : Char → Char) (cfg : Config) (env : Env) (st : State)
    (text lang l k : Str) :
    ((cacheLookup st.cacheData l k).isSome = true →
      (cacheLookup (callUniversalTranslator u cfg env st text lang).st.cacheData l k).isSome
        = true) ∧
    (l ≠ lang ∨ k ≠ toLower u (trimSpace text) →
      cacheLookup (callUniversalTranslator u cfg env st text lang).st.cacheData l k =
        cacheLookup st.cacheData l k) := by
  have hc := call_cases u cfg env st text lang
  simp only at hc
  have hother : l ≠ lang ∨ k ≠ toLower u (trimSpace text) →
      cacheLookup (callUniversalTranslator u cfg env st text lang).st.cacheData l k =
        cacheLookup st.cacheData l k := by
    intro hlk
    rcases hc with ⟨_, _, h, _⟩ | ⟨_, _, e0, _, _, _, _, _, _, _, h⟩ | ⟨_, _, _, _, _, _, _, _, h⟩ |
      ⟨_, _, _, _, _, _, _, _, h⟩ | ⟨_, _, _, _, _, _, _, _, _, h⟩ |
      ⟨_, _, _, _, _, _, _, _, _, _, h⟩
    · rw [h]
    · exact h l k hlk
    · exact h l k
    · exact h l k
    · exact h l k hlk
    · exact h l k
  refine ⟨fun hs => ?_, hother⟩
  by_cases hlk : l ≠ lang ∨ k ≠ toLower u (trimSpace text)
  · rw [hother hlk]; exact hs
  · have h1 : l = lang := by
      by_contra h; exact hlk (Or.inl h)
    have h2 : k = toLower u (trimSpace text) := by
      by_contra h; exact hlk (Or.inr h)
    subst h1 h2
    rcases hc with ⟨_, _, h, _⟩ | ⟨_, _, e0, _, _, _, _, _, _, h, _⟩ |
      ⟨_, _, _, _, _, _, _, _, h⟩ | ⟨_, _, _, _, _, _, _, _, h⟩ |
      ⟨_, _, _, _, _, _, _, _, h, _⟩ | ⟨_, _, _, _, _, _, _, _, _, _, h⟩
    · rw [h]; exact hs
    · rw [h]; rfl
    · rw [h]; exact hs
    · rw [h]; exact hs
    · rw [h]; rfl
    · rw [h]; exact hs

/-- C27, example: with the entry `x ↦ y` under `fr` in the cache, the call for `hello` and
`es`, translated as `hola`, leaves that entry as it was. -/
theorem call_frame_hola :
    (cacheLookup frenchState.cacheData "fr".toList "x".toList).isSome = true ∧
    ("fr".toList ≠ "es".toList ∨ "x".toList ≠ toLower id (trimSpace "hello".toList)) ∧
    cacheLookup (callUniversalTranslator id onlineConfig (holaEnv 9) frenchState
      "hello".toList "es".toList).st.cacheData "fr".toList "x".toList =
      some ⟨"y".toList, 3⟩ :=
  ⟨by decide, Or.inl (by decide),
    ((call_frame id onlineConfig (holaEnv 9) frenchState "hello".toList "es".toList
      "fr".toList "x".toList).2 (Or.inl (by decide))).trans (by decide)⟩

/-! ## Lemmas on `runTranslationLoop` without slots -/

theorem getPhase_waiting (ls : List Str) (i : Nat) (p : Phase)
    (h : getPhase (ls.map (fun _ => Phase.waiting)) i = some p) : p = Phase.waiting := by
  induction ls generalizing i with
  | nil => simp [getPhase] at h
  | cons l ls ih =>
    cases i with
    | zero => simp [getPhase] at h; exact h.symm
    | succ i => exact ih i (by simpa [getPhase] using h)

/-- With a channel without buffer, no step is possible in the initial state. -/
theorem schedStep_zero_init (ls : List Str) (a : Action) :
    schedStep 0 (initSched ls) a = none := by
  have hw := getPhase_waiting ls
  cases a with
  | acquire i => simp [schedStep, initSched]
  | startCall i =>
    simp only [schedStep, initSched, ite_eq_right_iff]
    intro h; exact absurd (hw i _ h) (by simp)
  | endCall i =>
    simp only [schedStep, initSched, ite_eq_right_iff]
    intro h; exact absurd (hw i _ h) (by simp)
  | finish i =>
    simp only [schedStep, initSched, ite_eq_right_iff]
    intro h; exact absurd (hw i _ h) (by simp)
  | release i => simp [schedStep, initSched]
  | handOver i j =>
    simp only [schedStep, initSched, ite_eq_right_iff]
    intro h; exact absurd (hw j _ h.2.2) (by simp)

theorem schedRun_zero_init (ls : List Str) (acts : List Action) (s : Sched)
    (h : schedRun 0 (initSched ls) acts = some s) : acts = [] ∧ s = initSched ls := by
  cases acts with
  | nil => simp [schedRun] at h; exact ⟨rfl, h.symm⟩
  | cons a rest => simp [schedRun, schedStep_zero_init] at h

/-! ## Claim on `runTranslationLoop` with `jobs = 0` -/

/-- C30: with `jobs = 0` and at least one target language, in every state that
`runTranslationLoop` can reach every worker is still before its send on `sem`: no language
has started translating, the channel is empty, `langsDone` is 0, no step is possible, and
the loop has not completed. -/
theorem zero_jobs_never_starts (targetLangs : List Str) (acts : List Action) (s : Sched)
    (hne : targetLangs ≠ [])
    (h : schedRun 0 (initSched targetLangs) acts = some s) :
    s.phases.all (fun p => p == Phase.waiting) = true ∧ holders s.phases = 0 ∧
    s.sem = 0 ∧ s.langsDone = 0 ∧ (∀ a, schedStep 0 s a = none) ∧ completed s = false := by
  obtain ⟨_, rfl⟩ := schedRun_zero_init targetLangs acts s h
  refine ⟨?_, ?_, rfl, rfl, schedStep_zero_init targetLangs, ?_⟩
  · simp [initSched]
  · simp [initSched, holders, holdsSlot]
  · cases targetLangs with
    | nil => exact absurd rfl hne
    | cons l ls => simp [completed, initSched]

/-- C30, example: two target languages; the initial state is reachable, and there every
attempt to acquire a slot fails. -/
theorem zero_jobs_never_starts_two :
    schedRun 0 (initSched ["es".toList, "fr".toList]) [] =
      some (initSched ["es".toList, "fr".toList]) ∧
    schedRun 0 (initSched ["es".toList, "fr".toList]) [Action.acquire 0] = none ∧
    (initSched ["es".toList, "fr".toList]).langsDone = 0 ∧
    completed (initSched ["es".toList, "fr".toList]) = false :=
  ⟨rfl, by decide,
    (zero_jobs_never_starts ["es".toList, "fr".toList] [] _ (by simp) rfl).2.2.2.1,
    (zero_jobs_never_starts ["es".toList, "fr".toList] [] _ (by simp) rfl).2.2.2.2.2⟩

/-! ## Lemmas on the positional replacement -/

/-- The round trip for any order of the entries, for a text without `C` and without
`_REF_`. -/
theorem restore_protect_any_order (text : Str) (hC : 'C' ∉ text)
    (hR : ¬ refMark <:+: text) (order : List (Str × Str))
    (hperm : order.Perm (protectVariables text).2) :
    restoreVariables (protectVariables text).1 order = text := by
  have hflat := flat_false_segments text.length 0 text (le_refl _)
  have hmem : ∀ kv, kv ∈ order ↔
      ∃ j m, kv = (token j, m) ∧ Seg.tok j m ∈ segments text.length 0 text := by
    intro kv
    rw [hperm.mem_iff, protectVariables_snd]
    exact mem_tokEntries_segments _ _ _ _
  rw [protectVariables_fst text hC,
    restoreVariables_flat _ (by rw [hflat]; exact hC) (by rw [hflat]; exact hR) order]
  · conv_rhs => rw [← hflat]
    apply flat_congr
    intro i m hm
    have : (token i, m) ∈ order := (hmem _).mpr ⟨i, m, rfl, hm⟩
    have h2 : order.any (fun kv => kv.1 == token i) = true := by
      rw [List.any_eq_true]
      exact ⟨_, this, by simp⟩
    simp [h2]
  · intro kv hkv
    obtain ⟨j, m, rfl, hm⟩ := (hmem kv).mp hkv
    exact ⟨j, rfl, fun m' hm' => segments_unique hm' hm⟩

/-! ## Claims on the positions of the replacements and on the order of the restoration -/

/-- C24, counterexample: in the text `$[a](b) $C` the matches are `[a](b)` and `$C`.  Replaced
at their own positions they give `$CHILI_REF_0_CHILI CHILI_REF_1_CHILI`; `protectVariables`
finds the first occurrence of `$C` astride the `$` in front of the first placeholder and its
first letter, and returns `CHILI_REF_1_CHILIHILI_REF_0_CHILI $C`. -/
theorem protect_not_positional :
    findAllString "$[a](b) $C".toList = ["[a](b)".toList, "$C".toList] ∧
    protectPositional "$[a](b) $C".toList = "$CHILI_REF_0_CHILI CHILI_REF_1_CHILI".toList ∧
    (protectVariables "$[a](b) $C".toList).1 = "CHILI_REF_1_CHILIHILI_REF_0_CHILI $C".toList ∧
    (protectVariables "$[a](b) $C".toList).1 ≠ protectPositional "$[a](b) $C".toList := by
  decide

/-- C24, amended: for every text none of whose matches contains the letter `C`, the
protected text returned by `protectVariables` is the text in which the `i`-th match, counted
from the left, is replaced at its own position by `CHILI_REF_i_CHILI`. -/
theorem protectVariables_positional (text : Str)
    (hC : ∀ m ∈ findAllString text, 'C' ∉ m) :
    (protectVariables text).1 = protectPositional text := by
  unfold protectVariables findAllString protectPositional
  have := protectLoop_positional text.length 0 text [] [] (le_refl _) hC (noEarlier_nil _)
  simpa using this

/-- C24, witness: the text `Click $HOME or https://chili.com`, which contains the letter `C`
outside its two matches. -/
theorem protectVariables_positional_click :
    (∀ m ∈ findAllString "Click $HOME or https://chili.com".toList, 'C' ∉ m) ∧
    (protectVariables "Click $HOME or https://chili.com".toList).1 =
      "Click CHILI_REF_0_CHILI or CHILI_REF_1_CHILI".toList :=
  ⟨by decide, (protectVariables_positional "Click $HOME or https://chili.com".toList
    (by decide)).trans (by decide)⟩

/-- C25, counterexample: for the text `%d_REF_1_%s` the placeholder map has the entries
`CHILI_REF_0_CHILI ↦ %d` and `CHILI_REF_1_CHILI ↦ %s`; applied in this order the replacements
give `%d_REF_1_%s`, applied in the other order they give `CHILI_REF_0_%s_REF_1_CHILI`. -/
theorem restore_order_matters :
    (protectVariables "%d_REF_1_%s".toList).2 =
      [(token 0, "%d".toList), (token 1, "%s".toList)] ∧
    restoreVariables (protectVariables "%d_REF_1_%s".toList).1
      [(token 0, "%d".toList), (token 1, "%s".toList)] = "%d_REF_1_%s".toList ∧
    restoreVariables (protectVariables "%d_REF_1_%s".toList).1
      [(token 1, "%s".toList), (token 0, "%d".toList)] = "CHILI_REF_0_%s_REF_1_CHILI".toList ∧
    restoreVariables (protectVariables "%d_REF_1_%s".toList).1
      [(token 0, "%d".toList), (token 1, "%s".toList)] ≠
    restoreVariables (protectVariables "%d_REF_1_%s".toList).1
      [(token 1, "%s".toList), (token 0, "%d".toList)] := by
  decide

/-- C25, amended: for every text that does not contain the fragment `_REF_` and none of
whose matches contains the letter `C`, with the protected text and the placeholder map that
`protectVariables` returns, applying the replacements of the map in any two orders yields
the same string. -/
theorem restore_order_irrelevant (text : Str) (hC : ∀ m ∈ findAllString text, 'C' ∉ m)
    (hR : ¬ "_REF_".toList <:+: text) (order1 order2 : List (Str × Str))
    (h1 : order1.Perm (protectVariables text).2)
    (h2 : order2.Perm (protectVariables text).2) :
    restoreVariables (protectVariables text).1 order1 =
      restoreVariables (protectVariables text).1 order2 := by
  rw [restore_protect_round_trip text hC hR order1 h1,
    restore_protect_round_trip text hC hR order2 h2]

/-- C25, witness: the text `Click $HOME or https://chili.com`, which has the letter `C`
outside its matches, and the two orders of its two entries. -/
theorem restore_order_irrelevant_selfTest :
    (∀ m ∈ findAllString "Click $HOME or https://chili.com".toList, 'C' ∉ m) ∧
    ¬ "_REF_".toList <:+: "Click $HOME or https://chili.com".toList ∧
    restoreVariables (protectVariables "Click $HOME or https://chili.com".toList).1
      [(token 0, "$HOME".toList), (token 1, "https://chili.com".toList)] =
    restoreVariables (protectVariables "Click $HOME or https://chili.com".toList).1
      [(token 1, "https://chili.com".toList), (token 0, "$HOME".toList)] :=
  ⟨by decide, by decide,
    restore_order_irrelevant "Click $HOME or https://chili.com".toList
      (by decide) (by decide) _ _
      (by rw [show (protectVariables "Click $HOME or https://chili.com".toList).2 =
            [(token 0, "$HOME".toList), (token 1, "https://chili.com".toList)] from by decide])
      (by rw [show (protectVariables "Click $HOME or https://chili.com".toList).2 =
            [(token 0, "$HOME".toList), (token 1, "https://chili.com".toList)] from by decide]
          exact (List.reverse_perm [(token 0, "$HOME".toList),
            (token 1, "https://chili.com".toList)]))⟩

/-- Remark on the amended C25, the letter `C`: the text `$[a](b) $C` does not contain `_REF_`;
applied in the order of insertion the replacements give `$CHILI_REF_0_CHILI $C`, applied
in the other order they give the text itself. -/
theorem order_needs_no_C :
    ¬ "_REF_".toList <:+: "$[a](b) $C".toList ∧
    restoreVariables (protectVariables "$[a](b) $C".toList).1
      [(token 0, "[a](b)".toList), (token 1, "$C".toList)] = "$CHILI_REF_0_CHILI $C".toList ∧
    restoreVariables (protectVariables "$[a](b) $C".toList).1
      [(token 1, "$C".toList), (token 0, "[a](b)".toList)] = "$[a](b) $C".toList := by
  decide

/-! ## Lemmas on `translateMarkdown` -/

/-- On a cache that holds no nil map under `lang` no call of the loop panics: the loop comes
to its end. -/
theorem markdownLoop_returns (u : Char → Char) (cfg : Config) (envAt : Nat → Env) (lang : Str)
    (i : Nat) (b : Bool) (st : State) (lines : List Str)
    (hn : nilUnder st.cacheData lang = false) :
    ∃ ls, (markdownLoop u cfg envAt lang i b st lines).1 = some ls := by
  induction lines generalizing i b st with
  | nil => exact ⟨[], rfl⟩
  | cons line rest ih =>
    unfold markdownLoop
    split
    · obtain ⟨ls, h⟩ := ih (i + 1) (!b) st hn
      exact ⟨line :: ls, by simp [h]⟩
    · split
      · obtain ⟨ls, h⟩ := ih (i + 1) b st hn
        exact ⟨line :: ls, by simp [h]⟩
      · simp only [call_no_panic u cfg (envAt i) st _ lang hn, Bool.false_eq_true, if_false]
        obtain ⟨ls, h⟩ := ih (i + 1) b
          (callUniversalTranslator u cfg (envAt i) st
            (match mdPrefix line with
              | some loc => loc
              | none => ([], line)).2 lang).st
          (by rw [call_nilUnder]; exact hn)
        exact ⟨_, (congrArg (Option.map _) h).trans rfl⟩

theorem markdownLoop_length (u : Char → Char) (cfg : Config) (envAt : Nat → Env) (lang : Str)
    (i : Nat) (b : Bool) (st : State) (lines ls : List Str)
    (h : (markdownLoop u cfg envAt lang i b st lines).1 = some ls) :
    ls.length = lines.length := by
  induction lines generalizing i b st ls with
  | nil =>
    simp only [markdownLoop, Option.some.injEq] at h
    subst h; rfl
  | cons line rest ih =>
    unfold markdownLoop at h
    split at h
    · simp only [Option.map_eq_some'] at h
      obtain ⟨ls', h', rfl⟩ := h
      simp [ih _ _ _ _ h']
    · split at h
      · simp only [Option.map_eq_some'] at h
        obtain ⟨ls', h', rfl⟩ := h
        simp [ih _ _ _ _ h']
      · simp only at h
        split at h
        · exact absurd h (by simp)
        · simp only [Option.map_eq_some'] at h
          obtain ⟨ls', h', rfl⟩ := h
          simp [ih _ _ _ _ h']

/-- The lines that the loop keeps, when it starts with the flag `b`: the code-fence lines,
the blank lines, and the lines before which the flag, switched at every code-fence line,
is set. -/
theorem markdownLoop_kept (u : Char → Char) (cfg : Config) (envAt : Nat → Env) (lang : Str)
    (i : Nat) (b : Bool) (st : State) (lines ls : List Str)
    (h : (markdownLoop u cfg envAt lang i b st lines).1 = some ls) (j : Nat) (line : Str)
    (hj : lines[j]? = some line)
    (hk : isFenceLine line = true ∨ (b != inFencedBlock lines j) = true ∨ trimSpace line = []) :
    ls[j]? = some line := by
  induction lines generalizing i b st j ls with
  | nil => simp at hj
  | cons l rest ih =>
    cases j with
    | zero =>
      simp only [List.getElem?_cons_zero, Option.some.injEq] at hj
      subst hj
      unfold markdownLoop at h
      split at h
      · simp only [Option.map_eq_some'] at h
        obtain ⟨ls', h', rfl⟩ := h
        simp
      · rename_i hfence
        split at h
        · simp only [Option.map_eq_some'] at h
          obtain ⟨ls', h', rfl⟩ := h
          simp
        · rename_i hno
          exfalso
          simp only [Bool.or_eq_true, beq_iff_eq, not_or] at hno
          rcases hk with hk | hk | hk
          · exact hfence hk
          · simp [inFencedBlock] at hk
            exact hno.1 hk
          · exact hno.2 hk
    | succ j =>
      simp only [List.getElem?_cons_succ] at hj
      unfold markdownLoop at h
      split at h
      · rename_i hfence
        simp only [Option.map_eq_some'] at h
        obtain ⟨ls', h', rfl⟩ := h
        simp only [List.getElem?_cons_succ]
        apply ih _ _ _ _ h' j hj
        rcases hk with hk | hk | hk
        · exact Or.inl hk
        · right; left
          have hf : isFenceLine l = true := hfence
          simp only [inFencedBlock, List.take_succ_cons, List.countP_cons, hf, if_true] at hk ⊢
          cases b <;> simp at hk ⊢ <;> omega
        · exact Or.inr (Or.inr hk)
      · rename_i hfence
        have hf : isFenceLine l = false := by simpa [isFenceLine] using hfence
        have hk' : isFenceLine line = true ∨ (b != inFencedBlock rest j) = true ∨
            trimSpace line = [] := by
          rcases hk with hk | hk | hk
          · exact Or.inl hk
          · right; left
            simpa [inFencedBlock, List.take_succ_cons, List.countP_cons, hf] using hk
          · exact Or.inr (Or.inr hk)
        split at h
        · simp only [Option.map_eq_some'] at h
          obtain ⟨ls', h', rfl⟩ := h
          simp only [List.getElem?_cons_succ]
          exact ih _ _ _ _ h' j hj hk'
        · simp only at h
          split at h
          · exact absurd h (by simp)
          · simp only [Option.map_eq_some'] at h
            obtain ⟨ls', h', rfl⟩ := h
            simp only [List.getElem?_cons_succ]
            exact ih _ _ _ _ h' j hj hk'

theorem splitLines_ne_nil (s : Str) : splitLines s ≠ [] := by
  cases s with
  | nil => simp [splitLines]
  | cons c cs =>
    unfold splitLines
    split
    · simp
    · split <;> simp

/-- Splitting what was joined gives the lines back when no line contains a line feed. -/
theorem splitLines_joinLines (ls : List Str) (hne : ls ≠ [])
    (h : ∀ l ∈ ls, '\n' ∉ l) : splitLines (joinLines ls) = ls := by
  induction ls with
  | nil => exact absurd rfl hne
  | cons l rest ih =>
    have hl : '\n' ∉ l := h l (by simp)
    cases rest with
    | nil =>
      simp only [joinLines]
      clear ih h hne
      induction l with
      | nil => rfl
      | cons c cs ihc =>
        have hc : c ≠ '\n' := fun e => hl (by simp [e])
        have := ihc (fun hm => hl (by simp [hm]))
        simp [splitLines, hc, this]
    | cons l2 rest2 =>
      have ih' := ih (by simp) (fun x hx => h x (by simp [hx]))
      simp only [joinLines] at ih' ⊢
      clear ih h hne
      induction l with
      | nil => simp [splitLines, ih']
      | cons c cs ihc =>
        have hc : c ≠ '\n' := fun e => hl (by simp [e])
        have := ihc (fun hm => hl (by simp [hm]))
        simp only [List.cons_append, splitLines, hc, if_false]
        rw [show cs.append ('\n' :: joinLines (l2 :: rest2)) =
          cs ++ '\n' :: joinLines (l2 :: rest2) from rfl, this]

/-- The lines that `translateMarkdown` appends to `translatedLines` when no call panics: one
per input line, in the same order, joined by line feeds in what is written; the `i`-th of
them is the `i`-th input line whenever that input line is a code-fence line, lies inside a
fenced code block, or is blank. -/
theorem translateMarkdown_keeps_code (u : Char → Char) (cfg : Config) (envAt : Nat → Env)
    (st : State) (content lang : Str) (out : List Str)
    (h : (markdownLoop u cfg envAt lang 0 false st (splitLines content)).1 = some out) :
    (translateMarkdown u cfg envAt st content lang).1 = some (joinLines out) ∧
    out.length = (splitLines content).length ∧
    ∀ i line, (splitLines content)[i]? = some line →
      isFenceLine line = true ∨ inFencedBlock (splitLines content) i = true ∨
        trimSpace line = [] →
      out[i]? = some line := by
  refine ⟨by simp [translateMarkdown, h], markdownLoop_length _ _ _ _ _ _ _ _ _ h,
    fun i line hi hk => ?_⟩
  apply markdownLoop_kept _ _ _ _ _ _ _ _ _ h i line hi
  rcases hk with hk | hk | hk
  · exact Or.inl hk
  · exact Or.inr (Or.inl (by simpa using hk))
  · exact Or.inr (Or.inr hk)

/-- The lines appended for the input of the self-test, with a translator that prints
`Traducir`: the second, third and fourth lines, the fences and the code between them, are
appended as they are. -/
theorem translateMarkdown_keeps_code_selfTest :
    splitLines "# Title\n```go\nfmt.Println(\"Keep\")\n```\nTranslate".toList =
      ["# Title".toList, "```go".toList, "fmt.Println(\"Keep\")".toList, "```".toList,
        "Translate".toList] ∧
    inFencedBlock (splitLines "# Title\n```go\nfmt.Println(\"Keep\")\n```\nTranslate".toList) 2
      = true ∧
    (markdownLoop id onlineConfig (fun _ => traducirEnv) "es".toList 0 false emptyState
      (splitLines "# Title\n```go\nfmt.Println(\"Keep\")\n```\nTranslate".toList)).1 =
      some ["# Traducir".toList, "```go".toList, "fmt.Println(\"Keep\")".toList,
        "```".toList, "Traducir".toList] ∧
    (translateMarkdown id onlineConfig (fun _ => traducirEnv) emptyState
      "# Title\n```go\nfmt.Println(\"Keep\")\n```\nTranslate".toList "es".toList).1 =
      some "# Traducir\n```go\nfmt.Println(\"Keep\")\n```\nTraducir".toList :=
  ⟨by decide, by decide, by decide,
    (translateMarkdown_keeps_code id onlineConfig (fun _ => traducirEnv) emptyState
      "# Title\n```go\nfmt.Println(\"Keep\")\n```\nTranslate".toList "es".toList
      ["# Traducir".toList, "```go".toList, "fmt.Println(\"Keep\")".toList,
        "```".toList, "Traducir".toList] (by decide)).1.trans (by decide)⟩

/-- The lines of the written file: when none of the lines appended to `translatedLines`
contains a line feed, the lines of the content that `translateMarkdown` writes are these
lines, as many as the lines of the input. -/
theorem translateMarkdown_file_lines (u : Char → Char) (cfg : Config) (envAt : Nat → Env)
    (st : State) (content lang : Str) (ls : List Str)
    (hls : (markdownLoop u cfg envAt lang 0 false st (splitLines content)).1 = some ls)
    (h : ∀ l ∈ ls, '\n' ∉ l) :
    (translateMarkdown u cfg envAt st content lang).1 = some (joinLines ls) ∧
    splitLines (joinLines ls) = ls := by
  refine ⟨by simp [translateMarkdown, hls], splitLines_joinLines _ ?_ h⟩
  intro h0
  have := markdownLoop_length u cfg envAt lang 0 false st (splitLines content) ls hls
  rw [h0] at this
  exact splitLines_ne_nil content (List.length_eq_zero.mp this.symm)

/-- With the nil map under `es` in the cache and a translator that succeeds, the call for the
first line panics and `translateMarkdown` writes no file. -/
theorem translateMarkdown_panics :
    (translateMarkdown id onlineConfig (fun _ => traducirEnv) nilMapState
      "Hello".toList "es".toList).1 = none := by
  decide

/-! ## Claim on `translateMarkdown` -/

/-- C23, counterexample: the input has the two lines `Hello` and a code fence; the translator
prints the two lines `a` and `b` for `Hello`.  The file that `translateMarkdown` writes has
the three lines `a`, `b` and the fence: not one line per input line, and its second line is
`b` although the second input line is a code-fence line. -/
theorem translateMarkdown_adds_line :
    splitLines "Hello\n```".toList = ["Hello".toList, "```".toList] ∧
    isFenceLine "```".toList = true ∧
    (translateMarkdown id onlineConfig (fun _ => twoLineEnv) emptyState
      "Hello\n```".toList "es".toList).1 = some "a\nb\n```".toList ∧
    splitLines "a\nb\n```".toList = ["a".toList, "b".toList, "```".toList] ∧
    (splitLines "a\nb\n```".toList)[1]? ≠ (splitLines "Hello\n```".toList)[1]? := by
  decide

/-- C23, amended: for every Markdown input and every behaviour of the translator,
`translateMarkdown` comes to write its file when the cache does not hold the nil map under
`lang`; and whenever it writes the file and no line that it appended to `translatedLines`
contains a line feed (the input lines contain none, so this says that no translation
returned contains one), the file has one line per input line, in the same order, and its
`i`-th line is the `i`-th input line, rune for rune, whenever that input line is a
code-fence line (its trimmed text starts with three backticks), lies inside a fenced code
block, or is blank. -/
theorem translateMarkdown_file_keeps_code (u : Char → Char) (cfg : Config) (envAt : Nat → Env)
    (st : State) (content lang : Str) :
    (nilUnder st.cacheData lang = false →
      ∃ ls, (markdownLoop u cfg envAt lang 0 false st (splitLines content)).1 = some ls) ∧
    ∀ ls, (markdownLoop u cfg envAt lang 0 false st (splitLines content)).1 = some ls →
      (∀ l ∈ ls, '\n' ∉ l) →
      ∃ out, (translateMarkdown u cfg envAt st content lang).1 = some out ∧
        (splitLines out).length = (splitLines content).length ∧
        ∀ i line, (splitLines content)[i]? = some line →
          isFenceLine line = true ∨ inFencedBlock (splitLines content) i = true ∨
            trimSpace line = [] →
          (splitLines out)[i]? = some line := by
  refine ⟨markdownLoop_returns u cfg envAt lang 0 false st _, fun ls hls h => ?_⟩
  obtain ⟨h1, h2⟩ := translateMarkdown_file_lines u cfg envAt st content lang ls hls h
  refine ⟨_, h1, ?_, fun i line hi hk => ?_⟩
  · rw [h2]; exact markdownLoop_length _ _ _ _ _ _ _ _ _ hls
  · rw [h2]
    apply markdownLoop_kept _ _ _ _ _ _ _ _ _ hls i line hi
    rcases hk with hk | hk | hk
    · exact Or.inl hk
    · exact Or.inr (Or.inl (by simpa using hk))
    · exact Or.inr (Or.inr hk)

/-- C23, witness: the input of the self-test, with a translator that prints `Traducir`: the
written file has the five lines of the input, with the fences and the code between them as
they are. -/
theorem translateMarkdown_file_keeps_code_selfTest :
    nilUnder emptyState.cacheData "es".toList = false ∧
    (markdownLoop id onlineConfig (fun _ => traducirEnv) "es".toList 0 false emptyState
      (splitLines "# Title\n```go\nfmt.Println(\"Keep\")\n```\nTranslate".toList)).1 =
      some ["# Traducir".toList, "```go".toList, "fmt.Println(\"Keep\")".toList,
        "```".toList, "Traducir".toList] ∧
    (∀ l ∈ ["# Traducir".toList, "```go".toList, "fmt.Println(\"Keep\")".toList,
        "```".toList, "Traducir".toList], '\n' ∉ l) ∧
    inFencedBlock (splitLines "# Title\n```go\nfmt.Println(\"Keep\")\n```\nTranslate".toList) 2
      = true ∧
    ∃ out, (translateMarkdown id onlineConfig (fun _ => traducirEnv) emptyState
        "# Title\n```go\nfmt.Println(\"Keep\")\n```\nTranslate".toList "es".toList).1 =
        some out ∧
      (splitLines out).length =
        (splitLines "# Title\n```go\nfmt.Println(\"Keep\")\n```\nTranslate".toList).length ∧
      (splitLines out)[2]? = some "fmt.Println(\"Keep\")".toList :=
  ⟨by decide, by decide, by decide, by decide,
    (((translateMarkdown_file_keeps_code id onlineConfig (fun _ => traducirEnv) emptyState
      "# Title\n```go\nfmt.Println(\"Keep\")\n```\nTranslate".toList "es".toList).2
      ["# Traducir".toList, "```go".toList, "fmt.Println(\"Keep\")".toList,
        "```".toList, "Traducir".toList] (by decide) (by decide)).imp) (fun _ h => ⟨h.1, h.2.1,
        h.2.2 2 "fmt.Println(\"Keep\")".toList (by decide) (Or.inr (Or.inl (by decide)))⟩)⟩

/-! ## Claim on `translateFile` -/

/-- C28, the code at the failing input: for the catalog `pluralCatalog`, with a translator
that prints `hola`, `translateFile` writes the first comment and the entry `next` only.  The
line `msgid "one file"` is not in the output, nor are the lines of its plural form, the blank
line and the comment of the entry `next`: the lines after a `msgid` are collected until a
line that starts with `msgstr ` and a space, and a new `msgid` discards what was collected.
A catalog that ends after a `msgid` line loses that entry in the same way. -/
theorem translateFile_drops_plural :
    (translateFile id onlineConfig (fun _ => holaEnv 9) emptyState pluralCatalog
      "es".toList).1 = "#: a.sh:1\nmsgid \"next\"\nmsgstr \"hola\"\n".toList ∧
    ¬ "msgid \"one file\"".toList <:+:
      (translateFile id onlineConfig (fun _ => holaEnv 9) emptyState pluralCatalog
        "es".toList).1 ∧
    (translateFile id onlineConfig (fun _ => holaEnv 9) emptyState
      ["msgid \"last\"".toList] "es".toList).1 = [] := by
  refine ⟨by decide, ?_, by decide⟩
  rw [show (translateFile id onlineConfig (fun _ => holaEnv 9) emptyState pluralCatalog
      "es".toList).1 = "#: a.sh:1\nmsgid \"next\"\nmsgstr \"hola\"\n".toList from by decide]
  decide

/-! ## Lemmas on `translateMap` -/

theorem callSeq_append (u : Char → Char) (cfg : Config) (envAt : Nat → Env) (lang : Str)
    (a b : List Str) (n : Nat) (st : State) :
    callSeq u cfg envAt lang n st (a ++ b) =
      ((callSeq u cfg envAt lang n st a).1 ++
          (callSeq u cfg envAt lang (n + a.length) (callSeq u cfg envAt lang n st a).2 b).1,
        (callSeq u cfg envAt lang (n + a.length) (callSeq u cfg envAt lang n st a).2 b).2) := by
  induction a generalizing n st with
  | nil => simp [callSeq]
  | cons t ts ih =>
    simp only [List.cons_append, callSeq, List.length_cons]
    rw [show ts.append b = ts ++ b from rfl, ih]
    simp only [List.cons_append, show n + 1 + ts.length = n + (ts.length + 1) by omega]

theorem callSeq_length (u : Char → Char) (cfg : Config) (envAt : Nat → Env) (lang : Str)
    (ts : List Str) (n : Nat) (st : State) :
    (callSeq u cfg envAt lang n st ts).1.length = ts.length := by
  induction ts generalizing n st with
  | nil => rfl
  | cons t ts ih => simp [callSeq, ih]

theorem callSeq_nilUnder (u : Char → Char) (cfg : Config) (envAt : Nat → Env) (lang l : Str)
    (ts : List Str) (n : Nat) (st : State) :
    nilUnder (callSeq u cfg envAt lang n st ts).2.cacheData l = nilUnder st.cacheData l := by
  induction ts generalizing n st with
  | nil => rfl
  | cons t ts ih => simp only [callSeq]; rw [ih, call_nilUnder]

mutual
theorem valueTexts_length : (v : JVal) → (valueTexts v).length = valueStrings v
  | JVal.str s => by simp [valueTexts, valueStrings]
  | JVal.obj m => by
    unfold valueTexts valueStrings
    exact memberTexts_length m
  | JVal.null => by simp [valueTexts, valueStrings]
  | JVal.bool b => by simp [valueTexts, valueStrings]
  | JVal.num t => by simp [valueTexts, valueStrings]
  | JVal.arr items => by simp [valueTexts, valueStrings]
theorem memberTexts_length : (m : JMembers) → (memberTexts m).length = memberStrings m
  | JMembers.nil => by simp [memberTexts, memberStrings]
  | JMembers.cons k v rest => by
    unfold memberTexts memberStrings
    rw [List.length_append, valueTexts_length v, memberTexts_length rest]
end

theorem memberKeys_memberFill : (m : JMembers) → (rs : List Str) →
    memberKeys (memberFill m rs).1 = memberKeys m
  | JMembers.nil, rs => by simp [memberFill, memberKeys]
  | JMembers.cons k v rest, rs => by
    simp [memberFill, memberKeys, memberKeys_memberFill rest]

mutual
theorem translateValue_eq (u : Char → Char) (cfg : Config) (envAt : Nat → Env)
    (lang : Str) : (v : JVal) → (n : Nat) → (st : State) → (more : List Str) →
    nilUnder st.cacheData lang = false →
    translateValue u cfg envAt lang v (n, st) =
      (some (valueFill v ((callSeq u cfg envAt lang n st (valueTexts v)).1 ++ more)).1,
        (n + (valueTexts v).length, (callSeq u cfg envAt lang n st (valueTexts v)).2)) ∧
    (valueFill v ((callSeq u cfg envAt lang n st (valueTexts v)).1 ++ more)).2 = more
  | JVal.str s, n, st, more, hn => by
    have hp := call_no_panic u cfg (envAt n) st s lang hn
    simp only [translateValue, hp, Bool.false_eq_true, if_false, valueTexts, callSeq,
      List.cons_append, List.nil_append, valueFill, List.length_singleton]
    exact ⟨trivial, trivial⟩
  | JVal.obj m, n, st, more, hn => by
    obtain ⟨h1, h2⟩ := translateMap_eq u cfg envAt lang m n st more hn
    unfold translateValue valueTexts valueFill
    rw [h1]
    exact ⟨rfl, h2⟩
  | JVal.null, n, st, more, hn => by simp [translateValue, valueTexts, callSeq, valueFill]
  | JVal.bool b, n, st, more, hn => by simp [translateValue, valueTexts, callSeq, valueFill]
  | JVal.num t, n, st, more, hn => by simp [translateValue, valueTexts, callSeq, valueFill]
  | JVal.arr items, n, st, more, hn => by
    simp [translateValue, valueTexts, callSeq, valueFill]
theorem translateMap_eq (u : Char → Char) (cfg : Config) (envAt : Nat → Env)
    (lang : Str) : (m : JMembers) → (n : Nat) → (st : State) → (more : List Str) →
    nilUnder st.cacheData lang = false →
    translateMap u cfg envAt lang m (n, st) =
      (some (memberFill m ((callSeq u cfg envAt lang n st (memberTexts m)).1 ++ more)).1,
        (n + (memberTexts m).length, (callSeq u cfg envAt lang n st (memberTexts m)).2)) ∧
    (memberFill m ((callSeq u cfg envAt lang n st (memberTexts m)).1 ++ more)).2 = more
  | JMembers.nil, n, st, more, hn => by simp [translateMap, memberTexts, callSeq, memberFill]
  | JMembers.cons k v rest, n, st, more, hn => by
    have hn2 : nilUnder (callSeq u cfg envAt lang n st (valueTexts v)).2.cacheData lang =
        false := by rw [callSeq_nilUnder]; exact hn
    obtain ⟨h1, h2⟩ := translateValue_eq u cfg envAt lang v n st
      ((callSeq u cfg envAt lang (n + (valueTexts v).length)
        (callSeq u cfg envAt lang n st (valueTexts v)).2 (memberTexts rest)).1 ++ more) hn
    obtain ⟨h3, h4⟩ := translateMap_eq u cfg envAt lang rest (n + (valueTexts v).length)
      (callSeq u cfg envAt lang n st (valueTexts v)).2 more hn2
    unfold translateMap memberTexts memberFill
    rw [callSeq_append]
    simp only [List.append_assoc]
    rw [h1]
    simp only
    rw [h3, h2]
    simp only [Option.map_some', List.length_append, Nat.add_assoc]
    refine ⟨?_, h4⟩
    first | rfl | trivial
end

/-- What `translateMap` does on a cache that holds no nil map under `lang`.  It returns; the
texts that it hands to `callUniversalTranslator` are the strings that are direct members of
the objects of the tree, at any depth of object nesting, in the order of the visit; the
calls are made one after the other, each from the state that the call before left; the tree
afterwards is the tree with each of these strings replaced by what its call returned, and
the state afterwards is the state after the last call. -/
theorem translateMap_exact (u : Char → Char) (cfg : Config) (envAt : Nat → Env)
    (lang : Str) (m : JMembers) (n : Nat) (st : State)
    (hn : nilUnder st.cacheData lang = false) :
    translateMap u cfg envAt lang m (n, st) =
      (some (memberFill m (callSeq u cfg envAt lang n st (memberTexts m)).1).1,
        (n + memberStrings m, (callSeq u cfg envAt lang n st (memberTexts m)).2)) ∧
    memberKeys (memberFill m (callSeq u cfg envAt lang n st (memberTexts m)).1).1 =
      memberKeys m := by
  have h := (translateMap_eq u cfg envAt lang m n st [] hn).1
  rw [List.append_nil, memberTexts_length] at h
  exact ⟨h, memberKeys_memberFill m _⟩

/-- In the tree `sampleTree`, with a translator that prints `hola`, the strings under `title`
and under `sub.t` become `hola`; the number and the array, with the string and the object
inside it, stay; two calls are made. -/
theorem translateMap_exact_sample :
    nilUnder emptyState.cacheData "es".toList = false ∧
    memberTexts sampleTree = ["Hello".toList, "Hello".toList] ∧
    (translateMap id onlineConfig (fun _ => holaEnv 9) "es".toList sampleTree
      (0, emptyState)).1 =
      some (JMembers.cons "title".toList (JVal.str "hola".toList)
      (JMembers.cons "n".toList (JVal.num "3".toList)
      (JMembers.cons "tags".toList
        (JVal.arr (JList.cons (JVal.str "Hello".toList)
          (JList.cons
            (JVal.obj (JMembers.cons "x".toList (JVal.str "Hello".toList) JMembers.nil))
            JList.nil)))
      (JMembers.cons "sub".toList
        (JVal.obj (JMembers.cons "t".toList (JVal.str "hola".toList) JMembers.nil))
      JMembers.nil)))) ∧
    (translateMap id onlineConfig (fun _ => holaEnv 9) "es".toList sampleTree
      (0, emptyState)).2.1 = 2 :=
  ⟨by decide, by rfl, by rfl,
    (congrArg (fun r => r.2.1) (translateMap_exact id onlineConfig (fun _ => holaEnv 9)
      "es".toList sampleTree 0 emptyState (by decide)).1).trans (by rfl)⟩

/-! ## Claim on `translateMap` -/

/-- C29, the code at the failing input: the cache file holds `{"es": null}`, which
`loadCache` reads as a cache with the nil map under `es`.  Online, with a translator that
prints `hola`, `translateMap` on the tree `sampleTree` makes the call for the string under
`title`, its first member; the call obtains `hola` and panics at the assignment
`cacheData[lang][normID] = ...`.  `translateMap` does not return: no string is replaced,
one call was made of the two that the tree asks for, and `netCalls` is 1. -/
theorem translateMap_panics :
    loadCache unixLib nilMapFile emptyState = nilMapState ∧
    memberTexts sampleTree = ["Hello".toList, "Hello".toList] ∧
    (callUniversalTranslator id onlineConfig (holaEnv 9) nilMapState
      "Hello".toList "es".toList).trace.getLast? = some Event.panic ∧
    translateMap id onlineConfig (fun _ => holaEnv 9) "es".toList sampleTree
      (0, nilMapState) = (none, (1, ⟨some [("es".toList, none)], 0, 1, 0⟩)) := by
  refine ⟨by rfl, by rfl, by decide, by rfl⟩

/-! ## Lemmas on `loadCache` and `main` -/

/-- With `--clean-cache`, `main` leaves the cache file as it found it. -/
theorem main_clean_keeps_file (lib : JsonLib) (run : Run) (now zoneShift : Int)
    (visit : List Str → List Str) (selfTest : State → State)
    (processFiles : List Str → State → State) (file : CacheFile)
    (h : run.cleanCacheFlag = true) :
    (main lib run now zoneShift visit selfTest processFiles file).file = file := by
  unfold main mainBody
  cases run.depsFound <;> cases run.versionFlag <;> cases run.selfTestFlag <;> simp [h]

/-! ## Claims on `loadCache` and on `--clean-cache` -/

/-- C21, counterexample: three cache files that are not serializations of the cache schema.
For `{"es": {"hello": "hola"}}`, the format of the versions up to 2.0.8, `json.Unmarshal`
reports the string and stores a zero entry under `hello`: the cache is not empty.  For
`{"es": {"hello": {"v": "hola"}}, "fr": 5}` it reports the number under `fr` and stores the
rest, the entry `hello ↦ hola` under `es` included, with the nil map under `fr`.  For `null`
it sets `cacheData` to nil. -/
theorem loadCache_keeps_partial :
    (loadCache unixLib legacyFile emptyState).cacheData =
      some [("es".toList, some [("hello".toList, ⟨[], unixLib.zeroTime⟩)])] ∧
    (loadCache unixLib legacyFile emptyState).cacheData ≠ some [] ∧
    (loadCache unixLib partialFile emptyState).cacheData =
      some [("es".toList, some [("hello".toList, ⟨"hola".toList, unixLib.zeroTime⟩)]),
        ("fr".toList, none)] ∧
    (loadCache unixLib (CacheFile.json JVal.null) emptyState).cacheData = none := by
  refine ⟨by rfl, ?_, by rfl, by rfl⟩
  rw [show (loadCache unixLib legacyFile emptyState).cacheData =
      some [("es".toList, some [("hello".toList, ⟨[], unixLib.zeroTime⟩)])] from by rfl]
  simp

/-- C21, amended: `loadCache` always returns, and when the cache file is missing or
unreadable, or its content is not the text of a JSON value, or is a JSON value other than an
object and other than `null`, `cacheData` afterwards is an empty, non-nil cache; the counters
are as they were. -/
theorem loadCache_tolerant (lib : JsonLib) (file : CacheFile) (st : State)
    (h : isObjectOrNull file = false) :
    (loadCache lib file st).cacheData = some [] ∧
    (loadCache lib file st).cacheHits = st.cacheHits ∧
    (loadCache lib file st).netCalls = st.netCalls ∧
    (loadCache lib file st).failedCalls = st.failedCalls := by
  cases file with
  | unreadable => exact ⟨rfl, rfl, rfl, rfl⟩
  | invalid => exact ⟨rfl, rfl, rfl, rfl⟩
  | json v =>
    cases v with
    | null => simp [isObjectOrNull] at h
    | obj m => simp [isObjectOrNull] at h
    | bool b => exact ⟨rfl, rfl, rfl, rfl⟩
    | num t => exact ⟨rfl, rfl, rfl, rfl⟩
    | str s => exact ⟨rfl, rfl, rfl, rfl⟩
    | arr items => exact ⟨rfl, rfl, rfl, rfl⟩

/-- C21, witness: a cache file that holds the array `[1]`, loaded over a cache that is not
empty. -/
theorem loadCache_tolerant_array :
    isObjectOrNull arrayFile = false ∧
    (loadCache unixLib arrayFile twoEntryState).cacheData = some [] :=
  ⟨rfl, (loadCache_tolerant unixLib arrayFile twoEntryState rfl).1⟩

/-- C22, the code at the failing input: the cache file holds the entries `old`, last used on
the day 9, and `new`, last used on the day 39, and the program is run with `--clean-cache`
on the day 40.  `doCleanCache` prunes `old` from the cache in memory, and the process ends
with status 0 through `os.Exit(0)`, so the deferred `saveCache` does not run: the cache file
is the one that was found, and the cache persisted in it still holds `old`. -/
theorem clean_cache_not_persisted :
    (loadCache unixLib twoEntryFile emptyState) = twoEntryState ∧
    (doCleanCache (40 * day) 0 id twoEntryState).2 = 1 ∧
    cacheLookup (main unixLib cleanRun (40 * day) 0 id id (fun _ st => st)
      twoEntryFile).st.cacheData "es".toList "old".toList = none ∧
    (main unixLib cleanRun (40 * day) 0 id id (fun _ st => st) twoEntryFile).status
      = 0 ∧
    (main unixLib cleanRun (40 * day) 0 id id (fun _ st => st) twoEntryFile).file
      = twoEntryFile ∧
    cacheLookup (loadCache unixLib
      (main unixLib cleanRun (40 * day) 0 id id (fun _ st => st) twoEntryFile).file
      emptyState).cacheData "es".toList "old".toList = some ⟨"a".toList, 9 * day⟩ := by
  refine ⟨by decide, by decide, by decide, by decide, rfl, by decide⟩

/-- Remark on C22, a run that translates: when the body of `main` returns, the deferred
`saveCache` runs and the cache file holds the cache of the end of the run; here the run
found no file and leaves two entries. -/
theorem main_saves_on_return :
    (main unixLib ⟨true, false, false, false, ["a.md".toList]⟩ 0 0 id id
      (fun _ _ => twoEntryState) CacheFile.unreadable).file =
      CacheFile.json (JVal.obj (JMembers.cons "es".toList
        (JVal.obj
          (JMembers.cons "new".toList
            (JVal.obj (JMembers.cons "v".toList (JVal.str "b".toList)
              (JMembers.cons "t".toList (JVal.str "1970-02-09T00:00:00Z".toList)
                JMembers.nil)))
          (JMembers.cons "old".toList
            (JVal.obj (JMembers.cons "v".toList (JVal.str "a".toList)
              (JMembers.cons "t".toList (JVal.str "1970-01-10T00:00:00Z".toList)
                JMembers.nil)))
          JMembers.nil)))
        JMembers.nil)) := by
  rfl
end ChiliTradutor
